import Mathlib

/-!
# B+Tree index manager (`src/src/btree.cpp`): shallow embedding

The embedding follows `btree.cpp` function by function.

* Keys are `int`; they are only compared and copied, so they are `Int`.
* `INTARRAYLEAFSIZE` and `INTARRAYNONLEAFSIZE` come from `btree.h`, which is
  not among the sources; they are the parameters `L` and `M`.
* A node array is a `List` of the array's length; a C index loop becomes a
  structural recursion over the number of remaining iterations.
* A page id (`PageId`) is a `Nat`.
* The buffer manager and the file are external.  The page store is a list of
  pages, page `n` (`n ≥ 1`) being element `n - 1`; page id `0` names no page.
  Pinning is not modelled.  `allocPage` hands out the next unused page id.
* The split routines hand the promoted pair back through the address of a
  local variable; the model passes the pair by value.
-/

namespace badgerdb

/-- Record locator: `RecordId` of BadgerDB (page number and slot number). -/
structure RecordId where
  page_number : Nat
  slot_number : Nat
deriving DecidableEq, Repr

/-- Pair `RIDKeyPair<int>`: the entry handed to `insertEntry`. -/
structure RIDKeyPair where
  rid : RecordId
  key : Int
deriving DecidableEq, Repr

/-- Pair `PageKeyPair<int>`: the promoted key and the page id of the new node. -/
structure PageKeyPair where
  pageNo : Nat
  key : Int
deriving DecidableEq, Repr

/-- Leaf node `LeafNodeInt`: `keyArray[L]`, `ridArray[L]`, `rightSibPageNo`. -/
structure LeafNodeInt where
  keyArray : List Int
  ridArray : List RecordId
  rightSibPageNo : Nat
deriving DecidableEq, Repr

/-- Internal node `NonLeafNodeInt`: `level`, `keyArray[M]`, `pageNoArray[M+1]`. -/
structure NonLeafNodeInt where
  level : Int
  keyArray : List Int
  pageNoArray : List Nat
deriving DecidableEq, Repr

/-- Read `leaf->keyArray[i]` for an index inside the array. -/
def LeafNodeInt.key (leaf : LeafNodeInt) (i : Nat) : Int :=
  leaf.keyArray.getD i 0

/-- Read `leaf->ridArray[i]` for an index inside the array. -/
def LeafNodeInt.rid (leaf : LeafNodeInt) (i : Nat) : RecordId :=
  leaf.ridArray.getD i ⟨0, 0⟩

/-- The two assignments `keyArray[i] = k; ridArray[i] = r`. -/
def LeafNodeInt.setSlot (leaf : LeafNodeInt) (i : Nat) (k : Int) (r : RecordId) : LeafNodeInt :=
  { leaf with keyArray := leaf.keyArray.set i k, ridArray := leaf.ridArray.set i r }

/-- The two assignments `keyArray[i] = 0; ridArray[i].page_number = 0`
(the slot number of the locator is left as it is). -/
def LeafNodeInt.clearSlot (leaf : LeafNodeInt) (i : Nat) : LeafNodeInt :=
  { leaf with keyArray := leaf.keyArray.set i 0,
              ridArray := leaf.ridArray.set i ⟨0, (leaf.rid i).slot_number⟩ }

/-- A leaf whose `L` slots were zeroed, as the constructor and `split_Leaf` do
with a newly allocated page (`rightSibPageNo` is assigned by the caller). -/
def LeafNodeInt.zeroed (L : Nat) (sib : Nat) : LeafNodeInt :=
  { keyArray := List.replicate L 0, ridArray := List.replicate L ⟨0, 0⟩, rightSibPageNo := sib }

/-- Read `node->keyArray[i]` for an index inside the array. -/
def NonLeafNodeInt.key (node : NonLeafNodeInt) (i : Nat) : Int :=
  node.keyArray.getD i 0

/-- Read `node->pageNoArray[i]` for an index inside the array. -/
def NonLeafNodeInt.pageNo (node : NonLeafNodeInt) (i : Nat) : Nat :=
  node.pageNoArray.getD i 0

/-- Assignment `keyArray[i] = k`. -/
def NonLeafNodeInt.setKey (node : NonLeafNodeInt) (i : Nat) (k : Int) : NonLeafNodeInt :=
  { node with keyArray := node.keyArray.set i k }

/-- Assignment `pageNoArray[i] = p`. -/
def NonLeafNodeInt.setPageNo (node : NonLeafNodeInt) (i : Nat) (p : Nat) : NonLeafNodeInt :=
  { node with pageNoArray := node.pageNoArray.set i p }

/-- An internal node whose `M` keys and `M + 1` child ids were zeroed, as
`split_nonLeaf` and `new_root` do with a newly allocated page. -/
def NonLeafNodeInt.zeroed (M : Nat) (level : Int) : NonLeafNodeInt :=
  { level := level, keyArray := List.replicate M 0, pageNoArray := List.replicate (M + 1) 0 }

/-- Modelled from the spec: `btree.h`, which declares the node structs, is not
among the sources.  The spec lists the fields of an internal node as the key
array, the child array and `level`; in the BadgerDB declaration `level` is the
`int` placed directly in front of `keyArray`, so the read `keyArray[-1]` that
the loop of `insert_nonLeaf` performs at `idx = 0` yields `level`. -/
def NonLeafNodeInt.keyBefore (node : NonLeafNodeInt) : Int :=
  node.level

/-- Modelled from the spec: the write `keyArray[-1] = k` (see `keyBefore`). -/
def NonLeafNodeInt.setKeyBefore (node : NonLeafNodeInt) (k : Int) : NonLeafNodeInt :=
  { node with level := k }

/-- Modelled from the spec: `btree.h` is not among the sources.  In the BadgerDB
declaration of the leaf, `ridArray` follows `keyArray` directly, so the read
`keyArray[L]` that `tree_search` performs when its cursor has run through a
full leaf yields `ridArray[0].page_number`. -/
def LeafNodeInt.keyAt (L : Nat) (leaf : LeafNodeInt) (i : Nat) : Int :=
  if i < L then leaf.key i else ((leaf.rid 0).page_number : Int)

/-! ## Navigation: `ChooseSubtree` -/

/-- The loop of `ChooseSubtree`:
`while (idx < M && keyArray[idx] <= key && pageNoArray[idx+1] != 0) idx++`.
The first argument bounds the number of iterations (`M` suffices). -/
def ChooseSubtree_loop (M : Nat) (node : NonLeafNodeInt) (key : Int) : Nat → Nat → Nat
  | 0, idx => idx
  | fuel + 1, idx =>
    if idx < M ∧ node.key idx ≤ key ∧ node.pageNo (idx + 1) ≠ 0 then
      ChooseSubtree_loop M node key fuel (idx + 1)
    else idx

/-- Index of the child `ChooseSubtree` selects. -/
def ChooseSubtree_idx (M : Nat) (node : NonLeafNodeInt) (key : Int) : Nat :=
  ChooseSubtree_loop M node key M 0

/-- Function `BTreeIndex::ChooseSubtree`: `nextpageNum = pageNoArray[idx]`. -/
def ChooseSubtree (M : Nat) (node : NonLeafNodeInt) (key : Int) : Nat :=
  node.pageNo (ChooseSubtree_idx M node key)

/-! ## Leaf insertion: `insert_Leaf` -/

/-- The loop `while (ridArray[End+1].page_number != 0) End++` of `insert_Leaf`.
The first argument bounds the iterations; with a free slot in the leaf the
loop stops inside the array. -/
def insert_Leaf_End (leaf : LeafNodeInt) : Nat → Nat → Nat
  | 0, e => e
  | fuel + 1, e =>
    if (leaf.rid (e + 1)).page_number ≠ 0 then insert_Leaf_End leaf fuel (e + 1) else e

/-- The loop
`for (idx = End; keyArray[idx] > key && idx >= 0; idx--) { slot[idx+1] = slot[idx]; }`
of `insert_Leaf`.  The counter is `idx + 1`; at `idx = -1` the second conjunct
ends the loop whatever the first one read.  Returns the final `idx + 1`. -/
def insert_Leaf_shift (key : Int) : Nat → LeafNodeInt → Nat × LeafNodeInt
  | 0, leaf => (0, leaf)
  | n + 1, leaf =>
    if leaf.key n > key then
      insert_Leaf_shift key n (leaf.setSlot (n + 1) (leaf.key n) (leaf.rid n))
    else (n + 1, leaf)

/-- Function `BTreeIndex::insert_Leaf`. -/
def insert_Leaf (leaf : LeafNodeInt) (entry : RIDKeyPair) : LeafNodeInt :=
  if (leaf.rid 0).page_number = 0 ∧ leaf.key 0 = 0 then
    leaf.setSlot 0 entry.key entry.rid
  else
    let e := insert_Leaf_End leaf leaf.ridArray.length 0
    let r := insert_Leaf_shift entry.key (e + 1) leaf
    r.2.setSlot r.1 entry.key entry.rid

/-! ## Internal insertion: `insert_nonLeaf` -/

/-- The loop `while (pageNoArray[End+1] != 0) End++` of `insert_nonLeaf`. -/
def insert_nonLeaf_End (node : NonLeafNodeInt) : Nat → Nat → Nat
  | 0, e => e
  | fuel + 1, e =>
    if node.pageNo (e + 1) ≠ 0 then insert_nonLeaf_End node fuel (e + 1) else e

/-- The loop
`for (idx = End; keyArray[idx-1] > key && idx >= 0; idx--) { keyArray[idx] = keyArray[idx-1]; pageNoArray[idx+1] = pageNoArray[idx]; }`
of `insert_nonLeaf`.  The counter is `idx + 1`; at `idx = 0` the loop reads
`keyArray[-1]`; at `idx = -1` the second conjunct ends the loop.  Returns the
final `idx + 1`. -/
def insert_nonLeaf_shift (key : Int) : Nat → NonLeafNodeInt → Nat × NonLeafNodeInt
  | 0, node => (0, node)
  | 1, node =>
    if node.keyBefore > key then
      insert_nonLeaf_shift key 0 ((node.setKey 0 node.keyBefore).setPageNo 1 (node.pageNo 0))
    else (1, node)
  | n + 2, node =>
    if node.key n > key then
      insert_nonLeaf_shift key (n + 1)
        ((node.setKey (n + 1) (node.key n)).setPageNo (n + 2) (node.pageNo (n + 1)))
    else (n + 2, node)

/-- Function `BTreeIndex::insert_nonLeaf`: after the loop,
`keyArray[idx] = key; pageNoArray[idx+1] = pageNo`. -/
def insert_nonLeaf (node : NonLeafNodeInt) (entry : PageKeyPair) : NonLeafNodeInt :=
  let e := insert_nonLeaf_End node node.pageNoArray.length 0
  let r := insert_nonLeaf_shift entry.key (e + 1) node
  match r.1 with
  | 0 => (r.2.setKeyBefore entry.key).setPageNo 0 entry.pageNo
  | j + 1 => (r.2.setKey j entry.key).setPageNo (j + 1) entry.pageNo

/-! ## Splits: `split_Leaf`, `split_nonLeaf` -/

/-- The loop of `split_Leaf`:
`for (i = mid; i < L; i++) { newLeaf[i-mid] = leaf[i]; leaf->keyArray[i] = 0; leaf->ridArray[i].page_number = 0; }`.
The first argument is the number of iterations left (`L - i`). -/
def split_Leaf_move (mid : Nat) : Nat → Nat → LeafNodeInt → LeafNodeInt → LeafNodeInt × LeafNodeInt
  | 0, _, leaf, newLeaf => (leaf, newLeaf)
  | fuel + 1, i, leaf, newLeaf =>
    split_Leaf_move mid fuel (i + 1) (leaf.clearSlot i)
      (newLeaf.setSlot (i - mid) (leaf.key i) (leaf.rid i))

/-- The median slot of `split_Leaf`:
`mid = L / 2; if (L % 2 == 1 && entry.key > leaf->keyArray[mid]) mid = mid + 1`. -/
def split_Leaf_mid (L : Nat) (leaf : LeafNodeInt) (key : Int) : Nat :=
  if L % 2 = 1 ∧ key > leaf.key (L / 2) then L / 2 + 1 else L / 2

/-- Function `BTreeIndex::split_Leaf`, on the two nodes: the old leaf, the page
id `PageNum` that `allocPage` returned, and the entry.  Returns the old leaf,
the new leaf and the pair `smallest_newLeaf` handed to the caller.
(`keyArray[mid - 1]` needs `mid ≥ 1`, which `L ≥ 2` gives.) -/
def split_Leaf (L : Nat) (leaf : LeafNodeInt) (PageNum : Nat) (entry : RIDKeyPair) :
    LeafNodeInt × LeafNodeInt × PageKeyPair :=
  let mid := split_Leaf_mid L leaf entry.key
  let moved := split_Leaf_move mid (L - mid) mid leaf (LeafNodeInt.zeroed L 0)
  let placed : LeafNodeInt × LeafNodeInt :=
    if entry.key > moved.1.key (mid - 1) then (moved.1, insert_Leaf moved.2 entry)
    else (insert_Leaf moved.1 entry, moved.2)
  let smallest_newLeaf : PageKeyPair := ⟨PageNum, placed.2.key 0⟩
  ({ placed.1 with rightSibPageNo := PageNum },
   { placed.2 with rightSibPageNo := placed.1.rightSibPageNo },
   smallest_newLeaf)

/-- The loop of `split_nonLeaf`:
`for (i = move_start; i < M; i++) { new->keyArray[i-move_start] = old->keyArray[i]; new->pageNoArray[i-move_start+1] = old->pageNoArray[i+1]; old->pageNoArray[i] = 0; old->keyArray[i] = 0; }`.
The first argument is the number of iterations left (`M - i`). -/
def split_nonLeaf_move (move_start : Nat) :
    Nat → Nat → NonLeafNodeInt → NonLeafNodeInt → NonLeafNodeInt × NonLeafNodeInt
  | 0, _, nonleaf, new_nonleaf => (nonleaf, new_nonleaf)
  | fuel + 1, i, nonleaf, new_nonleaf =>
    split_nonLeaf_move move_start fuel (i + 1)
      ((nonleaf.setPageNo i 0).setKey i 0)
      ((new_nonleaf.setKey (i - move_start) (nonleaf.key i)).setPageNo (i - move_start + 1)
        (nonleaf.pageNo (i + 1)))

/-- The median slot of `split_nonLeaf`:
`mid = M / 2; if (M % 2 == 0 && newchildentry->key < nonleaf->keyArray[mid]) mid--`. -/
def split_nonLeaf_mid (M : Nat) (nonleaf : NonLeafNodeInt) (key : Int) : Nat :=
  if M % 2 = 0 ∧ key < nonleaf.key (M / 2) then M / 2 - 1 else M / 2

/-- Function `BTreeIndex::split_nonLeaf`, on the two nodes.  Returns the old
node, the new node and the pair `copyup` handed to the caller. -/
def split_nonLeaf (M : Nat) (nonleaf : NonLeafNodeInt) (PageNum : Nat) (entry : PageKeyPair) :
    NonLeafNodeInt × NonLeafNodeInt × PageKeyPair :=
  let new_nonleaf := NonLeafNodeInt.zeroed M nonleaf.level
  let mid := split_nonLeaf_mid M nonleaf entry.key
  let copyup : PageKeyPair := ⟨PageNum, nonleaf.key mid⟩
  let nonleaf1 := (nonleaf.setKey mid 0).setPageNo mid 0
  let move_start := mid + 1
  let new1 := new_nonleaf.setPageNo 0 (nonleaf1.pageNo move_start)
  let moved := split_nonLeaf_move move_start (M - move_start) move_start nonleaf1 new1
  let old2 := moved.1.setPageNo M 0
  if entry.key < moved.2.key 0 then (insert_nonLeaf old2 entry, moved.2, copyup)
  else (old2, insert_nonLeaf moved.2 entry, copyup)

/-! ## The index handle and the page store -/

/-- A page of the index file, seen through the struct the code casts it to. -/
inductive Page where
  | header (rootPageNo : Nat)
  | leaf (node : LeafNodeInt)
  | nonleaf (node : NonLeafNodeInt)
deriving DecidableEq, Repr

/-- Scan operators, `enum Operator` of BadgerDB. -/
inductive Operator where
  | LT | LTE | GTE | GT
deriving DecidableEq, Repr

/-- The members of `BTreeIndex` the code uses, with the file content as `pages`
(`currentPageData` always points at page `currentPageNum`). -/
structure BTreeIndex where
  pages : List Page
  headerPageNum : Nat
  rootPageNum : Nat
  if_rootleaf : Bool
  scanExecuting : Bool
  currentPageNum : Nat
  nextEntry : Nat
  lowValInt : Int
  highValInt : Int
  lowOp : Operator
  highOp : Operator
deriving DecidableEq, Repr

/-- Call `bufMgr->readPage(file, n, page)`: page id `0` and ids past the end of
the file name no page. -/
def BTreeIndex.readPage (idx : BTreeIndex) (n : Nat) : Option Page :=
  if n = 0 then none else idx.pages.get? (n - 1)

/-- Read page `n` and cast it to `LeafNodeInt*`.  A page that holds another
struct is not a leaf the model can read (`none`). -/
def BTreeIndex.readLeaf (idx : BTreeIndex) (n : Nat) : Option LeafNodeInt :=
  match idx.readPage n with
  | some (Page.leaf node) => some node
  | _ => none

/-- Read page `n` and cast it to `NonLeafNodeInt*`. -/
def BTreeIndex.readNonLeaf (idx : BTreeIndex) (n : Nat) : Option NonLeafNodeInt :=
  match idx.readPage n with
  | some (Page.nonleaf node) => some node
  | _ => none

/-- Store the content of page `n` (the code writes through the page pointer). -/
def BTreeIndex.writePage (idx : BTreeIndex) (n : Nat) (p : Page) : BTreeIndex :=
  { idx with pages := idx.pages.set (n - 1) p }

/-- Call `bufMgr->allocPage`: the id of the new page and the store with the
page appended, holding the content the caller then gives it. -/
def BTreeIndex.allocPage (idx : BTreeIndex) (p : Page) : BTreeIndex :=
  { idx with pages := idx.pages ++ [p] }

/-- The page id the next `allocPage` returns. -/
def BTreeIndex.nextPageNum (idx : BTreeIndex) : Nat :=
  idx.pages.length + 1

/-- The constructor on a file that does not exist yet, with an empty relation:
header page 1, empty root leaf page 2.  The scan members, which the
constructor leaves unset, are given fixed values. -/
def BTreeIndex.create (L : Nat) : BTreeIndex :=
  { pages := [Page.header 2, Page.leaf (LeafNodeInt.zeroed L 0)],
    headerPageNum := 1, rootPageNum := 2, if_rootleaf := true, scanExecuting := false,
    currentPageNum := 0, nextEntry := 0, lowValInt := 0, highValInt := 0,
    lowOp := Operator.GT, highOp := Operator.LT }

/-! ## Insertion engine: `new_root`, `insert`, `insertEntry` -/

/-- The node `new_root` builds in the page it allocates (lines 327-336): all
slots zeroed, `level = if_rootleaf`, `pageNoArray[0] = old_rootPageNum`,
`pageNoArray[1] = newchildentry->pageNo`, `keyArray[0] = newchildentry->key`. -/
def new_rootPage (M : Nat) (if_rootleaf : Bool) (old_rootPageNum : Nat)
    (newchildentry : PageKeyPair) : NonLeafNodeInt :=
  (((NonLeafNodeInt.zeroed M (if if_rootleaf then 1 else 0)).setPageNo 0 old_rootPageNum).setPageNo
    1 newchildentry.pageNo).setKey 0 newchildentry.key

/-- Function `BTreeIndex::new_root`. -/
def new_root (M : Nat) (idx : BTreeIndex) (old_rootPageNum : Nat) (newchildentry : PageKeyPair) :
    BTreeIndex :=
  let new_rootPageNum := idx.nextPageNum
  let idx1 := idx.allocPage (Page.nonleaf (new_rootPage M idx.if_rootleaf old_rootPageNum
    newchildentry))
  let idx2 := idx1.writePage idx1.headerPageNum (Page.header new_rootPageNum)
  { idx2 with rootPageNum := new_rootPageNum, if_rootleaf := false }

/-- Function `BTreeIndex::insert`.  The first argument bounds the recursion
depth.  The result is the new handle and `newchildentry` (`none` for
`nullptr`); `none` stands for a read of a page that does not exist or does not
hold the struct it is cast to, or for an exhausted depth bound. -/
def insert (L M : Nat) :
    Nat → BTreeIndex → Nat → Bool → RIDKeyPair → Option (BTreeIndex × Option PageKeyPair)
  | 0, _, _, _, _ => none
  | fuel + 1, idx, currentPageNum, isLeaf, entry =>
    if !isLeaf then
      match idx.readNonLeaf currentPageNum with
      | none => none
      | some current_nonleaf =>
        let nextNodeNum := ChooseSubtree M current_nonleaf entry.key
        match insert L M fuel idx nextNodeNum (decide (current_nonleaf.level = 1)) entry with
        | none => none
        | some (idx1, none) => some (idx1, none)
        | some (idx1, some newchildentry) =>
          match idx1.readNonLeaf currentPageNum with
          | none => none
          | some cur =>
            if cur.pageNo M = 0 ∧ cur.key (M - 1) = 0 then
              some (idx1.writePage currentPageNum (Page.nonleaf (insert_nonLeaf cur newchildentry)),
                    none)
            else
              let s := split_nonLeaf M cur idx1.nextPageNum newchildentry
              let idx2 := (idx1.writePage currentPageNum (Page.nonleaf s.1)).allocPage
                (Page.nonleaf s.2.1)
              if currentPageNum = idx2.rootPageNum then
                some (new_root M idx2 currentPageNum s.2.2, some s.2.2)
              else some (idx2, some s.2.2)
    else
      match idx.readLeaf currentPageNum with
      | none => none
      | some current_leaf =>
        if (current_leaf.rid (L - 1)).page_number = 0 ∧ current_leaf.key (L - 1) = 0 then
          some (idx.writePage currentPageNum (Page.leaf (insert_Leaf current_leaf entry)), none)
        else
          let s := split_Leaf L current_leaf idx.nextPageNum entry
          let idx2 := (idx.writePage currentPageNum (Page.leaf s.1)).allocPage (Page.leaf s.2.1)
          if currentPageNum = idx2.rootPageNum then
            some (new_root M idx2 currentPageNum s.2.2, some s.2.2)
          else some (idx2, some s.2.2)

/-- Function `BTreeIndex::insertEntry`; `key = none` is the null pointer.  The
depth bound is the number of pages of the file, which no descent exceeds. -/
def insertEntry (L M : Nat) (idx : BTreeIndex) (key : Option Int) (rid : RecordId) :
    Option BTreeIndex :=
  match key with
  | none => some idx
  | some k =>
    match insert L M (idx.pages.length + 1) idx idx.rootPageNum idx.if_rootleaf ⟨rid, k⟩ with
    | none => none
    | some r => some r.1

/-- A sequence of `insertEntry` calls with non-null keys, from handle `idx`. -/
def insertEntries (L M : Nat) : BTreeIndex → List (Int × RecordId) → Option BTreeIndex
  | idx, [] => some idx
  | idx, e :: es =>
    match insertEntry L M idx (some e.1) e.2 with
    | none => none
    | some idx1 => insertEntries L M idx1 es

/-- The tree a sequence of `insertEntry` calls builds from a freshly created index. -/
def build (L M : Nat) (es : List (Int × RecordId)) : Option BTreeIndex :=
  insertEntries L M (BTreeIndex.create L) es

/-! ## Scan engine: `startScan`, `tree_search`, `scanNext`, `endScan` -/

/-- The exceptions the index throws.  `InvalidPage` stands for what the model
cannot follow: a read of a page that does not exist or holds another struct,
or an exhausted depth bound. -/
inductive Exn where
  | BadOpcodesException
  | BadScanrangeException
  | NoSuchKeyFoundException
  | ScanNotInitializedException
  | IndexScanCompletedException
  | InvalidPage
deriving DecidableEq, Repr

/-- What a call leaves behind: the handle after the call, and either the value
returned or the exception thrown. -/
structure Outcome (α : Type) where
  state : BTreeIndex
  result : Except Exn α

/-- The low-bound test of `tree_search`:
`(lowOp == GT && k <= lowValInt) || (lowOp == GTE && k < lowValInt)`. -/
def lowFails (lowOp : Operator) (lowValInt k : Int) : Bool :=
  (lowOp == Operator.GT && decide (k ≤ lowValInt)) ||
    (lowOp == Operator.GTE && decide (k < lowValInt))

/-- The high-bound test of `tree_search` and `scanNext`:
`(highOp == LT && k >= highValInt) || (highOp == LTE && k > highValInt)`. -/
def highFails (highOp : Operator) (highValInt k : Int) : Bool :=
  (highOp == Operator.LT && decide (k ≥ highValInt)) ||
    (highOp == Operator.LTE && decide (k > highValInt))

/-- The cursor loop of `tree_search` on a leaf:
`while (lowFails(keyArray[nextEntry]) && nextEntry < L && ridArray[nextEntry].page_number != 0) nextEntry++`.
The first argument bounds the iterations (`L + 1` suffices). -/
def tree_search_cursor (L : Nat) (leaf : LeafNodeInt) (lowOp : Operator) (lowValInt : Int) :
    Nat → Nat → Nat
  | 0, nextEntry => nextEntry
  | fuel + 1, nextEntry =>
    if lowFails lowOp lowValInt (leaf.keyAt L nextEntry) = true ∧ nextEntry < L ∧
        (leaf.rid nextEntry).page_number ≠ 0 then
      tree_search_cursor L leaf lowOp lowValInt fuel (nextEntry + 1)
    else nextEntry

/-- The descent loop of `tree_search` on an internal node:
`while (lowFails(keyArray[NodeEntry]) && NodeEntry < M && pageNoArray[NodeEntry+1] != 0) NodeEntry++`.
At `NodeEntry = M` the second conjunct ends the loop whatever the first read. -/
def tree_search_descend (M : Nat) (node : NonLeafNodeInt) (lowOp : Operator) (lowValInt : Int) :
    Nat → Nat → Nat
  | 0, NodeEntry => NodeEntry
  | fuel + 1, NodeEntry =>
    if NodeEntry < M ∧ lowFails lowOp lowValInt (node.key NodeEntry) = true ∧
        node.pageNo (NodeEntry + 1) ≠ 0 then
      tree_search_descend M node lowOp lowValInt fuel (NodeEntry + 1)
    else NodeEntry

/-- The part of `tree_search` that works on the leaf: set the cursor and test
the slot it stops at against both bounds. -/
def tree_search_leaf (L : Nat) (idx : BTreeIndex) : Outcome Unit :=
  match idx.readLeaf idx.currentPageNum with
  | none => ⟨idx, Except.error Exn.InvalidPage⟩
  | some LeafNode =>
    let nextEntry := tree_search_cursor L LeafNode idx.lowOp idx.lowValInt (L + 1) 0
    let idx1 := { idx with nextEntry := nextEntry }
    if lowFails idx.lowOp idx.lowValInt (LeafNode.keyAt L nextEntry) ||
        highFails idx.highOp idx.highValInt (LeafNode.keyAt L nextEntry) then
      ⟨idx1, Except.error Exn.NoSuchKeyFoundException⟩
    else ⟨idx1, Except.ok ()⟩

/-- Function `BTreeIndex::tree_search`; the first argument bounds the recursion depth. -/
def tree_search (L M : Nat) : Nat → BTreeIndex → Nat → Outcome Unit
  | 0, idx, _ => ⟨idx, Except.error Exn.InvalidPage⟩
  | fuel + 1, idx, PageNum =>
    let idx1 := { idx with currentPageNum := PageNum }
    if idx1.if_rootleaf then tree_search_leaf L idx1
    else
      match idx1.readNonLeaf PageNum with
      | none => ⟨idx1, Except.error Exn.InvalidPage⟩
      | some Non_LeafNode =>
        let NodeEntry := tree_search_descend M Non_LeafNode idx1.lowOp idx1.lowValInt (M + 1) 0
        if Non_LeafNode.level = 1 then
          tree_search_leaf L { idx1 with currentPageNum := Non_LeafNode.pageNo NodeEntry }
        else tree_search L M fuel idx1 (Non_LeafNode.pageNo NodeEntry)

/-- Function `BTreeIndex::endScan`. -/
def endScan (idx : BTreeIndex) : Outcome Unit :=
  if idx.scanExecuting = false then ⟨idx, Except.error Exn.ScanNotInitializedException⟩
  else ⟨{ idx with scanExecuting := false }, Except.ok ()⟩

/-- Lines 415-423 of `startScan`: end a scan that is still executing, then set
`scanExecuting`, `lowOp` and `highOp`. -/
def startScan_setup (idx : BTreeIndex) (lowOpParm highOpParm : Operator) : BTreeIndex :=
  { (if idx.scanExecuting then (endScan idx).state else idx) with
    scanExecuting := true, lowOp := lowOpParm, highOp := highOpParm }

/-- Function `BTreeIndex::startScan`. -/
def startScan (L M : Nat) (idx : BTreeIndex) (lowValParm : Int) (lowOpParm : Operator)
    (highValParm : Int) (highOpParm : Operator) : Outcome Unit :=
  if (lowOpParm ≠ Operator.GT ∧ lowOpParm ≠ Operator.GTE) ∨
      (highOpParm ≠ Operator.LT ∧ highOpParm ≠ Operator.LTE) then
    ⟨idx, Except.error Exn.BadOpcodesException⟩
  else
    let idx1 := { idx with lowValInt := lowValParm, highValInt := highValParm }
    if idx1.lowValInt > idx1.highValInt then ⟨idx1, Except.error Exn.BadScanrangeException⟩
    else
      let idx3 := startScan_setup idx1 lowOpParm highOpParm
      tree_search L M (idx3.pages.length + 1) idx3 idx3.rootPageNum

/-- Function `BTreeIndex::scanNext`. -/
def scanNext (L : Nat) (idx : BTreeIndex) : Outcome RecordId :=
  if idx.scanExecuting = false then ⟨idx, Except.error Exn.ScanNotInitializedException⟩
  else
    match idx.readLeaf idx.currentPageNum with
    | none => ⟨idx, Except.error Exn.InvalidPage⟩
    | some LeafNode =>
      if idx.nextEntry = L ∨ (LeafNode.rid idx.nextEntry).page_number = 0 then
        let right_sib := LeafNode.rightSibPageNo
        if right_sib = 0 then ⟨idx, Except.error Exn.IndexScanCompletedException⟩
        else
          let idx1 := { idx with currentPageNum := right_sib }
          match idx1.readLeaf right_sib with
          | none => ⟨idx1, Except.error Exn.InvalidPage⟩
          | some LeafNode1 => ⟨{ idx1 with nextEntry := 0 + 1 }, Except.ok (LeafNode1.rid 0)⟩
      else if highFails idx.highOp idx.highValInt (LeafNode.key idx.nextEntry) then
        ⟨idx, Except.error Exn.IndexScanCompletedException⟩
      else ⟨{ idx with nextEntry := idx.nextEntry + 1 }, Except.ok (LeafNode.rid idx.nextEntry)⟩

/-- Repeated `scanNext` up to the first call that throws: the locators
returned, the exception that ended the run, and the handle then.  The first
argument bounds the number of calls (`none`: the bound was reached). -/
def scanAll (L : Nat) : Nat → BTreeIndex → Option (List RecordId × Exn × BTreeIndex)
  | 0, _ => none
  | fuel + 1, idx =>
    match (scanNext L idx).result with
    | Except.error e => some ([], e, (scanNext L idx).state)
    | Except.ok rid =>
      match scanAll L fuel (scanNext L idx).state with
      | none => none
      | some r => some (rid :: r.1, r.2)

/-! ## Observations on a tree -/

/-- The occupied slots of a leaf, left to right: the (key, locator) pairs whose
locator has a non-zero page number. -/
def LeafNodeInt.entries (leaf : LeafNodeInt) : List (Int × RecordId) :=
  (leaf.keyArray.zip leaf.ridArray).filter (fun e => decide (e.2.page_number ≠ 0))

/-- The page of the root leaf of a freshly created index. -/
def originalRootLeaf : Nat := 2

/-- Walk the leaves from page `p` along `rightSibPageNo` and read the occupied
slots.  The first argument bounds the number of leaves visited. -/
def leafChain (idx : BTreeIndex) : Nat → Nat → List (Int × RecordId)
  | 0, _ => []
  | fuel + 1, p =>
    match idx.readLeaf p with
    | none => []
    | some leaf =>
      leaf.entries ++ (if leaf.rightSibPageNo = 0 then [] else leafChain idx fuel leaf.rightSibPageNo)

/-- The entries met on the sibling chain that starts at the original root leaf. -/
def BTreeIndex.chainEntries (idx : BTreeIndex) : List (Int × RecordId) :=
  leafChain idx idx.pages.length originalRootLeaf

/-- The keys met on the sibling chain that starts at the original root leaf. -/
def BTreeIndex.chainKeys (idx : BTreeIndex) : List Int :=
  idx.chainEntries.map Prod.fst

/-- Number of (key, child) entries of an internal node, counted the way
`insert_nonLeaf` finds the end of the occupied part: entry `i` pairs
`keyArray[i]` with `pageNoArray[i+1]` and is occupied while that child id is
non-zero. -/
def NonLeafNodeInt.numEntries (M : Nat) (node : NonLeafNodeInt) : Nat :=
  insert_nonLeaf_End node M 0

/-- A `startScan` followed by `scanNext` calls up to the first one that throws:
the exception of `startScan`, or what `scanAll` reports. -/
def scanRange (L M : Nat) (idx : BTreeIndex) (lowVal : Int) (lowOp : Operator) (highVal : Int)
    (highOp : Operator) : Except Exn (Option (List RecordId × Exn)) :=
  match (startScan L M idx lowVal lowOp highVal highOp).result with
  | Except.error e => Except.error e
  | Except.ok _ =>
    Except.ok ((scanAll L (L * idx.pages.length + 2)
      (startScan L M idx lowVal lowOp highVal highOp).state).map (fun r => (r.1, r.2.1)))

/-- The leaf has `L` slots of which exactly the first `c` are occupied (their
locator has a non-zero page number). -/
def LeafNodeInt.occupied (L c : Nat) (leaf : LeafNodeInt) : Prop :=
  leaf.keyArray.length = L ∧ leaf.ridArray.length = L ∧
    ∀ i, (i < c → (leaf.rid i).page_number ≠ 0) ∧ (c ≤ i → (leaf.rid i).page_number = 0)

/-! ## Ranking of the pages: the invariant behind the height of the tree -/

/-- Every non-zero child id stored in the node satisfies `S`. -/
def ChildrenIn (S : Nat → Prop) (node : NonLeafNodeInt) : Prop :=
  ∀ i, node.pageNo i ≠ 0 → S (node.pageNo i)

/-- A page fits a ranking at rank `r`: a leaf has rank 1, an internal node a rank
of at least 2 that is one more than the rank of each child it points to, the
header page has rank 0. -/
def PageOK (rank : Nat → Nat) (r : Nat) : Page → Prop
  | Page.leaf _ => r = 1
  | Page.nonleaf node => 2 ≤ r ∧ ChildrenIn (fun c => rank c + 1 = r) node
  | Page.header _ => r = 0

/-- The ranking `rank` fits every page of the file; ids that name no page have
rank 0. -/
def Ranked (idx : BTreeIndex) (rank : Nat → Nat) : Prop :=
  ∀ q, match idx.readPage q with
    | some pg => PageOK rank (rank q) pg
    | none => rank q = 0

/-- The handle's header page holds the root page id. -/
def HeaderOK (idx : BTreeIndex) : Prop :=
  idx.readPage idx.headerPageNum = some (Page.header idx.rootPageNum)

/-- What a successful `insert` at page `p` establishes, for a ranking `rank` of
the pages before the call. -/
def InsertPost (idx : BTreeIndex) (rank : Nat → Nat) (p : Nat) (idx' : BTreeIndex)
    (nc : Option PageKeyPair) : Prop :=
  ∃ rank' : Nat → Nat, Ranked idx' rank' ∧ HeaderOK idx' ∧
    (∀ q, q ≤ idx.pages.length → rank' q = rank q) ∧
    idx.pages.length ≤ idx'.pages.length ∧
    idx'.headerPageNum = idx.headerPageNum ∧
    1 ≤ rank p ∧
    (∀ e, nc = some e → rank' e.pageNo = rank p ∧ idx.pages.length < e.pageNo) ∧
    ((p ≠ idx.rootPageNum ∨ nc = none) →
      idx'.rootPageNum = idx.rootPageNum ∧ idx'.if_rootleaf = idx.if_rootleaf) ∧
    (p = idx.rootPageNum → nc ≠ none →
      idx.pages.length < idx'.rootPageNum ∧ rank' idx'.rootPageNum = rank p + 1)

/-- The field `rootPageNo` of the header page. -/
def BTreeIndex.headerRootPageNo (idx : BTreeIndex) : Option Nat :=
  match idx.readPage idx.headerPageNum with
  | some (Page.header r) => some r
  | _ => none

/-- Invariant of the trees `insertEntry` builds: the pages carry a ranking
(leaves 1, an internal node one more than each of its children), the header
page holds the root page id, and the root is a node of rank at most the
number of pages. -/
def Inv (idx : BTreeIndex) : Prop :=
  ∃ rank : Nat → Nat, Ranked idx rank ∧ HeaderOK idx ∧ 1 ≤ rank idx.rootPageNum ∧
    rank idx.rootPageNum ≤ idx.pages.length

/-- A tree whose root leaf of capacity 2 is full, with keys 10 and 20
(`L = 2`, `M = 3`): used to instantiate statements. -/
def sampleTree : BTreeIndex :=
  (build 2 3 [(10, ⟨1, 1⟩), (20, ⟨1, 2⟩)]).getD (BTreeIndex.create 2)

/-- The tree `sampleTree` after `insertEntry(30, (1, 3))`. -/
def sampleTreeAfter : BTreeIndex :=
  (insertEntry 2 3 sampleTree (some 30) ⟨1, 3⟩).getD (BTreeIndex.create 2)

/-! ## Index traces of the loops (which slots of `keyArray` a loop reads) -/

/-- Indices of `keyArray` read by the loop of `insert_Leaf`,
`for (idx = End; keyArray[idx] > key && idx >= 0; idx--)`: every evaluation of
the condition reads `keyArray[idx]` before it tests `idx >= 0`, so the
evaluation at `idx = -1` reads `keyArray[-1]`.  The counter is `idx + 1`, as in
`insert_Leaf_shift`. -/
def insert_Leaf_keyReads (key : Int) : Nat → LeafNodeInt → List Int
  | 0, _ => [-1]
  | n + 1, leaf =>
    (n : Int) ::
      (if leaf.key n > key then
        insert_Leaf_keyReads key n (leaf.setSlot (n + 1) (leaf.key n) (leaf.rid n))
      else [])

/-- Indices of `keyArray` read by the loop of `insert_nonLeaf`,
`for (idx = End; keyArray[idx-1] > key && idx >= 0; idx--)`: every evaluation
of the condition reads `keyArray[idx-1]` first, so the evaluation at `idx = 0`
reads `keyArray[-1]` and the one at `idx = -1` reads `keyArray[-2]`.  The
counter is `idx + 1`, as in `insert_nonLeaf_shift`. -/
def insert_nonLeaf_keyReads (key : Int) : Nat → NonLeafNodeInt → List Int
  | 0, _ => [-2]
  | 1, node =>
    (-1 : Int) ::
      (if node.keyBefore > key then
        insert_nonLeaf_keyReads key 0 ((node.setKey 0 node.keyBefore).setPageNo 1 (node.pageNo 0))
      else [])
  | n + 2, node =>
    (n : Int) ::
      (if node.key n > key then
        insert_nonLeaf_keyReads key (n + 1)
          ((node.setKey (n + 1) (node.key n)).setPageNo (n + 2) (node.pageNo (n + 1)))
      else [])

/-- Indices of `keyArray` read by the cursor loop of `tree_search` for a valid
`lowOp` (GT or GTE): every evaluation of the loop condition reads
`keyArray[nextEntry]` before it tests `nextEntry < L`. -/
def tree_search_cursor_keyReads (L : Nat) (leaf : LeafNodeInt) (lowOp : Operator)
    (lowValInt : Int) : Nat → Nat → List Nat
  | 0, _ => []
  | fuel + 1, nextEntry =>
    nextEntry ::
      (if lowFails lowOp lowValInt (leaf.keyAt L nextEntry) = true ∧ nextEntry < L ∧
          (leaf.rid nextEntry).page_number ≠ 0 then
        tree_search_cursor_keyReads L leaf lowOp lowValInt fuel (nextEntry + 1)
      else [])

/-- Indices of `keyArray` read by a call of `insert_Leaf`: `keyArray[0]` in the
test for the empty leaf (only when `ridArray[0].page_number == 0`), then the
reads of the shifting loop started at `idx = End`. -/
def insert_Leaf_reads (leaf : LeafNodeInt) (entry : RIDKeyPair) : List Int :=
  if (leaf.rid 0).page_number = 0 then
    0 :: (if leaf.key 0 = 0 then []
      else insert_Leaf_keyReads entry.key (insert_Leaf_End leaf leaf.ridArray.length 0 + 1) leaf)
  else insert_Leaf_keyReads entry.key (insert_Leaf_End leaf leaf.ridArray.length 0 + 1) leaf

/-- Indices of `keyArray` read by a call of `insert_nonLeaf`: the reads of the
shifting loop started at `idx = End`. -/
def insert_nonLeaf_reads (node : NonLeafNodeInt) (entry : PageKeyPair) : List Int :=
  insert_nonLeaf_keyReads entry.key (insert_nonLeaf_End node node.pageNoArray.length 0 + 1) node

/-- A single-leaf tree with keys 10, 20, 30 (`L = 4`, `M = 3`) on which
`startScan(10, GTE, 30, LTE)` succeeded and one `scanNext` returned the locator
of key 10: a handle with an active scan. -/
def scanningTree : BTreeIndex :=
  (scanNext 4 (startScan 4 3
    ((build 4 3 [(10, ⟨1, 1⟩), (20, ⟨1, 2⟩), (30, ⟨1, 3⟩)]).getD (BTreeIndex.create 4))
    10 Operator.GTE 30 Operator.LTE).state).state

/-! ## Slots of a leaf as a list -/

/-- Slot `i` of a leaf: the pair `(keyArray[i], ridArray[i])`. -/
def LeafNodeInt.slot (leaf : LeafNodeInt) (i : Nat) : Int × RecordId :=
  (leaf.key i, leaf.rid i)

/-- The slots `i, i + 1, ..., i + n - 1` of a leaf, left to right. -/
def LeafNodeInt.slotsFrom (leaf : LeafNodeInt) : Nat → Nat → List (Int × RecordId)
  | _, 0 => []
  | i, n + 1 => leaf.slot i :: leaf.slotsFrom (i + 1) n

/-- A full leaf of capacity 3 with keys 10, 20, 30 and right sibling page 7:
used to instantiate statements. -/
def sampleLeaf : LeafNodeInt :=
  ⟨[10, 20, 30], [⟨1, 1⟩, ⟨1, 2⟩, ⟨1, 3⟩], 7⟩

/-! ## Entries of an internal node as a list -/

/-- Entry `i` of an internal node: the pair `(keyArray[i], pageNoArray[i+1])`. -/
def NonLeafNodeInt.slot (node : NonLeafNodeInt) (i : Nat) : Int × Nat :=
  (node.key i, node.pageNo (i + 1))

/-- The entries `i, i + 1, ..., i + n - 1` of an internal node, left to right. -/
def NonLeafNodeInt.slotsFrom (node : NonLeafNodeInt) : Nat → Nat → List (Int × Nat)
  | _, 0 => []
  | i, n + 1 => node.slot i :: node.slotsFrom (i + 1) n

/-- The occupied entries of an internal node, left to right: the pairs
`(keyArray[i], pageNoArray[i+1])` whose child id is non-zero. -/
def NonLeafNodeInt.entries (node : NonLeafNodeInt) : List (Int × Nat) :=
  (node.keyArray.zip node.pageNoArray.tail).filter (fun e => decide (e.2 ≠ 0))

/-- The node has `M` key slots and `M + 1` child slots, and exactly its first
`c` entries are occupied (`pageNoArray[i+1] != 0`). -/
def NonLeafNodeInt.occupied (M c : Nat) (node : NonLeafNodeInt) : Prop :=
  node.keyArray.length = M ∧ node.pageNoArray.length = M + 1 ∧
    ∀ i, (i < c → node.pageNo (i + 1) ≠ 0) ∧ (c ≤ i → node.pageNo (i + 1) = 0)

/-! ## Entries of a leaf as a multiset -/

/-- The occupied pairs of a list of slots, as a multiset. -/
def occupiedPart (l : List (Int × RecordId)) : Multiset (Int × RecordId) :=
  (l.filter (fun e => decide (e.2.page_number ≠ 0)) : List (Int × RecordId))

/-! ## Effect of `insert` on the leaf pages -/

/-- The leaf a page holds, if it holds one. -/
def Page.asLeaf : Page → Option LeafNodeInt
  | Page.leaf node => some node
  | _ => none

/-- The page `headerPageNum` of the handle is a header page. -/
def HeaderPage (idx : BTreeIndex) : Prop :=
  ∃ r, idx.readPage idx.headerPageNum = some (Page.header r)

/-- What a call of `insert` for `entry` does to the leaf pages between the
stores `idx` and `after`: exactly one leaf page `q` is rewritten, either by
`insert_Leaf` (the leaf had its last slot free), or by `split_Leaf`, which also
fills the page allocated next; every other page that reads as a leaf is as
before. -/
def LeafEffect (L : Nat) (idx after : BTreeIndex) (entry : RIDKeyPair) : Prop :=
  ∃ q leaf, idx.readLeaf q = some leaf ∧
    (((leaf.rid (L - 1)).page_number = 0 ∧
        ∀ x, after.readLeaf x = if x = q then some (insert_Leaf leaf entry) else idx.readLeaf x) ∨
     (∀ x, after.readLeaf x =
        if x = q then some (split_Leaf L leaf (idx.pages.length + 1) entry).1
        else if x = idx.pages.length + 1 then
          some (split_Leaf L leaf (idx.pages.length + 1) entry).2.1
        else idx.readLeaf x))

/-! ## The sibling chain as a list of pages -/

/-- Following `rightSibPageNo` from page id `s` visits exactly the leaf pages
`ps`, in this order, and then holds the page id `t`. -/
def linked (idx : BTreeIndex) : List Nat → Nat → Nat → Prop
  | [], s, t => s = t
  | p :: ps, s, t => s = p ∧ ∃ leaf, idx.readLeaf p = some leaf ∧ linked idx ps leaf.rightSibPageNo t

/-- The entries of the leaves on the pages `ps`, in this order. -/
def chainList (idx : BTreeIndex) : List Nat → List (Int × RecordId)
  | [] => []
  | p :: ps =>
    (match idx.readLeaf p with
      | some leaf => leaf.entries
      | none => []) ++ chainList idx ps

/-- Invariant of the leaf level of the trees `insertEntry` builds: the sibling
chain from the original root leaf ends with a null sibling after visiting
pairwise different pages, every page that reads as a leaf is on it and has `L`
slots, and the header page is a header page. -/
def ChainInv (L : Nat) (idx : BTreeIndex) : Prop :=
  HeaderPage idx ∧
  ∃ ps : List Nat, linked idx ps originalRootLeaf 0 ∧ ps.Nodup ∧
    ps.length ≤ idx.pages.length ∧
    ∀ p leaf, idx.readLeaf p = some leaf →
      p ∈ ps ∧ leaf.keyArray.length = L ∧ leaf.ridArray.length = L

/-! ## Paths to the leaves and the shape of internal nodes -/

/-- The call `insertEntry(key, rid)` as its caller sees it: the handle the call
leaves behind and whether it returned.  Function `insert` goes down to the
leaf before it stores anything: every store to a page follows the return of
the recursive call.  A call that ends in its descent (`insertEntry` is `none`)
leaves the pages and the handle as they were before the call; as in
`scanNext` it is reported as `InvalidPage`.  The descent ends where `readPage`
is given page id 0, which names no page, and where a page is read through the
struct it does not hold: what the code does with the bytes of the other struct
is not modelled. -/
def insertEntry_outcome (L M : Nat) (idx : BTreeIndex) (key : Option Int) (rid : RecordId) :
    Outcome Unit :=
  match insertEntry L M idx key rid with
  | some idx' => ⟨idx', Except.ok ()⟩
  | none => ⟨idx, Except.error Exn.InvalidPage⟩

/-- C1 (order invariant), evaluated on the code with `L = 2`, `M = 3`: after
inserting the keys 10, 20, 30, 40, 50, 60 (the sixth insertion splits the root
internal node) and then 25, the sibling chain from the original root leaf reads
10, 25, 20, 30, 40, 50, 60, which is not in non-decreasing order.
`split_nonLeaf` zeroes `pageNoArray[mid]`, so the old node loses the child
between keys 20 and 30 and key 25 is routed to the leaf holding 10. -/
theorem C1_order_invariant_broken_after_internal_split :
    (build 2 3 [(10, ⟨110, 1⟩), (20, ⟨120, 1⟩), (30, ⟨130, 1⟩), (40, ⟨140, 1⟩), (50, ⟨150, 1⟩),
        (60, ⟨160, 1⟩), (25, ⟨125, 1⟩)]).map BTreeIndex.chainKeys
      = some [10, 25, 20, 30, 40, 50, 60] ∧
    ¬ List.Sorted (fun a b : Int => a ≤ b) [10, 25, 20, 30, 40, 50, 60] := by
  constructor
  · rfl
  · decide

/-- C2 (completeness), evaluated on the code with `L = 2`, `M = 3`: after
inserting keys 10, 20, 30 the pair with key 20 satisfies the bounds
`10 < k ≤ 30`, yet `startScan(10, GT, 30, LTE)` throws
`NoSuchKeyFoundException`: `tree_search` stops in the leaf holding 10 and never
looks at its right sibling. -/
theorem C2_startScan_misses_key_in_right_sibling :
    (build 2 3 [(10, ⟨7, 1⟩), (20, ⟨7, 2⟩), (30, ⟨7, 3⟩)]).map BTreeIndex.chainEntries
      = some [(10, ⟨7, 1⟩), (20, ⟨7, 2⟩), (30, ⟨7, 3⟩)] ∧
    (build 2 3 [(10, ⟨7, 1⟩), (20, ⟨7, 2⟩), (30, ⟨7, 3⟩)]).map
        (fun idx => (startScan 2 3 idx 10 Operator.GT 30 Operator.LTE).result)
      = some (Except.error Exn.NoSuchKeyFoundException) := by
  constructor
  · rfl
  · rfl

/-- C3 (scan bound correctness), evaluated on the code with `L = 2`, `M = 3`:
after inserting keys 5, 10, 15 the scan `startScan(5, GTE, 6, LTE)` returns the
locator of key 5 and then, on the `scanNext` call that moves to the right
sibling, the locator of key 10, which violates the high bound 6: `scanNext`
skips the high-bound test on the call that crosses to the sibling. -/
theorem C3_scanNext_returns_key_above_high_bound :
    (build 2 3 [(5, ⟨9, 1⟩), (10, ⟨9, 2⟩), (15, ⟨9, 3⟩)]).map BTreeIndex.chainEntries
      = some [(5, ⟨9, 1⟩), (10, ⟨9, 2⟩), (15, ⟨9, 3⟩)] ∧
    (build 2 3 [(5, ⟨9, 1⟩), (10, ⟨9, 2⟩), (15, ⟨9, 3⟩)]).map
        (fun idx => scanRange 2 3 idx 5 Operator.GTE 6 Operator.LTE)
      = some (Except.ok (some ([⟨9, 1⟩, ⟨9, 2⟩], Exn.IndexScanCompletedException))) := by
  constructor
  · rfl
  · rfl

/-- C4 (empty range), evaluated on the code with `L = 2`, `M = 3`: on the empty
tree no key satisfies `-1 ≤ k ≤ 1`, yet `startScan(-1, GTE, 1, LTE)` returns
normally: the zero stored in the unoccupied slot 0 is tested as if it were a key. -/
theorem C4_startScan_succeeds_on_empty_tree :
    (startScan 2 3 (BTreeIndex.create 2) (-1) Operator.GTE 1 Operator.LTE).result
      = Except.ok () := by
  rfl

/-- C6 (key-not-found leaves the scan not started), evaluated on the code with
`L = 2`, `M = 3`: on a fresh handle `startScan(5, GTE, 10, LTE)` throws
`NoSuchKeyFoundException`, and afterwards `scanExecuting` is true, so `endScan`
returns normally and `scanNext` throws `IndexScanCompletedException`, neither
throws `ScanNotInitializedException`. -/
theorem C6_scanExecuting_stays_set_after_key_not_found :
    (BTreeIndex.create 2).scanExecuting = false ∧
    (startScan 2 3 (BTreeIndex.create 2) 5 Operator.GTE 10 Operator.LTE).result
      = Except.error Exn.NoSuchKeyFoundException ∧
    (startScan 2 3 (BTreeIndex.create 2) 5 Operator.GTE 10 Operator.LTE).state.scanExecuting
      = true ∧
    (endScan (startScan 2 3 (BTreeIndex.create 2) 5 Operator.GTE 10 Operator.LTE).state).result
      = Except.ok () ∧
    (scanNext 2 (startScan 2 3 (BTreeIndex.create 2) 5 Operator.GTE 10 Operator.LTE).state).result
      = Except.error Exn.IndexScanCompletedException := by
  refine ⟨rfl, rfl, rfl, rfl, rfl⟩

/-- C8 (duplicate keys), evaluated on the code with `L = 2`, `M = 3`: after
inserting key 5 and key 7 twice (the leaf split puts both entries with key 7
into the new leaf and promotes 7), `startScan(7, GTE, 7, LTE)` throws
`NoSuchKeyFoundException` and returns none of the two locators: for `GTE` the
descent of `tree_search` advances only while `keyArray[i] < low`, so it enters
the leaf left of separator 7. -/
theorem C8_duplicates_not_found_after_leaf_split :
    (build 2 3 [(5, ⟨3, 1⟩), (7, ⟨3, 2⟩), (7, ⟨3, 3⟩)]).map BTreeIndex.chainEntries
      = some [(5, ⟨3, 1⟩), (7, ⟨3, 2⟩), (7, ⟨3, 3⟩)] ∧
    (build 2 3 [(5, ⟨3, 1⟩), (7, ⟨3, 2⟩), (7, ⟨3, 3⟩)]).map
        (fun idx => scanRange 2 3 idx 7 Operator.GTE 7 Operator.LTE)
      = some (Except.error Exn.NoSuchKeyFoundException) := by
  constructor
  · rfl
  · rfl

/-- C10 (split balance), evaluated on the code with `M = 3`: splitting the full
internal node with keys 20, 30, 40 and children 2, 3, 5, 6 for the incoming
pair (50, page 7) leaves the old node with child 2 only, that is with no
(key, child) entry, while the new node holds the entries (40, 6) and (50, 7). -/
theorem C10_internal_split_leaves_old_node_without_entry :
    split_nonLeaf 3 ⟨1, [20, 30, 40], [2, 3, 5, 6]⟩ 8 ⟨7, 50⟩
      = (⟨1, [20, 0, 0], [2, 0, 0, 0]⟩, ⟨1, [40, 50, 0], [5, 6, 7, 0]⟩, ⟨8, 30⟩) ∧
    (split_nonLeaf 3 ⟨1, [20, 30, 40], [2, 3, 5, 6]⟩ 8 ⟨7, 50⟩).1.numEntries 3 = 0 ∧
    (split_nonLeaf 3 ⟨1, [20, 30, 40], [2, 3, 5, 6]⟩ 8 ⟨7, 50⟩).2.1.numEntries 3 = 2 := by
  refine ⟨by decide, by decide, by decide⟩

/-! ## The scan entry points -/

/-- What `tree_search_leaf` leaves untouched, and the exceptions it can throw. -/
theorem tree_search_leaf_frame (L : Nat) (idx : BTreeIndex) :
    (tree_search_leaf L idx).state.pages = idx.pages ∧
    (tree_search_leaf L idx).state.rootPageNum = idx.rootPageNum ∧
    (tree_search_leaf L idx).state.headerPageNum = idx.headerPageNum ∧
    (tree_search_leaf L idx).state.scanExecuting = idx.scanExecuting ∧
    ((tree_search_leaf L idx).result = Except.ok () ∨
      (tree_search_leaf L idx).result = Except.error Exn.NoSuchKeyFoundException ∨
      (tree_search_leaf L idx).result = Except.error Exn.InvalidPage) := by
  unfold tree_search_leaf
  cases idx.readLeaf idx.currentPageNum with
  | none => simp
  | some leaf =>
    simp only
    split <;> simp

/-- What `tree_search` leaves untouched, and the exceptions it can throw. -/
theorem tree_search_frame (L M : Nat) (fuel : Nat) :
    ∀ (idx : BTreeIndex) (p : Nat),
      (tree_search L M fuel idx p).state.pages = idx.pages ∧
      (tree_search L M fuel idx p).state.rootPageNum = idx.rootPageNum ∧
      (tree_search L M fuel idx p).state.headerPageNum = idx.headerPageNum ∧
      (tree_search L M fuel idx p).state.scanExecuting = idx.scanExecuting ∧
      ((tree_search L M fuel idx p).result = Except.ok () ∨
        (tree_search L M fuel idx p).result = Except.error Exn.NoSuchKeyFoundException ∨
        (tree_search L M fuel idx p).result = Except.error Exn.InvalidPage) := by
  induction fuel with
  | zero => intro idx p; simp [tree_search]
  | succ n ih =>
    intro idx p
    unfold tree_search
    simp only
    split
    · exact tree_search_leaf_frame L _
    · split
      · simp
      · split
        · exact tree_search_leaf_frame L _
        · exact ih _ _

/-- C5 (startScan validation): for all arguments, `startScan` throws
`BadOpcodesException` if and only if `lowOp` is not GT/GTE or `highOp` is not
LT/LTE (so the operator check wins when the range is bad as well); it throws
`BadScanrangeException` if and only if the operators are valid and
`low > high`; and no call of `startScan` changes a page of the file, the root
page id or the header page id. -/
theorem C5_startScan_validation (L M : Nat) (idx : BTreeIndex) (low : Int) (lowOp : Operator)
    (high : Int) (highOp : Operator) :
    ((startScan L M idx low lowOp high highOp).result = Except.error Exn.BadOpcodesException ↔
      ((lowOp ≠ Operator.GT ∧ lowOp ≠ Operator.GTE) ∨
        (highOp ≠ Operator.LT ∧ highOp ≠ Operator.LTE))) ∧
    ((startScan L M idx low lowOp high highOp).result = Except.error Exn.BadScanrangeException ↔
      ((lowOp = Operator.GT ∨ lowOp = Operator.GTE) ∧
        (highOp = Operator.LT ∨ highOp = Operator.LTE) ∧ low > high)) ∧
    (startScan L M idx low lowOp high highOp).state.pages = idx.pages ∧
    (startScan L M idx low lowOp high highOp).state.rootPageNum = idx.rootPageNum ∧
    (startScan L M idx low lowOp high highOp).state.headerPageNum = idx.headerPageNum := by
  unfold startScan
  by_cases hop : (lowOp ≠ Operator.GT ∧ lowOp ≠ Operator.GTE) ∨
      (highOp ≠ Operator.LT ∧ highOp ≠ Operator.LTE)
  · rw [if_pos hop]
    refine ⟨by simp [hop], ?_, rfl, rfl, rfl⟩
    constructor
    · intro h; simp at h
    · rintro ⟨h1, h2, -⟩
      rcases hop with hop | hop
      · rcases h1 with h1 | h1
        · exact absurd h1 hop.1
        · exact absurd h1 hop.2
      · rcases h2 with h2 | h2
        · exact absurd h2 hop.1
        · exact absurd h2 hop.2
  · rw [if_neg hop]
    have hvalid : (lowOp = Operator.GT ∨ lowOp = Operator.GTE) ∧
        (highOp = Operator.LT ∨ highOp = Operator.LTE) := by
      constructor
      · by_contra h
        exact hop (Or.inl ⟨fun e => h (Or.inl e), fun e => h (Or.inr e)⟩)
      · by_contra h
        exact hop (Or.inr ⟨fun e => h (Or.inl e), fun e => h (Or.inr e)⟩)
    simp only
    by_cases hr : low > high
    · rw [if_pos hr]
      refine ⟨by simp [hop], by simp [hvalid, hr], rfl, rfl, rfl⟩
    · rw [if_neg hr]
      have hset : ∀ s : BTreeIndex, (startScan_setup s lowOp highOp).pages = s.pages ∧
          (startScan_setup s lowOp highOp).rootPageNum = s.rootPageNum ∧
          (startScan_setup s lowOp highOp).headerPageNum = s.headerPageNum := by
        intro s
        unfold startScan_setup endScan
        cases s.scanExecuting <;> simp
      obtain ⟨hp1, hroot1, hhdr1⟩ := hset { idx with lowValInt := low, highValInt := high }
      generalize startScan_setup { idx with lowValInt := low, highValInt := high } lowOp highOp
        = s3 at hp1 hroot1 hhdr1 ⊢
      obtain ⟨hp, hroot, hhdr, -, hres⟩ := tree_search_frame L M (s3.pages.length + 1) s3
        s3.rootPageNum
      refine ⟨?_, ?_, ?_, ?_, ?_⟩
      · constructor
        · intro h
          rcases hres with h1 | h1 | h1 <;> rw [h1] at h <;> simp at h
        · intro h; exact absurd h hop
      · constructor
        · intro h
          rcases hres with h1 | h1 | h1 <;> rw [h1] at h <;> simp at h
        · rintro ⟨-, -, h⟩; exact absurd h hr
      · rw [hp]; exact hp1
      · rw [hroot]; exact hroot1
      · rw [hhdr]; exact hhdr1

/-- C7 (scan state machine): `scanNext` and `endScan` throw
`ScanNotInitializedException` exactly when no scan is active; a fresh handle
has no active scan; after `endScan` no scan is active, so a second `endScan`
in a row throws `ScanNotInitializedException` and leaves the handle as it was;
and a call that throws `ScanNotInitializedException` changes nothing. -/
theorem C7_scan_state_machine (L : Nat) (idx : BTreeIndex) :
    ((scanNext L idx).result = Except.error Exn.ScanNotInitializedException ↔
      idx.scanExecuting = false) ∧
    ((endScan idx).result = Except.error Exn.ScanNotInitializedException ↔
      idx.scanExecuting = false) ∧
    ((endScan idx).result = Except.ok () ↔ idx.scanExecuting = true) ∧
    (BTreeIndex.create L).scanExecuting = false ∧
    (endScan idx).state.scanExecuting = false ∧
    (endScan (endScan idx).state).result = Except.error Exn.ScanNotInitializedException ∧
    (endScan (endScan idx).state).state = (endScan idx).state ∧
    (scanNext L { idx with scanExecuting := false }).state = { idx with scanExecuting := false } ∧
    (scanNext L (endScan idx).state).result = Except.error Exn.ScanNotInitializedException := by
  have hend : (endScan idx).state.scanExecuting = false := by
    unfold endScan
    cases h : idx.scanExecuting <;> simp [h]
  refine ⟨?_, ?_, ?_, rfl, hend, ?_, ?_, ?_, ?_⟩
  · unfold scanNext
    cases h : idx.scanExecuting
    · simp
    · simp only [Bool.true_eq_false, if_false]
      split
      · simp
      · split
        · split
          · simp
          · split <;> simp
        · split <;> simp
  · unfold endScan
    cases h : idx.scanExecuting <;> simp
  · unfold endScan
    cases h : idx.scanExecuting <;> simp
  · unfold endScan at hend ⊢
    cases h : idx.scanExecuting <;> simp [h]
  · unfold endScan
    cases h : idx.scanExecuting <;> simp [h]
  · simp [scanNext]
  · unfold scanNext
    rw [if_pos hend]

/-! ## Height of the tree -/

theorem getD_set_cases {α : Type} (l : List α) (i j : Nat) (v d : α) :
    (l.set i v).getD j d = v ∨ (l.set i v).getD j d = l.getD j d := by
  simp only [List.getD_eq_getElem?_getD, List.getElem?_set]
  split
  · split
    · left; rfl
    · rename_i h1 h2
      right
      rw [List.getElem?_eq_none (by omega)]
  · right; rfl

theorem getD_replicate_self {α : Type} (n j : Nat) (d : α) :
    (List.replicate n d).getD j d = d := by
  simp only [List.getD_eq_getElem?_getD, List.getElem?_replicate]
  split <;> rfl

theorem ChildrenIn_setPageNo {S : Nat → Prop} {node : NonLeafNodeInt} (h : ChildrenIn S node)
    (i : Nat) (v : Nat) (hv : v ≠ 0 → S v) : ChildrenIn S (node.setPageNo i v) := by
  intro j hj
  have hc := getD_set_cases node.pageNoArray i j v 0
  unfold NonLeafNodeInt.pageNo NonLeafNodeInt.setPageNo at hj ⊢
  simp only at hj ⊢
  rcases hc with hc | hc
  · rw [hc] at hj ⊢; exact hv hj
  · rw [hc] at hj ⊢; exact h j hj

theorem ChildrenIn_setKey {S : Nat → Prop} {node : NonLeafNodeInt} (h : ChildrenIn S node)
    (i : Nat) (k : Int) : ChildrenIn S (node.setKey i k) := h

theorem ChildrenIn_setKeyBefore {S : Nat → Prop} {node : NonLeafNodeInt}
    (h : ChildrenIn S node) (k : Int) : ChildrenIn S (node.setKeyBefore k) := h

theorem ChildrenIn_zeroed (S : Nat → Prop) (M : Nat) (lv : Int) :
    ChildrenIn S (NonLeafNodeInt.zeroed M lv) := by
  intro i hi
  exact absurd (getD_replicate_self (M + 1) i (0 : Nat)) hi

theorem ChildrenIn_insert_nonLeaf_shift {S : Nat → Prop} (key : Int) (n : Nat) :
    ∀ node : NonLeafNodeInt, ChildrenIn S node → ChildrenIn S (insert_nonLeaf_shift key n node).2 := by
  induction n using Nat.strong_induction_on with
  | _ n ih =>
    intro node h
    match n with
    | 0 => exact h
    | 1 =>
      unfold insert_nonLeaf_shift
      split
      · exact ih 0 (by omega) _
          (ChildrenIn_setPageNo (ChildrenIn_setKey h 0 _) 1 _ (fun hv => h 0 hv))
      · exact h
    | m + 2 =>
      unfold insert_nonLeaf_shift
      split
      · exact ih (m + 1) (by omega) _
          (ChildrenIn_setPageNo (ChildrenIn_setKey h (m + 1) _) (m + 2) _ (fun hv => h (m + 1) hv))
      · exact h

theorem ChildrenIn_insert_nonLeaf {S : Nat → Prop} {node : NonLeafNodeInt}
    (h : ChildrenIn S node) (entry : PageKeyPair) (he : entry.pageNo ≠ 0 → S entry.pageNo) :
    ChildrenIn S (insert_nonLeaf node entry) := by
  unfold insert_nonLeaf
  simp only
  have hs := ChildrenIn_insert_nonLeaf_shift (S := S) entry.key
    (insert_nonLeaf_End node node.pageNoArray.length 0 + 1) node h
  split
  · exact ChildrenIn_setPageNo (ChildrenIn_setKeyBefore hs _) 0 _ he
  · exact ChildrenIn_setPageNo (ChildrenIn_setKey hs _ _) _ _ he

theorem ChildrenIn_split_nonLeaf_move {S : Nat → Prop} (move_start : Nat) (fuel : Nat) :
    ∀ (i : Nat) (a b : NonLeafNodeInt), ChildrenIn S a → ChildrenIn S b →
      ChildrenIn S (split_nonLeaf_move move_start fuel i a b).1 ∧
      ChildrenIn S (split_nonLeaf_move move_start fuel i a b).2 := by
  induction fuel with
  | zero => intro i a b ha hb; exact ⟨ha, hb⟩
  | succ n ih =>
    intro i a b ha hb
    unfold split_nonLeaf_move
    exact ih _ _ _ (ChildrenIn_setKey (ChildrenIn_setPageNo ha i 0 (fun h => absurd rfl h)) i 0)
      (ChildrenIn_setPageNo (ChildrenIn_setKey hb _ _) _ _ (fun hv => ha (i + 1) hv))

theorem ChildrenIn_split_nonLeaf {S : Nat → Prop} (M : Nat) {node : NonLeafNodeInt}
    (h : ChildrenIn S node) (PageNum : Nat) (entry : PageKeyPair)
    (he : entry.pageNo ≠ 0 → S entry.pageNo) :
    ChildrenIn S (split_nonLeaf M node PageNum entry).1 ∧
    ChildrenIn S (split_nonLeaf M node PageNum entry).2.1 ∧
    (split_nonLeaf M node PageNum entry).2.2.pageNo = PageNum := by
  unfold split_nonLeaf
  simp only
  have h1 : ChildrenIn S ((node.setKey (split_nonLeaf_mid M node entry.key) 0).setPageNo
      (split_nonLeaf_mid M node entry.key) 0) :=
    ChildrenIn_setPageNo (ChildrenIn_setKey h _ _) _ _ (fun hv => absurd rfl hv)
  have h2 : ChildrenIn S ((NonLeafNodeInt.zeroed M node.level).setPageNo 0
      (((node.setKey (split_nonLeaf_mid M node entry.key) 0).setPageNo
        (split_nonLeaf_mid M node entry.key) 0).pageNo (split_nonLeaf_mid M node entry.key + 1))) :=
    ChildrenIn_setPageNo (ChildrenIn_zeroed S M _) _ _ (fun hv => h1 _ hv)
  obtain ⟨h3, h4⟩ := ChildrenIn_split_nonLeaf_move (S := S) (split_nonLeaf_mid M node entry.key + 1)
    (M - (split_nonLeaf_mid M node entry.key + 1)) (split_nonLeaf_mid M node entry.key + 1) _ _ h1 h2
  have h5 := ChildrenIn_setPageNo h3 M 0 (fun hv => absurd rfl hv)
  split
  · exact ⟨ChildrenIn_insert_nonLeaf h5 entry he, h4, rfl⟩
  · exact ⟨h5, ChildrenIn_insert_nonLeaf h4 entry he, rfl⟩

theorem readPage_some_bounds {idx : BTreeIndex} {p : Nat} {pg : Page}
    (h : idx.readPage p = some pg) : 1 ≤ p ∧ p ≤ idx.pages.length := by
  unfold BTreeIndex.readPage at h
  split at h
  · exact absurd h (by simp)
  · rename_i hp
    rw [List.get?_eq_getElem?] at h
    have hlt : p - 1 < idx.pages.length := by
      by_contra hc
      rw [List.getElem?_eq_none (by omega)] at h
      exact absurd h (by simp)
    have hp0 : (p : Nat) ≠ 0 := hp
    omega

theorem readPage_none_of_gt {idx : BTreeIndex} {p : Nat} (h : idx.pages.length < p) :
    idx.readPage p = none := by
  unfold BTreeIndex.readPage
  split
  · rfl
  · rw [List.get?_eq_getElem?, List.getElem?_eq_none (by omega)]

theorem readPage_writePage {idx : BTreeIndex} {p : Nat} {old : Page}
    (hp : idx.readPage p = some old) (pg : Page) (q : Nat) :
    (idx.writePage p pg).readPage q = if q = p then some pg else idx.readPage q := by
  obtain ⟨h1, h2⟩ := readPage_some_bounds hp
  unfold BTreeIndex.readPage BTreeIndex.writePage
  simp only [List.get?_eq_getElem?, List.getElem?_set]
  by_cases hq0 : q = 0
  · subst hq0
    have : ¬ ((0 : Nat) = p) := by omega
    simp [this]
  · simp only [hq0, if_false]
    by_cases hqp : q = p
    · subst hqp
      have : (q : Nat) - 1 < idx.pages.length := by omega
      simp [this]
    · have hq0' : (q : Nat) ≠ 0 := hq0
      have hqp' : ¬ ((q : Nat) = p) := hqp
      have : ¬ ((p : Nat) - 1 = q - 1) := by omega
      simp [this, hqp]

theorem readPage_allocPage (idx : BTreeIndex) (pg : Page) (q : Nat) :
    (idx.allocPage pg).readPage q =
      if q = idx.pages.length + 1 then some pg else idx.readPage q := by
  unfold BTreeIndex.readPage BTreeIndex.allocPage
  simp only [List.get?_eq_getElem?]
  by_cases hq0 : q = 0
  · subst hq0; simp
  · simp only [hq0, if_false]
    by_cases hq : q = idx.pages.length + 1
    · subst hq; simp
    · simp only [hq, if_false]
      have hq0' : (q : Nat) ≠ 0 := hq0
      have hq' : ¬ ((q : Nat) = idx.pages.length + 1) := hq
      by_cases hlt : q - 1 < idx.pages.length
      · rw [List.getElem?_append_left hlt]
      · rw [List.getElem?_eq_none (by simp; omega), List.getElem?_eq_none (by omega)]

theorem PageOK_congr {rank rank' : Nat → Nat} {r : Nat} {pg : Page}
    (h : PageOK rank r pg) (hr : ∀ c, 1 ≤ rank c → rank' c = rank c) :
    PageOK rank' r pg := by
  cases pg with
  | header _ => exact h
  | leaf _ => exact h
  | nonleaf node =>
    refine ⟨h.1, ?_⟩
    intro i hi
    have := h.2 i hi
    simp only at this ⊢
    rw [hr _ (by have := h.1; omega)]
    exact this

theorem Ranked_writePage {idx : BTreeIndex} {rank : Nat → Nat} (h : Ranked idx rank)
    {p : Nat} {old : Page} (hp : idx.readPage p = some old) {pg : Page}
    (hpg : PageOK rank (rank p) pg) : Ranked (idx.writePage p pg) rank := by
  intro q
  rw [readPage_writePage hp]
  by_cases hq : q = p
  · subst hq; simpa using hpg
  · simp only [hq, if_false]; exact h q

theorem Ranked_allocPage {idx : BTreeIndex} {rank : Nat → Nat} (h : Ranked idx rank)
    {pg : Page} {r : Nat} (hpg : PageOK rank r pg) :
    Ranked (idx.allocPage pg) (Function.update rank (idx.pages.length + 1) r) := by
  have hz : rank (idx.pages.length + 1) = 0 := by
    have := h (idx.pages.length + 1)
    rw [readPage_none_of_gt (by omega)] at this
    exact this
  have hupd : ∀ c, 1 ≤ rank c → Function.update rank (idx.pages.length + 1) r c = rank c := by
    intro c hc
    have : c ≠ idx.pages.length + 1 := by
      intro e; rw [e, hz] at hc; omega
    simp [Function.update, this]
  intro q
  rw [readPage_allocPage]
  by_cases hq : q = idx.pages.length + 1
  · subst hq
    simp only [if_true, Function.update_same]
    exact PageOK_congr hpg hupd
  · simp only [hq, if_false]
    have hq' := h q
    rw [Function.update_noteq hq]
    cases hrd : idx.readPage q with
    | none => rw [hrd] at hq'; exact hq'
    | some pg' =>
      rw [hrd] at hq'
      exact PageOK_congr hq' hupd

theorem readLeaf_some {idx : BTreeIndex} {p : Nat} {leaf : LeafNodeInt}
    (h : idx.readLeaf p = some leaf) : idx.readPage p = some (Page.leaf leaf) := by
  unfold BTreeIndex.readLeaf at h
  split at h
  · rename_i node hrd
    simp only [Option.some.injEq] at h
    rw [hrd, h]
  · exact absurd h (by simp)

theorem readNonLeaf_some {idx : BTreeIndex} {p : Nat} {node : NonLeafNodeInt}
    (h : idx.readNonLeaf p = some node) : idx.readPage p = some (Page.nonleaf node) := by
  unfold BTreeIndex.readNonLeaf at h
  split at h
  · rename_i node' hrd
    simp only [Option.some.injEq] at h
    rw [hrd, h]
  · exact absurd h (by simp)

theorem Ranked_of_pages_eq {idx idx' : BTreeIndex} {rank : Nat → Nat}
    (hp : idx'.pages = idx.pages) (h : Ranked idx rank) : Ranked idx' rank := by
  intro q
  have := h q
  unfold BTreeIndex.readPage at this ⊢
  rw [hp]
  exact this

theorem readPage_of_pages_eq {idx idx' : BTreeIndex} (hp : idx'.pages = idx.pages) (q : Nat) :
    idx'.readPage q = idx.readPage q := by
  unfold BTreeIndex.readPage
  rw [hp]

/-- Writing the old node back and appending the new node keeps the ranking. -/
theorem write_alloc_ranked {idx1 : BTreeIndex} {rank1 : Nat → Nat} {p : Nat}
    {old pgOld pgNew : Page} (hR : Ranked idx1 rank1) (hH : HeaderOK idx1)
    (hp : idx1.readPage p = some old) (hne : p ≠ idx1.headerPageNum)
    (hOld : PageOK rank1 (rank1 p) pgOld) (hNew : PageOK rank1 (rank1 p) pgNew) :
    Ranked ((idx1.writePage p pgOld).allocPage pgNew)
      (Function.update rank1 (idx1.pages.length + 1) (rank1 p)) ∧
    HeaderOK ((idx1.writePage p pgOld).allocPage pgNew) ∧
    ((idx1.writePage p pgOld).allocPage pgNew).pages.length = idx1.pages.length + 1 := by
  obtain ⟨hp1, hp2⟩ := readPage_some_bounds hp
  obtain ⟨hh1, hh2⟩ := readPage_some_bounds hH
  have hlenw : (idx1.writePage p pgOld).pages.length = idx1.pages.length := by
    simp [BTreeIndex.writePage]
  have hRa := Ranked_allocPage (Ranked_writePage hR hp hOld) hNew
  rw [hlenw] at hRa
  refine ⟨hRa, ?_, by simp [BTreeIndex.allocPage, BTreeIndex.writePage]⟩
  unfold HeaderOK
  show ((idx1.writePage p pgOld).allocPage pgNew).readPage idx1.headerPageNum
    = some (Page.header idx1.rootPageNum)
  rw [readPage_allocPage, readPage_writePage hp, hlenw]
  have h1 : ¬ (idx1.headerPageNum = idx1.pages.length + 1) := by omega
  have h2 : ¬ (idx1.headerPageNum = p) := fun e => hne e.symm
  simp only [h1, h2, if_false]
  exact hH

/-- The new root `new_root` builds gets the rank above the two nodes it points to. -/
theorem new_root_ranked (M : Nat) {idx2 : BTreeIndex} {rank2 : Nat → Nat} {p : Nat}
    {e : PageKeyPair} (hR : Ranked idx2 rank2) (hH : HeaderOK idx2) (hp : 1 ≤ rank2 p)
    (he : rank2 e.pageNo = rank2 p) :
    Ranked (new_root M idx2 p e) (Function.update rank2 (idx2.pages.length + 1) (rank2 p + 1)) ∧
    HeaderOK (new_root M idx2 p e) ∧
    (new_root M idx2 p e).rootPageNum = idx2.pages.length + 1 ∧
    (new_root M idx2 p e).headerPageNum = idx2.headerPageNum ∧
    (new_root M idx2 p e).pages.length = idx2.pages.length + 1 := by
  obtain ⟨hh1, hh2⟩ := readPage_some_bounds hH
  have hz : rank2 (idx2.pages.length + 1) = 0 := by
    have := hR (idx2.pages.length + 1)
    rw [readPage_none_of_gt (by omega)] at this
    exact this
  have hhz : rank2 idx2.headerPageNum = 0 := by
    have := hR idx2.headerPageNum
    unfold HeaderOK at hH
    rw [hH] at this
    exact this
  have hOKroot : PageOK rank2 (rank2 p + 1)
      (Page.nonleaf (new_rootPage M idx2.if_rootleaf p e)) := by
    refine ⟨by omega, ?_⟩
    unfold new_rootPage
    apply ChildrenIn_setKey
    apply ChildrenIn_setPageNo
    · apply ChildrenIn_setPageNo
      · exact ChildrenIn_zeroed _ _ _
      · intro _; rfl
    · intro _; exact congrArg (· + 1) he
  have hRn := Ranked_allocPage hR hOKroot
  have hrdh : (idx2.allocPage (Page.nonleaf (new_rootPage M idx2.if_rootleaf p e))).readPage
      idx2.headerPageNum = some (Page.header idx2.rootPageNum) := by
    rw [readPage_allocPage]
    have h1 : ¬ (idx2.headerPageNum = idx2.pages.length + 1) := by omega
    simp only [h1, if_false]
    exact hH
  have hOKh : PageOK (Function.update rank2 (idx2.pages.length + 1) (rank2 p + 1))
      (Function.update rank2 (idx2.pages.length + 1) (rank2 p + 1) idx2.headerPageNum)
      (Page.header (idx2.pages.length + 1)) := by
    have h1 : idx2.headerPageNum ≠ idx2.pages.length + 1 := by omega
    simp [PageOK, Function.update, h1, hhz]
  have hRw := Ranked_writePage hRn hrdh hOKh
  have hpages : (new_root M idx2 p e).pages
      = ((idx2.allocPage (Page.nonleaf (new_rootPage M idx2.if_rootleaf p e))).writePage
          idx2.headerPageNum (Page.header (idx2.pages.length + 1))).pages := rfl
  refine ⟨Ranked_of_pages_eq hpages hRw, ?_, rfl, rfl, ?_⟩
  · unfold HeaderOK
    rw [readPage_of_pages_eq hpages]
    show ((idx2.allocPage (Page.nonleaf (new_rootPage M idx2.if_rootleaf p e))).writePage
          idx2.headerPageNum (Page.header (idx2.pages.length + 1))).readPage idx2.headerPageNum
        = some (Page.header (idx2.pages.length + 1))
    rw [readPage_writePage hrdh]
    simp
  · rw [hpages]
    simp [BTreeIndex.allocPage, BTreeIndex.writePage]

theorem InsertPost_trans {idx idx1 idx' : BTreeIndex} {rank rank1 : Nat → Nat} {p : Nat}
    {nc : Option PageKeyPair} (hagree : ∀ q, q ≤ idx.pages.length → rank1 q = rank q)
    (hlen : idx.pages.length ≤ idx1.pages.length)
    (hhdr : idx1.headerPageNum = idx.headerPageNum) (hroot : idx1.rootPageNum = idx.rootPageNum)
    (hrl : idx1.if_rootleaf = idx.if_rootleaf) (hp : p ≤ idx.pages.length)
    (h : InsertPost idx1 rank1 p idx' nc) : InsertPost idx rank p idx' nc := by
  obtain ⟨rank', h1, h2, h3, h4, h5, h6, h7, h8, h9⟩ := h
  refine ⟨rank', h1, h2, ?_, by omega, by rw [h5, hhdr], ?_, ?_, ?_, ?_⟩
  · intro q hq; rw [h3 q (by omega), hagree q hq]
  · rw [← hagree p hp]; exact h6
  · intro e he
    obtain ⟨a, b⟩ := h7 e he
    exact ⟨by rw [a, hagree p hp], by omega⟩
  · intro hc
    obtain ⟨a, b⟩ := h8 (by rw [hroot]; exact hc)
    exact ⟨by rw [a, hroot], by rw [b, hrl]⟩
  · intro hc hn
    obtain ⟨a, b⟩ := h9 (by rw [hroot]; exact hc) hn
    exact ⟨by omega, by rw [b, hagree p hp]⟩

/-- Post-condition of the branches of `insert` that write one node back. -/
theorem write_post {idx1 : BTreeIndex} {rank1 : Nat → Nat} {p : Nat} {old pg : Page}
    (hR : Ranked idx1 rank1) (hH : HeaderOK idx1) (hp : idx1.readPage p = some old)
    (hne : p ≠ idx1.headerPageNum) (hr : 1 ≤ rank1 p) (hpg : PageOK rank1 (rank1 p) pg) :
    InsertPost idx1 rank1 p (idx1.writePage p pg) none := by
  refine ⟨rank1, Ranked_writePage hR hp hpg, ?_, fun _ _ => rfl, ?_, rfl, hr, ?_, ?_, ?_⟩
  · unfold HeaderOK
    show (idx1.writePage p pg).readPage idx1.headerPageNum = some (Page.header idx1.rootPageNum)
    rw [readPage_writePage hp]
    have h2 : ¬ (idx1.headerPageNum = p) := fun e => hne e.symm
    simp only [h2, if_false]
    exact hH
  · simp [BTreeIndex.writePage]
  · intro e he; exact absurd he (by simp)
  · intro _; exact ⟨rfl, rfl⟩
  · intro _ hn; exact absurd rfl hn

/-- Post-condition of the two split branches of `insert`. -/
theorem split_post (M : Nat) {idx1 : BTreeIndex} {rank1 : Nat → Nat} {p : Nat}
    {old : Page} (pgOld pgNew : Page) (hR : Ranked idx1 rank1) (hH : HeaderOK idx1)
    (hp : idx1.readPage p = some old) (hne : p ≠ idx1.headerPageNum) (hr : 1 ≤ rank1 p)
    (hOld : PageOK rank1 (rank1 p) pgOld) (hNew : PageOK rank1 (rank1 p) pgNew)
    (e : PageKeyPair) (he : e.pageNo = idx1.pages.length + 1) :
    InsertPost idx1 rank1 p
      (if p = idx1.rootPageNum then new_root M ((idx1.writePage p pgOld).allocPage pgNew) p e
        else (idx1.writePage p pgOld).allocPage pgNew) (some e) := by
  obtain ⟨hp1, hp2⟩ := readPage_some_bounds hp
  obtain ⟨hR2, hH2, hlen2⟩ := write_alloc_ranked hR hH hp hne hOld hNew
  have hupd_old : ∀ q, q ≤ idx1.pages.length →
      Function.update rank1 (idx1.pages.length + 1) (rank1 p) q = rank1 q := by
    intro q hq
    have : q ≠ idx1.pages.length + 1 := by omega
    simp [Function.update, this]
  have hupd_new : Function.update rank1 (idx1.pages.length + 1) (rank1 p) e.pageNo = rank1 p := by
    rw [he]; simp [Function.update]
  by_cases hpr : p = idx1.rootPageNum
  · rw [if_pos hpr]
    obtain ⟨hR3, hH3, hroot3, hhdr3, hlen3⟩ := new_root_ranked M (p := p) (e := e) hR2 hH2
      (by rw [hupd_old p hp2]; exact hr) (by rw [hupd_new, hupd_old p hp2])
    rw [hlen2] at hR3 hroot3 hlen3
    rw [hupd_old p hp2] at hR3
    refine ⟨_, hR3, hH3, ?_, by omega, hhdr3, hr, ?_, ?_, ?_⟩
    · intro q hq
      have : q ≠ idx1.pages.length + 1 + 1 := by omega
      rw [Function.update_noteq this, hupd_old q hq]
    · intro e' he'
      simp only [Option.some.injEq] at he'
      subst he'
      have : e.pageNo ≠ idx1.pages.length + 1 + 1 := by omega
      rw [Function.update_noteq this, hupd_new]
      exact ⟨rfl, by omega⟩
    · intro hc
      rcases hc with hc | hc
      · exact absurd hpr hc
      · exact absurd hc (by simp)
    · intro _ _
      rw [hroot3]
      exact ⟨by omega, by simp [Function.update]⟩
  · rw [if_neg hpr]
    refine ⟨_, hR2, hH2, hupd_old, by omega, rfl, hr, ?_, ?_, ?_⟩
    · intro e' he'
      simp only [Option.some.injEq] at he'
      subst he'
      exact ⟨hupd_new, by omega⟩
    · intro _; exact ⟨rfl, rfl⟩
    · intro hc; exact absurd hc hpr

/-- Main invariant lemma: a successful `insert` keeps the pages ranked. -/
theorem insert_ranked (L M : Nat) (fuel : Nat) :
    ∀ (idx : BTreeIndex) (p : Nat) (isLeaf : Bool) (entry : RIDKeyPair) (idx' : BTreeIndex)
      (nc : Option PageKeyPair) (rank : Nat → Nat),
      Ranked idx rank → HeaderOK idx →
      (p = idx.rootPageNum ∨ rank p < rank idx.rootPageNum) →
      insert L M fuel idx p isLeaf entry = some (idx', nc) →
      InsertPost idx rank p idx' nc := by
  induction fuel with
  | zero => intro idx p isLeaf entry idx' nc rank _ _ _ h; simp [insert] at h
  | succ n ih =>
    intro idx p isLeaf entry idx' nc rank hR hH hroot h
    unfold insert at h
    cases isLeaf with
    | true =>
      simp only [Bool.not_true, Bool.false_eq_true, if_false] at h
      cases hrd : idx.readLeaf p with
      | none => rw [hrd] at h; exact absurd h (by simp)
      | some leaf =>
        rw [hrd] at h
        simp only at h
        have hpg := readLeaf_some hrd
        have hrp : rank p = 1 := by
          have := hR p; rw [hpg] at this; exact this
        have hne : p ≠ idx.headerPageNum := by
          intro e
          unfold HeaderOK at hH
          rw [← e, hpg] at hH
          exact absurd hH (by simp)
        split at h
        · simp only [Option.some.injEq, Prod.mk.injEq] at h
          obtain ⟨h1, h2⟩ := h
          subst h1; subst h2
          exact write_post hR hH hpg hne (by omega) hrp
        · have hsp := split_post M (Page.leaf
              (split_Leaf L leaf idx.nextPageNum entry).1) (Page.leaf
              (split_Leaf L leaf idx.nextPageNum entry).2.1) hR hH hpg hne (by omega) hrp hrp
              (split_Leaf L leaf idx.nextPageNum entry).2.2 rfl
          split at h
          · rename_i hc
            have hc' : p = idx.rootPageNum := hc
            simp only [Option.some.injEq, Prod.mk.injEq] at h
            obtain ⟨h1, h2⟩ := h
            subst h1; subst h2
            rw [if_pos hc'] at hsp
            exact hsp
          · rename_i hc
            have hc' : ¬ p = idx.rootPageNum := hc
            simp only [Option.some.injEq, Prod.mk.injEq] at h
            obtain ⟨h1, h2⟩ := h
            subst h1; subst h2
            rw [if_neg hc'] at hsp
            exact hsp
    | false =>
      simp only [Bool.not_false, if_true] at h
      cases hrd : idx.readNonLeaf p with
      | none => rw [hrd] at h; exact absurd h (by simp)
      | some cn =>
        rw [hrd] at h
        simp only at h
        have hpg := readNonLeaf_some hrd
        obtain ⟨hp1, hp2⟩ := readPage_some_bounds hpg
        have hOKp : PageOK rank (rank p) (Page.nonleaf cn) := by
          have := hR p; rw [hpg] at this; exact this
        have hrp2 : 2 ≤ rank p := hOKp.1
        have hrroot : rank p ≤ rank idx.rootPageNum := by
          rcases hroot with e | e
          · rw [← e]
          · omega
        have hz0 : rank 0 = 0 := by
          have := hR 0
          have h0 : idx.readPage 0 = none := by simp [BTreeIndex.readPage]
          rw [h0] at this; exact this
        cases hrec : insert L M n idx (ChooseSubtree M cn entry.key) (decide (cn.level = 1)) entry
          with
        | none => rw [hrec] at h; exact absurd h (by simp)
        | some r =>
          obtain ⟨idx1, ncc⟩ := r
          rw [hrec] at h
          have hclt : rank (ChooseSubtree M cn entry.key) < rank idx.rootPageNum := by
            by_cases hc0 : ChooseSubtree M cn entry.key = 0
            · rw [hc0, hz0]; omega
            · have h' : rank (ChooseSubtree M cn entry.key) + 1 = rank p :=
                hOKp.2 (ChooseSubtree_idx M cn entry.key) hc0
              omega
          obtain ⟨rank1, hR1, hH1, hag1, hlen1, hhdr1, hrc1, hnc1, hroot1, -⟩ :=
            ih idx _ _ entry idx1 ncc rank hR hH (Or.inr hclt) hrec
          have hcne : ChooseSubtree M cn entry.key ≠ idx.rootPageNum := by
            intro e; rw [e] at hclt; omega
          obtain ⟨hr1, hrl1⟩ := hroot1 (Or.inl hcne)
          have hcrank : rank (ChooseSubtree M cn entry.key) + 1 = rank p := by
            have hc0 : ChooseSubtree M cn entry.key ≠ 0 := by
              intro e; rw [e, hz0] at hrc1; omega
            exact hOKp.2 (ChooseSubtree_idx M cn entry.key) hc0
          cases ncc with
          | none =>
            simp only [Option.some.injEq, Prod.mk.injEq] at h
            obtain ⟨h1, h2⟩ := h
            subst h1; subst h2
            refine ⟨rank1, hR1, hH1, hag1, hlen1, hhdr1, by omega, ?_, ?_, ?_⟩
            · intro e he; exact absurd he (by simp)
            · intro _; exact ⟨hr1, hrl1⟩
            · intro _ hn; exact absurd rfl hn
          | some e =>
            simp only at h
            obtain ⟨hre, hle⟩ := hnc1 e rfl
            cases hrd1 : idx1.readNonLeaf p with
            | none => rw [hrd1] at h; exact absurd h (by simp)
            | some cur =>
              rw [hrd1] at h
              simp only at h
              have hpg1 := readNonLeaf_some hrd1
              have hOK1 : PageOK rank1 (rank1 p) (Page.nonleaf cur) := by
                have := hR1 p; rw [hpg1] at this; exact this
              have hrank1p : rank1 p = rank p := hag1 p hp2
              have hne1 : p ≠ idx1.headerPageNum := by
                intro e'
                unfold HeaderOK at hH1
                rw [← e', hpg1] at hH1
                exact absurd hH1 (by simp)
              have heS : e.pageNo ≠ 0 → rank1 e.pageNo + 1 = rank1 p := by
                intro _; rw [hre, hrank1p]; exact hcrank
              apply InsertPost_trans hag1 hlen1 hhdr1 hr1 hrl1 hp2
              split at h
              · simp only [Option.some.injEq, Prod.mk.injEq] at h
                obtain ⟨h1, h2⟩ := h
                subst h1; subst h2
                exact write_post hR1 hH1 hpg1 hne1 (by omega)
                  ⟨hOK1.1, ChildrenIn_insert_nonLeaf hOK1.2 e heS⟩
              · obtain ⟨hs1, hs2, hs3⟩ := ChildrenIn_split_nonLeaf M hOK1.2 idx1.nextPageNum e heS
                have hsp := split_post M (Page.nonleaf
                    (split_nonLeaf M cur idx1.nextPageNum e).1) (Page.nonleaf
                    (split_nonLeaf M cur idx1.nextPageNum e).2.1) hR1 hH1 hpg1 hne1 (by omega)
                    ⟨hOK1.1, hs1⟩ ⟨hOK1.1, hs2⟩
                    (split_nonLeaf M cur idx1.nextPageNum e).2.2 hs3
                split at h
                · rename_i hc
                  have hc' : p = idx1.rootPageNum := hc
                  simp only [Option.some.injEq, Prod.mk.injEq] at h
                  obtain ⟨h1, h2⟩ := h
                  subst h1; subst h2
                  rw [if_pos hc'] at hsp
                  exact hsp
                · rename_i hc
                  have hc' : ¬ p = idx1.rootPageNum := hc
                  simp only [Option.some.injEq, Prod.mk.injEq] at h
                  obtain ⟨h1, h2⟩ := h
                  subst h1; subst h2
                  rw [if_neg hc'] at hsp
                  exact hsp

/-- The depth bound of `insert` is not what makes it fail: with a bound of at
least the rank of the page, the result does not depend on the bound. -/
theorem insert_fuel_stable (L M : Nat) {idx : BTreeIndex} {rank : Nat → Nat}
    (hR : Ranked idx rank) (entry : RIDKeyPair) (fuel1 : Nat) :
    ∀ (fuel2 p : Nat) (isLeaf : Bool), 1 ≤ fuel1 → 1 ≤ fuel2 → rank p ≤ fuel1 → rank p ≤ fuel2 →
      insert L M fuel1 idx p isLeaf entry = insert L M fuel2 idx p isLeaf entry := by
  induction fuel1 with
  | zero => intro fuel2 p isLeaf h; omega
  | succ a ih =>
    intro fuel2 p isLeaf _ h2 hr1 hr2
    obtain ⟨b, rfl⟩ : ∃ b, fuel2 = b + 1 := ⟨fuel2 - 1, by omega⟩
    unfold insert
    cases isLeaf with
    | true => rfl
    | false =>
      simp only [Bool.not_false, if_true]
      cases hrd : idx.readNonLeaf p with
      | none => rfl
      | some cn =>
        simp only
        have hpg := readNonLeaf_some hrd
        have hOKp : PageOK rank (rank p) (Page.nonleaf cn) := by
          have := hR p; rw [hpg] at this; exact this
        have hrp2 : 2 ≤ rank p := hOKp.1
        have hz0 : rank 0 = 0 := by
          have := hR 0
          have h0 : idx.readPage 0 = none := by simp [BTreeIndex.readPage]
          rw [h0] at this; exact this
        have hcle : rank (ChooseSubtree M cn entry.key) + 1 ≤ rank p := by
          by_cases hc0 : ChooseSubtree M cn entry.key = 0
          · rw [hc0, hz0]; omega
          · have h' : rank (ChooseSubtree M cn entry.key) + 1 = rank p :=
              hOKp.2 (ChooseSubtree_idx M cn entry.key) hc0
            omega
        rw [ih b (ChooseSubtree M cn entry.key) (decide (cn.level = 1)) (by omega) (by omega)
          (by omega) (by omega)]

theorem Inv_create (L : Nat) : Inv (BTreeIndex.create L) := by
  refine ⟨fun q => if q = 2 then 1 else 0, ?_, ?_, ?_, ?_⟩
  · intro q
    match q with
    | 0 => simp [BTreeIndex.readPage]
    | 1 => simp [BTreeIndex.readPage, BTreeIndex.create, PageOK]
    | 2 => simp [BTreeIndex.readPage, BTreeIndex.create, PageOK]
    | n + 3 => simp [BTreeIndex.readPage, BTreeIndex.create]
  · simp [HeaderOK, BTreeIndex.readPage, BTreeIndex.create]
  · simp [BTreeIndex.create]
  · simp [BTreeIndex.create]

theorem root_valid_of_rank {idx : BTreeIndex} {rank : Nat → Nat} (hR : Ranked idx rank) {p : Nat}
    (h : 1 ≤ rank p) : 1 ≤ p ∧ p ≤ idx.pages.length := by
  have := hR p
  cases hrd : idx.readPage p with
  | none => rw [hrd] at this; simp only at this; omega
  | some pg => exact readPage_some_bounds hrd

theorem Inv_insertEntry (L M : Nat) {idx idx' : BTreeIndex} (key : Option Int) (rid : RecordId)
    (hI : Inv idx) (h : insertEntry L M idx key rid = some idx') : Inv idx' := by
  unfold insertEntry at h
  cases key with
  | none => simp only [Option.some.injEq] at h; rw [← h]; exact hI
  | some k =>
    simp only at h
    obtain ⟨rank, hR, hH, hr1, hr2⟩ := hI
    cases hrec : insert L M (idx.pages.length + 1) idx idx.rootPageNum idx.if_rootleaf ⟨rid, k⟩ with
    | none => rw [hrec] at h; exact absurd h (by simp)
    | some r =>
      rw [hrec] at h
      simp only [Option.some.injEq] at h
      obtain ⟨i1, nc⟩ := r
      simp only at h
      subst h
      obtain ⟨rank', hR', hH', hag, hlen, -, -, -, hsame, hnew⟩ :=
        insert_ranked L M _ idx _ _ _ i1 nc rank hR hH (Or.inl rfl) hrec
      obtain ⟨-, hrootle⟩ := root_valid_of_rank hR hr1
      cases nc with
      | none =>
        obtain ⟨hroot, -⟩ := hsame (Or.inr rfl)
        refine ⟨rank', hR', hH', ?_, ?_⟩
        · rw [hroot, hag _ hrootle]; exact hr1
        · rw [hroot, hag _ hrootle]; omega
      | some e =>
        obtain ⟨hgt, hrk⟩ := hnew rfl (by simp)
        refine ⟨rank', hR', hH', by omega, ?_⟩
        have hv := (root_valid_of_rank hR' (p := i1.rootPageNum) (by omega)).2
        omega

theorem Inv_insertEntries (L M : Nat) (es : List (Int × RecordId)) :
    ∀ (idx idx' : BTreeIndex), Inv idx → insertEntries L M idx es = some idx' → Inv idx' := by
  induction es with
  | nil =>
    intro idx idx' hI h
    simp only [insertEntries, Option.some.injEq] at h
    rw [← h]; exact hI
  | cons e es ih =>
    intro idx idx' hI h
    unfold insertEntries at h
    cases h1 : insertEntry L M idx (some e.1) e.2 with
    | none => rw [h1] at h; exact absurd h (by simp)
    | some i1 =>
      rw [h1] at h
      exact ih i1 idx' (Inv_insertEntry L M _ _ hI h1) h

theorem Inv_build (L M : Nat) {es : List (Int × RecordId)} {idx : BTreeIndex}
    (h : build L M es = some idx) : Inv idx :=
  Inv_insertEntries L M es _ _ (Inv_create L) h

/-- On a tree built by `insertEntry` calls, the depth bound `insertEntry` gives
`insert` is large enough: a larger bound gives the same result, so a failure
of the model is a read of a page that is not there, never a lack of depth. -/
theorem insertEntry_depth_bound_suffices (L M : Nat) (es : List (Int × RecordId))
    (idx : BTreeIndex) (entry : RIDKeyPair) (fuel : Nat) (hb : build L M es = some idx)
    (hf : idx.pages.length + 1 ≤ fuel) :
    insert L M fuel idx idx.rootPageNum idx.if_rootleaf entry
      = insert L M (idx.pages.length + 1) idx idx.rootPageNum idx.if_rootleaf entry := by
  obtain ⟨rank, hR, -, hr1, hr2⟩ := Inv_build L M hb
  exact insert_fuel_stable L M hR entry fuel _ _ _ (by omega) (by omega) (by omega) (by omega)

theorem insertEntry_depth_bound_suffices_witness :
    build 2 3 [(10, ⟨1, 1⟩), (20, ⟨1, 2⟩)] = some sampleTree ∧
    insert 2 3 50 sampleTree sampleTree.rootPageNum sampleTree.if_rootleaf ⟨⟨1, 3⟩, 30⟩
      = insert 2 3 (sampleTree.pages.length + 1) sampleTree sampleTree.rootPageNum
          sampleTree.if_rootleaf ⟨⟨1, 3⟩, 30⟩ :=
  ⟨by rfl, insertEntry_depth_bound_suffices 2 3 [(10, ⟨1, 1⟩), (20, ⟨1, 2⟩)] sampleTree
    ⟨⟨1, 3⟩, 30⟩ 50 (by rfl) (by decide)⟩

/-! ## Entry counts after a leaf split -/

theorem getD_set_eq {α : Type} (l : List α) (i j : Nat) (v d : α) :
    (l.set i v).getD j d = if i = j ∧ i < l.length then v else l.getD j d := by
  simp only [List.getD_eq_getElem?_getD, List.getElem?_set]
  by_cases hij : i = j
  · subst hij
    by_cases hlt : i < l.length
    · simp [hlt]
    · simp [hlt, List.getElem?_eq_none (Nat.le_of_not_lt hlt)]
  · simp [hij]

theorem rid_setSlot (leaf : LeafNodeInt) (i j : Nat) (k : Int) (r : RecordId) :
    (leaf.setSlot i k r).rid j = if i = j ∧ i < leaf.ridArray.length then r else leaf.rid j := by
  unfold LeafNodeInt.rid LeafNodeInt.setSlot
  exact getD_set_eq _ _ _ _ _

theorem rid_clearSlot (leaf : LeafNodeInt) (i j : Nat) :
    ((leaf.clearSlot i).rid j).page_number
      = if i = j ∧ i < leaf.ridArray.length then 0 else (leaf.rid j).page_number := by
  unfold LeafNodeInt.clearSlot
  show ((leaf.ridArray.set i _).getD j _).page_number = _
  rw [getD_set_eq]
  split <;> rfl

theorem length_setSlot (leaf : LeafNodeInt) (i : Nat) (k : Int) (r : RecordId) :
    (leaf.setSlot i k r).keyArray.length = leaf.keyArray.length ∧
    (leaf.setSlot i k r).ridArray.length = leaf.ridArray.length := by
  simp [LeafNodeInt.setSlot]

theorem length_clearSlot (leaf : LeafNodeInt) (i : Nat) :
    (leaf.clearSlot i).keyArray.length = leaf.keyArray.length ∧
    (leaf.clearSlot i).ridArray.length = leaf.ridArray.length := by
  simp [LeafNodeInt.clearSlot]

theorem filter_length_of_prefix {α : Type} (P : α → Bool) :
    ∀ (l : List α) (c : Nat), c ≤ l.length →
      (∀ i (h : i < l.length), i < c → P (l.get ⟨i, h⟩) = true) →
      (∀ i (h : i < l.length), c ≤ i → P (l.get ⟨i, h⟩) = false) →
      (l.filter P).length = c := by
  intro l
  induction l with
  | nil => intro c hc _ _; simp at hc; simp [hc]
  | cons a t ih =>
    intro c hc h1 h2
    cases c with
    | zero =>
      have ha : P a = false := h2 0 (by simp) (Nat.le_refl 0)
      have := ih 0 (Nat.zero_le _) (fun i h hi => absurd hi (by omega))
        (fun i h _ => h2 (i + 1) (by simp; omega) (by omega))
      simp [List.filter, ha, this]
    | succ c =>
      have ha : P a = true := h1 0 (by simp) (by omega)
      have := ih c (by simp at hc; omega)
        (fun i h hi => h1 (i + 1) (by simp; omega) (by omega))
        (fun i h hi => h2 (i + 1) (by simp; omega) (by omega))
      simp [List.filter, ha, this]

theorem entries_length_of_occupied {L c : Nat} {leaf : LeafNodeInt} (hc : c ≤ L)
    (h : leaf.occupied L c) : leaf.entries.length = c := by
  obtain ⟨hk, hr, hocc⟩ := h
  unfold LeafNodeInt.entries
  have hlen : (leaf.keyArray.zip leaf.ridArray).length = L := by simp [hk, hr]
  apply filter_length_of_prefix _ _ c (by omega)
  · intro i hi hic
    have hi' : i < leaf.ridArray.length := by omega
    have := (hocc i).1 hic
    unfold LeafNodeInt.rid at this
    rw [List.getD_eq_getElem?_getD, List.getElem?_eq_getElem hi'] at this
    simpa using this
  · intro i hi hic
    have hi' : i < leaf.ridArray.length := by omega
    have := (hocc i).2 hic
    unfold LeafNodeInt.rid at this
    rw [List.getD_eq_getElem?_getD, List.getElem?_eq_getElem hi'] at this
    simpa using this

theorem insert_Leaf_End_of_occupied {L c : Nat} {leaf : LeafNodeInt} (h : leaf.occupied L c)
    (hc : 1 ≤ c) (fuel : Nat) :
    ∀ e, e + 1 ≤ c → c ≤ e + 1 + fuel → insert_Leaf_End leaf fuel e = c - 1 := by
  induction fuel with
  | zero => intro e h1 h2; simp only [insert_Leaf_End]; omega
  | succ n ih =>
    intro e h1 h2
    unfold insert_Leaf_End
    by_cases hlt : e + 1 < c
    · rw [if_pos ((h.2.2 (e + 1)).1 hlt)]
      exact ih (e + 1) (by omega) (by omega)
    · have hz := (h.2.2 (e + 1)).2 (by omega)
      simp only [hz, ne_eq, not_true_eq_false, if_false]
      omega

theorem insert_Leaf_shift_occupied (L c : Nat) (key : Int) (hcL : c + 1 ≤ L) (n : Nat) :
    ∀ leaf : LeafNodeInt, n ≤ c → leaf.keyArray.length = L → leaf.ridArray.length = L →
      (∀ i, i ≠ n → i < c + 1 → (leaf.rid i).page_number ≠ 0) →
      (∀ i, c + 1 ≤ i → (leaf.rid i).page_number = 0) →
      (insert_Leaf_shift key n leaf).1 ≤ c ∧
      (insert_Leaf_shift key n leaf).2.keyArray.length = L ∧
      (insert_Leaf_shift key n leaf).2.ridArray.length = L ∧
      (∀ i, i ≠ (insert_Leaf_shift key n leaf).1 → i < c + 1 →
        ((insert_Leaf_shift key n leaf).2.rid i).page_number ≠ 0) ∧
      (∀ i, c + 1 ≤ i → ((insert_Leaf_shift key n leaf).2.rid i).page_number = 0) := by
  induction n with
  | zero => intro leaf hn hk hr h1 h2; exact ⟨hn, hk, hr, h1, h2⟩
  | succ m ih =>
    intro leaf hn hk hr h1 h2
    unfold insert_Leaf_shift
    split
    · obtain ⟨lk, lr⟩ := length_setSlot leaf (m + 1) (leaf.key m) (leaf.rid m)
      apply ih _ (by omega) (by rw [lk]; exact hk) (by rw [lr]; exact hr)
      · intro i hi hlt
        rw [rid_setSlot]
        by_cases him : m + 1 = i
        · have : m + 1 < leaf.ridArray.length := by omega
          simp only [him, true_and]
          rw [← him, if_pos this]
          exact h1 m (by omega) (by omega)
        · simp only [him, false_and, if_false]
          exact h1 i (fun e => him e.symm) hlt
      · intro i hi
        rw [rid_setSlot]
        have him : ¬ (m + 1 = i) := by omega
        simp only [him, false_and, if_false]
        exact h2 i hi
    · exact ⟨hn, hk, hr, h1, h2⟩

theorem insert_Leaf_occupied {L c : Nat} {leaf : LeafNodeInt} (h : leaf.occupied L c)
    (hc : 1 ≤ c) (hcL : c + 1 ≤ L) (entry : RIDKeyPair) (he : entry.rid.page_number ≠ 0) :
    (insert_Leaf leaf entry).occupied L (c + 1) := by
  obtain ⟨hk, hr, hocc⟩ := h
  unfold insert_Leaf
  have h0 : ¬ ((leaf.rid 0).page_number = 0 ∧ leaf.key 0 = 0) := by
    intro hh; exact (hocc 0).1 (by omega) hh.1
  rw [if_neg h0]
  simp only
  have hEnd : insert_Leaf_End leaf leaf.ridArray.length 0 = c - 1 :=
    insert_Leaf_End_of_occupied ⟨hk, hr, hocc⟩ hc _ 0 (by omega) (by omega)
  rw [hEnd]
  have hc1 : c - 1 + 1 = c := by omega
  rw [hc1]
  obtain ⟨s1, s2, s3, s4, s5⟩ := insert_Leaf_shift_occupied L c entry.key hcL c leaf
    (Nat.le_refl c) hk hr
    (fun i hi hlt => (hocc i).1 (by omega))
    (fun i hi => (hocc i).2 (by omega))
  obtain ⟨lk, lr⟩ := length_setSlot (insert_Leaf_shift entry.key c leaf).2
    (insert_Leaf_shift entry.key c leaf).1 entry.key entry.rid
  refine ⟨by rw [lk]; exact s2, by rw [lr]; exact s3, ?_⟩
  intro i
  rw [rid_setSlot]
  constructor
  · intro hlt
    by_cases hi : (insert_Leaf_shift entry.key c leaf).1 = i
    · have : (insert_Leaf_shift entry.key c leaf).1 <
          (insert_Leaf_shift entry.key c leaf).2.ridArray.length := by omega
      rw [if_pos ⟨hi, this⟩]
      exact he
    · simp only [hi, false_and, if_false]
      exact s4 i (fun e => hi e.symm) hlt
  · intro hge
    have hi : ¬ ((insert_Leaf_shift entry.key c leaf).1 = i) := by omega
    simp only [hi, false_and, if_false]
    exact s5 i hge

theorem rid_zeroed (L sib i : Nat) : ((LeafNodeInt.zeroed L sib).rid i).page_number = 0 := by
  unfold LeafNodeInt.rid LeafNodeInt.zeroed
  rw [getD_replicate_self]

theorem split_Leaf_move_occupied (L mid : Nat) (fuel : Nat) :
    ∀ (i : Nat) (leaf newLeaf : LeafNodeInt), i + fuel = L → mid ≤ i →
      leaf.keyArray.length = L → leaf.ridArray.length = L →
      (∀ j, (j < mid → (leaf.rid j).page_number ≠ 0) ∧
        (i ≤ j → j < L → (leaf.rid j).page_number ≠ 0) ∧
        (mid ≤ j → j < i → (leaf.rid j).page_number = 0) ∧
        (L ≤ j → (leaf.rid j).page_number = 0)) →
      newLeaf.occupied L (i - mid) →
      (split_Leaf_move mid fuel i leaf newLeaf).1.occupied L mid ∧
      (split_Leaf_move mid fuel i leaf newLeaf).2.occupied L (L - mid) := by
  induction fuel with
  | zero =>
    intro i leaf newLeaf hi hmi hk hr hl hn
    have hiL : i = L := by omega
    subst hiL
    refine ⟨⟨hk, hr, ?_⟩, hn⟩
    intro j
    refine ⟨(hl j).1, ?_⟩
    intro hj
    by_cases hjL : j < i
    · exact (hl j).2.2.1 hj hjL
    · exact (hl j).2.2.2 (by omega)
  | succ n ih =>
    intro i leaf newLeaf hi hmi hk hr hl hn
    unfold split_Leaf_move
    obtain ⟨ck, cr⟩ := length_clearSlot leaf i
    obtain ⟨sk, sr⟩ := length_setSlot newLeaf (i - mid) (leaf.key i) (leaf.rid i)
    obtain ⟨nk, nr, nocc⟩ := hn
    apply ih (i + 1) _ _ (by omega) (by omega) (by rw [ck]; exact hk) (by rw [cr]; exact hr)
    · intro j
      rw [rid_clearSlot]
      refine ⟨?_, ?_, ?_, ?_⟩
      · intro hj
        have : ¬ (i = j) := by omega
        simp only [this, false_and, if_false]
        exact (hl j).1 hj
      · intro h1 h2
        have : ¬ (i = j) := by omega
        simp only [this, false_and, if_false]
        exact (hl j).2.1 (by omega) h2
      · intro h1 h2
        by_cases hij : i = j
        · have : i < leaf.ridArray.length := by omega
          rw [if_pos ⟨hij, this⟩]
        · simp only [hij, false_and, if_false]
          exact (hl j).2.2.1 h1 (by omega)
      · intro h1
        have : ¬ (i = j) := by omega
        simp only [this, false_and, if_false]
        exact (hl j).2.2.2 h1
    · refine ⟨by rw [sk]; exact nk, by rw [sr]; exact nr, ?_⟩
      intro j
      rw [rid_setSlot]
      constructor
      · intro hj
        by_cases hij : i - mid = j
        · have : i - mid < newLeaf.ridArray.length := by omega
          rw [if_pos ⟨hij, this⟩]
          exact (hl i).2.1 (Nat.le_refl i) (by omega)
        · simp only [hij, false_and, if_false]
          exact (nocc j).1 (by omega)
      · intro hj
        have hij : ¬ (i - mid = j) := by omega
        simp only [hij, false_and, if_false]
        exact (nocc j).2 (by omega)

/-- Leaf half of the split balance (C10): splitting a full leaf of capacity
`L ≥ 2` for an entry with a non-null locator leaves both leaves non-empty, each
with at most `L` of the `L + 1` entries present at the overflow, and the two
leaves hold `L + 1` entries together. -/
theorem split_Leaf_balance (L : Nat) (leaf : LeafNodeInt) (PageNum : Nat) (entry : RIDKeyPair)
    (hL : 2 ≤ L) (hk : leaf.keyArray.length = L) (hr : leaf.ridArray.length = L)
    (hfull : ∀ i, i < L → (leaf.rid i).page_number ≠ 0) (he : entry.rid.page_number ≠ 0) :
    1 ≤ (split_Leaf L leaf PageNum entry).1.entries.length ∧
    (split_Leaf L leaf PageNum entry).1.entries.length < L + 1 ∧
    1 ≤ (split_Leaf L leaf PageNum entry).2.1.entries.length ∧
    (split_Leaf L leaf PageNum entry).2.1.entries.length < L + 1 ∧
    (split_Leaf L leaf PageNum entry).1.entries.length +
      (split_Leaf L leaf PageNum entry).2.1.entries.length = L + 1 := by
  have hmid : 1 ≤ split_Leaf_mid L leaf entry.key ∧ split_Leaf_mid L leaf entry.key + 1 ≤ L := by
    unfold split_Leaf_mid
    split
    · rename_i h; omega
    · omega
  obtain ⟨hm1, hm2⟩ := hmid
  have hbeyond : ∀ j, L ≤ j → (leaf.rid j).page_number = 0 := by
    intro j hj
    unfold LeafNodeInt.rid
    rw [List.getD_eq_getElem?_getD, List.getElem?_eq_none (by omega)]
    rfl
  obtain ⟨ho, hn⟩ := split_Leaf_move_occupied L (split_Leaf_mid L leaf entry.key)
    (L - split_Leaf_mid L leaf entry.key) (split_Leaf_mid L leaf entry.key) leaf
    (LeafNodeInt.zeroed L 0) (by omega) (Nat.le_refl _) hk hr
    (fun j => ⟨fun hj => hfull j (by omega), fun _ hj => hfull j hj,
      fun h1 h2 => absurd h2 (by omega), hbeyond j⟩)
    ⟨by simp [LeafNodeInt.zeroed], by simp [LeafNodeInt.zeroed],
      fun i => ⟨fun h => absurd h (by omega), fun _ => rid_zeroed L 0 i⟩⟩
  unfold split_Leaf
  simp only
  split
  · have hn' := insert_Leaf_occupied hn (by omega) (by omega) entry he
    have e1 := entries_length_of_occupied (by omega) ho
    have e2 := entries_length_of_occupied (by omega) hn'
    simp only [LeafNodeInt.entries] at e1 e2 ⊢
    omega
  · have ho' := insert_Leaf_occupied ho hm1 hm2 entry he
    have e1 := entries_length_of_occupied (by omega) ho'
    have e2 := entries_length_of_occupied (by omega) hn
    simp only [LeafNodeInt.entries] at e1 e2 ⊢
    omega

theorem split_Leaf_balance_witness :
    1 ≤ (split_Leaf 2 ⟨[10, 20], [⟨1, 1⟩, ⟨1, 2⟩], 0⟩ 3 ⟨⟨1, 3⟩, 30⟩).1.entries.length ∧
    (split_Leaf 2 ⟨[10, 20], [⟨1, 1⟩, ⟨1, 2⟩], 0⟩ 3 ⟨⟨1, 3⟩, 30⟩).1.entries.length < 2 + 1 ∧
    1 ≤ (split_Leaf 2 ⟨[10, 20], [⟨1, 1⟩, ⟨1, 2⟩], 0⟩ 3 ⟨⟨1, 3⟩, 30⟩).2.1.entries.length ∧
    (split_Leaf 2 ⟨[10, 20], [⟨1, 1⟩, ⟨1, 2⟩], 0⟩ 3 ⟨⟨1, 3⟩, 30⟩).2.1.entries.length < 2 + 1 ∧
    (split_Leaf 2 ⟨[10, 20], [⟨1, 1⟩, ⟨1, 2⟩], 0⟩ 3 ⟨⟨1, 3⟩, 30⟩).1.entries.length +
      (split_Leaf 2 ⟨[10, 20], [⟨1, 1⟩, ⟨1, 2⟩], 0⟩ 3 ⟨⟨1, 3⟩, 30⟩).2.1.entries.length = 2 + 1 :=
  split_Leaf_balance 2 ⟨[10, 20], [⟨1, 1⟩, ⟨1, 2⟩], 0⟩ 3 ⟨⟨1, 3⟩, 30⟩ (by decide) rfl rfl
    (by decide) (by decide)

/-! ## Internal split: evaluations -/

/-- C11 (internal split conserves keys and children), evaluated on the code
with `M = 5`: splitting the full node with keys 10, 20, 30, 40, 50 and children
2, 3, 4, 5, 6, 7 for the incoming pair (60, page 8) promotes key 30 and leaves
the old node with children 2, 3 and the new node with children 5, 6, 7, 8:
child 4, the one at index `mid = 2`, is in neither node. -/
theorem C11_internal_split_loses_child_at_mid :
    split_nonLeaf 5 ⟨1, [10, 20, 30, 40, 50], [2, 3, 4, 5, 6, 7]⟩ 9 ⟨8, 60⟩
      = (⟨1, [10, 20, 0, 0, 0], [2, 3, 0, 0, 0, 0]⟩,
         ⟨1, [40, 50, 60, 0, 0], [5, 6, 7, 8, 0, 0]⟩, ⟨9, 30⟩) ∧
    4 ∉ (split_nonLeaf 5 ⟨1, [10, 20, 30, 40, 50], [2, 3, 4, 5, 6, 7]⟩ 9 ⟨8, 60⟩).1.pageNoArray ∧
    4 ∉ (split_nonLeaf 5 ⟨1, [10, 20, 30, 40, 50], [2, 3, 4, 5, 6, 7]⟩ 9
      ⟨8, 60⟩).2.1.pageNoArray := by
  refine ⟨by decide, by decide, by decide⟩

/-- C12 (internal split places the incoming pair on the correct side),
evaluated on the code with `M = 5`: splitting the full node with keys 10, 20,
30, 40, 50 for the incoming pair (35, page 8) promotes 30, and the pair with
key 35 > 30 ends in the old node, because the code compares 35 with the first
key 40 of the new node; there it overwrites key 20. -/
theorem C12_internal_split_puts_pair_on_wrong_side :
    split_nonLeaf 5 ⟨1, [10, 20, 30, 40, 50], [2, 3, 4, 5, 6, 7]⟩ 9 ⟨8, 35⟩
      = (⟨1, [10, 35, 0, 0, 0], [2, 3, 8, 0, 0, 0]⟩,
         ⟨1, [40, 50, 0, 0, 0], [5, 6, 7, 0, 0, 0]⟩, ⟨9, 30⟩) ∧
    (35 : Int) > (split_nonLeaf 5 ⟨1, [10, 20, 30, 40, 50], [2, 3, 4, 5, 6, 7]⟩ 9 ⟨8, 35⟩).2.2.key ∧
    8 ∈ (split_nonLeaf 5 ⟨1, [10, 20, 30, 40, 50], [2, 3, 4, 5, 6, 7]⟩ 9 ⟨8, 35⟩).1.pageNoArray ∧
    8 ∉ (split_nonLeaf 5 ⟨1, [10, 20, 30, 40, 50], [2, 3, 4, 5, 6, 7]⟩ 9
      ⟨8, 35⟩).2.1.pageNoArray := by
  refine ⟨by decide, by decide, by decide, by decide⟩

/-! ## Slot accesses, rejected `startScan`, levels: evaluations -/

/-- C20 (in-bounds slot access), evaluated on the code: (a) `insert_Leaf` of
key 5 into the leaf of capacity 2 holding key 10 reads `keyArray[0]` and then
`keyArray[-1]`; (b) `insert_nonLeaf` of key 5 into the node of capacity 3 with
keys 10, 20 reads `keyArray[1]`, `keyArray[0]` and then `keyArray[-1]`;
(c) the cursor loop of `tree_search` with `low = 30`, GT, on the full leaf of
capacity 2 holding 10, 20 reads `keyArray[0]`, `keyArray[1]` and then
`keyArray[2]`.  In each loop the array is read before the index is tested. -/
theorem C20_loops_read_keyArray_out_of_bounds :
    insert_Leaf_reads ⟨[10, 0], [⟨1, 1⟩, ⟨0, 0⟩], 0⟩ ⟨⟨1, 2⟩, 5⟩ = [0, -1] ∧
    insert_nonLeaf_reads ⟨1, [10, 20, 0], [2, 3, 4, 0]⟩ ⟨5, 5⟩ = [1, 0, -1] ∧
    tree_search_cursor_keyReads 2 ⟨[10, 20], [⟨1, 1⟩, ⟨1, 2⟩], 0⟩ Operator.GT 30 (2 + 1) 0
      = [0, 1, 2] := by
  refine ⟨by decide, by decide, by decide⟩

/-- C19 (a rejected `startScan` does not disturb an active scan), evaluated on
the code with `L = 4`, `M = 3`: on `scanningTree` (scan of `10 ≤ k ≤ 30` over
keys 10, 20, 30, locator of 10 already returned) the call
`startScan(5, GTE, 1, LTE)` throws `BadScanrangeException` but has stored
`lowValInt = 5` and `highValInt = 1`; the next `scanNext` then throws
`IndexScanCompletedException`, whereas without the rejected call it returns the
locator of key 20.  A call rejected for its operators leaves the handle as it was. -/
theorem C19_rejected_range_overwrites_scan_bounds :
    scanningTree.scanExecuting = true ∧
    (scanNext 4 scanningTree).result = Except.ok ⟨1, 2⟩ ∧
    (startScan 4 3 scanningTree 5 Operator.GTE 1 Operator.LTE).result
      = Except.error Exn.BadScanrangeException ∧
    (startScan 4 3 scanningTree 5 Operator.GTE 1 Operator.LTE).state.highValInt = 1 ∧
    scanningTree.highValInt = 30 ∧
    (scanNext 4 (startScan 4 3 scanningTree 5 Operator.GTE 1 Operator.LTE).state).result
      = Except.error Exn.IndexScanCompletedException ∧
    (startScan 4 3 scanningTree 5 Operator.LT 1 Operator.LTE).result
      = Except.error Exn.BadOpcodesException ∧
    (startScan 4 3 scanningTree 5 Operator.LT 1 Operator.LTE).state = scanningTree := by
  refine ⟨by rfl, by rfl, by rfl, by rfl, by rfl, by rfl, by rfl, by rfl⟩

/-- C17 (level invariant), evaluated on the code with `L = 2`, `M = 3`: after
inserting keys 10, 20, 30, -20, -10 the root is the internal node of page 4
with `level = -10` although its children, pages 5, 2 and 3, are leaves: the
loop of `insert_nonLeaf` ran down to `idx = -1` and the assignment
`keyArray[idx] = key` stored the promoted key -10 in the `int` in front of
`keyArray`, which is `level`.  The next `insertEntry` takes the leaf it
descends to for an internal node. -/
theorem C17_level_overwritten_by_promoted_key :
    (build 2 3 [(10, ⟨1, 1⟩), (20, ⟨1, 2⟩), (30, ⟨1, 3⟩), (-20, ⟨1, 4⟩), (-10, ⟨1, 5⟩)]).map
        (fun idx => (idx.rootPageNum, idx.readPage idx.rootPageNum,
          (idx.readLeaf 5).isSome, (idx.readLeaf 2).isSome, (idx.readLeaf 3).isSome))
      = some (4, some (Page.nonleaf ⟨-10, [1, 20, 0], [5, 2, 3, 0]⟩), true, true, true) ∧
    build 2 3 [(10, ⟨1, 1⟩), (20, ⟨1, 2⟩), (30, ⟨1, 3⟩), (-20, ⟨1, 4⟩), (-10, ⟨1, 5⟩),
        (40, ⟨1, 6⟩)] = none := by
  refine ⟨by rfl, by rfl⟩

/-! ## Scan descent against `ChooseSubtree` -/

/-- With enough iterations left, one more does not change `ChooseSubtree_loop`. -/
theorem ChooseSubtree_loop_fuel (M : Nat) (node : NonLeafNodeInt) (key : Int) (fuel : Nat) :
    ∀ idx, M ≤ idx + fuel →
      ChooseSubtree_loop M node key (fuel + 1) idx = ChooseSubtree_loop M node key fuel idx := by
  induction fuel with
  | zero =>
    intro idx h
    have : ¬ idx < M := by omega
    simp [ChooseSubtree_loop, this]
  | succ n ih =>
    intro idx h
    rw [ChooseSubtree_loop]
    conv => rhs; rw [ChooseSubtree_loop]
    split
    · exact ih (idx + 1) (by omega)
    · rfl

/-- The descent loop of `tree_search` for GT is the loop of `ChooseSubtree` for
the low bound. -/
theorem tree_search_descend_GT (M : Nat) (node : NonLeafNodeInt) (low : Int) (fuel : Nat) :
    ∀ idx, tree_search_descend M node Operator.GT low fuel idx
      = ChooseSubtree_loop M node low fuel idx := by
  induction fuel with
  | zero => intro idx; rfl
  | succ n ih =>
    intro idx
    rw [tree_search_descend, ChooseSubtree_loop]
    have hc : lowFails Operator.GT low (node.key idx) = true ↔ node.key idx ≤ low := by
      simp [lowFails]
    by_cases h : idx < M ∧ node.key idx ≤ low ∧ node.pageNo (idx + 1) ≠ 0
    · rw [if_pos h, if_pos ⟨h.1, hc.mpr h.2.1, h.2.2⟩]
      exact ih (idx + 1)
    · rw [if_neg h, if_neg (fun h' => h ⟨h'.1, hc.mp h'.2.1, h'.2.2⟩)]

/-- The descent loop of `tree_search` for GTE is the loop of `ChooseSubtree` for
the probe key `low - 1`: it advances while `keyArray[i] < low`. -/
theorem tree_search_descend_GTE (M : Nat) (node : NonLeafNodeInt) (low : Int) (fuel : Nat) :
    ∀ idx, tree_search_descend M node Operator.GTE low fuel idx
      = ChooseSubtree_loop M node (low - 1) fuel idx := by
  induction fuel with
  | zero => intro idx; rfl
  | succ n ih =>
    intro idx
    rw [tree_search_descend, ChooseSubtree_loop]
    have hc : lowFails Operator.GTE low (node.key idx) = true ↔ node.key idx ≤ low - 1 := by
      simp [lowFails]
      omega
    by_cases h : idx < M ∧ node.key idx ≤ low - 1 ∧ node.pageNo (idx + 1) ≠ 0
    · rw [if_pos h, if_pos ⟨h.1, hc.mpr h.2.1, h.2.2⟩]
      exact ih (idx + 1)
    · rw [if_neg h, if_neg (fun h' => h ⟨h'.1, hc.mp h'.2.1, h'.2.2⟩)]

/-- C16, as the spec states it, fails on the code: for the node with the single
separator 7 and children 2, 3 (`M = 3`) and `low = 7` with GTE, `tree_search`
follows child 0 (page 2) where `ChooseSubtree(node, 7)` selects child 1 (page 3). -/
theorem C16_GTE_descent_differs_at_separator :
    tree_search_descend 3 ⟨1, [7, 0, 0], [2, 3, 0, 0]⟩ Operator.GTE 7 (3 + 1) 0 = 0 ∧
    ChooseSubtree_idx 3 ⟨1, [7, 0, 0], [2, 3, 0, 0]⟩ 7 = 1 ∧
    (⟨1, [7, 0, 0], [2, 3, 0, 0]⟩ : NonLeafNodeInt).pageNo
        (tree_search_descend 3 ⟨1, [7, 0, 0], [2, 3, 0, 0]⟩ Operator.GTE 7 (3 + 1) 0) = 2 ∧
    ChooseSubtree 3 ⟨1, [7, 0, 0], [2, 3, 0, 0]⟩ 7 = 3 := by
  refine ⟨by decide, by decide, by decide, by decide⟩

/-- The loop of `ChooseSubtree` gives the same child for `low - 1` and `low`
when no key of the node equals `low`. -/
theorem ChooseSubtree_loop_pred (M : Nat) (node : NonLeafNodeInt) (low : Int)
    (hne : ∀ i, i < M → node.key i ≠ low) (fuel : Nat) :
    ∀ idx, ChooseSubtree_loop M node (low - 1) fuel idx
      = ChooseSubtree_loop M node low fuel idx := by
  induction fuel with
  | zero => intro idx; rfl
  | succ n ih =>
    intro idx
    rw [ChooseSubtree_loop, ChooseSubtree_loop]
    by_cases h : idx < M ∧ node.key idx ≤ low ∧ node.pageNo (idx + 1) ≠ 0
    · have h' : idx < M ∧ node.key idx ≤ low - 1 ∧ node.pageNo (idx + 1) ≠ 0 := by
        have := hne idx h.1
        exact ⟨h.1, by omega, h.2.2⟩
      rw [if_pos h, if_pos h']
      exact ih (idx + 1)
    · have h' : ¬ (idx < M ∧ node.key idx ≤ low - 1 ∧ node.pageNo (idx + 1) ≠ 0) := by
        intro hh; exact h ⟨hh.1, by omega, hh.2.2⟩
      rw [if_neg h, if_neg h']

/-- C16, amended: for every internal node and every low bound, the child index
`tree_search` follows for GT is the one `ChooseSubtree(node, low)` selects; the
child index it follows for GTE is the one `ChooseSubtree(node, low - 1)`
selects (it advances while `keyArray[i] < low` and `pageNoArray[i+1] != 0`),
which is the one `ChooseSubtree(node, low)` selects when no key of the node
equals `low`. -/
theorem C16_scan_descent_child (M : Nat) (node : NonLeafNodeInt) (low : Int) :
    tree_search_descend M node Operator.GT low (M + 1) 0 = ChooseSubtree_idx M node low ∧
    tree_search_descend M node Operator.GTE low (M + 1) 0
      = ChooseSubtree_idx M node (low - 1) ∧
    ((∀ i, i < M → node.key i ≠ low) →
      tree_search_descend M node Operator.GTE low (M + 1) 0 = ChooseSubtree_idx M node low) := by
  unfold ChooseSubtree_idx
  rw [tree_search_descend_GT, tree_search_descend_GTE]
  refine ⟨ChooseSubtree_loop_fuel M node low M 0 (by omega),
    ChooseSubtree_loop_fuel M node (low - 1) M 0 (by omega), ?_⟩
  intro hne
  rw [ChooseSubtree_loop_fuel M node (low - 1) M 0 (by omega)]
  exact ChooseSubtree_loop_pred M node low hne M 0

theorem C16_scan_descent_child_witness :
    (∀ i, i < 3 → (⟨1, [7, 9, 0], [2, 3, 4, 0]⟩ : NonLeafNodeInt).key i ≠ 8) ∧
    tree_search_descend 3 ⟨1, [7, 9, 0], [2, 3, 4, 0]⟩ Operator.GTE 8 (3 + 1) 0
      = ChooseSubtree_idx 3 ⟨1, [7, 9, 0], [2, 3, 4, 0]⟩ 8 :=
  ⟨by decide, (C16_scan_descent_child 3 ⟨1, [7, 9, 0], [2, 3, 4, 0]⟩ 8).2.2 (by decide)⟩

/-- The arrays of the node `new_root` builds: the old root and the new sibling
in child slots 0 and 1, the promoted key in key slot 0, zeros elsewhere. -/
theorem new_rootPage_arrays (M : Nat) (b : Bool) (r : Nat) (e : PageKeyPair) (hM : 1 ≤ M) :
    (new_rootPage M b r e).pageNoArray = r :: e.pageNo :: List.replicate (M - 1) 0 ∧
    (new_rootPage M b r e).keyArray = e.key :: List.replicate (M - 1) 0 := by
  obtain ⟨m, rfl⟩ : ∃ m, M = m + 1 := ⟨M - 1, by omega⟩
  simp [new_rootPage, NonLeafNodeInt.zeroed, NonLeafNodeInt.setPageNo, NonLeafNodeInt.setKey,
    List.replicate_succ]

/-- C14: for every old root page id `r` and split result `e = (k, p)`, with at
least one key slot per internal node and a header page in the store,
`new_root` allocates a page not in the store before (id: number of pages + 1)
holding an internal node with `pageNoArray[0] = r`, `pageNoArray[1] = p`,
`keyArray[0] = k` and every other key and child slot zero; the header page
then holds the id of the new page as root page number and so does the handle;
every page other than the header page and the new page reads as before. -/
theorem C14_new_root (M : Nat) (idx : BTreeIndex) (r : Nat) (e : PageKeyPair) (hM : 1 ≤ M)
    (hh : ∃ x, idx.readPage idx.headerPageNum = some (Page.header x)) :
    (new_root M idx r e).rootPageNum = idx.pages.length + 1 ∧
    (new_root M idx r e).headerRootPageNo = some (idx.pages.length + 1) ∧
    idx.readPage (idx.pages.length + 1) = none ∧
    (∃ node, (new_root M idx r e).readPage (idx.pages.length + 1) = some (Page.nonleaf node) ∧
      node.keyArray.length = M ∧ node.pageNoArray.length = M + 1 ∧
      node.pageNo 0 = r ∧ node.pageNo 1 = e.pageNo ∧ node.key 0 = e.key ∧
      (∀ i, 2 ≤ i → node.pageNo i = 0) ∧ (∀ i, 1 ≤ i → node.key i = 0)) ∧
    (∀ n, n ≠ idx.headerPageNum → n ≠ idx.pages.length + 1 →
      (new_root M idx r e).readPage n = idx.readPage n) := by
  obtain ⟨x, hx⟩ := hh
  obtain ⟨hb1, hb2⟩ := readPage_some_bounds hx
  have hne : idx.headerPageNum ≠ idx.pages.length + 1 := by omega
  have halloc : ∀ pg q, (idx.allocPage pg).readPage q =
      if q = idx.pages.length + 1 then some pg else idx.readPage q :=
    fun pg q => readPage_allocPage idx pg q
  have hhdr : ∀ pg, (idx.allocPage pg).readPage (idx.allocPage pg).headerPageNum
      = some (Page.header x) := by
    intro pg
    have : (idx.allocPage pg).headerPageNum = idx.headerPageNum := rfl
    rw [this, halloc, if_neg hne, hx]
  have hread : ∀ q, (new_root M idx r e).readPage q =
      if q = idx.headerPageNum then some (Page.header (idx.pages.length + 1))
      else if q = idx.pages.length + 1 then
        some (Page.nonleaf (new_rootPage M idx.if_rootleaf r e))
      else idx.readPage q := by
    intro q
    have h1 := readPage_writePage (hhdr (Page.nonleaf (new_rootPage M idx.if_rootleaf r e)))
      (Page.header idx.nextPageNum) q
    have h2 := halloc (Page.nonleaf (new_rootPage M idx.if_rootleaf r e)) q
    have : (new_root M idx r e).readPage q =
        ((idx.allocPage (Page.nonleaf (new_rootPage M idx.if_rootleaf r e))).writePage
          (idx.allocPage (Page.nonleaf (new_rootPage M idx.if_rootleaf r e))).headerPageNum
          (Page.header idx.nextPageNum)).readPage q := rfl
    rw [this, h1, h2]
    rfl
  obtain ⟨hp, hk⟩ := new_rootPage_arrays M idx.if_rootleaf r e hM
  refine ⟨rfl, ?_, readPage_none_of_gt (by omega), ?_, ?_⟩
  · have hH : (new_root M idx r e).headerPageNum = idx.headerPageNum := rfl
    unfold BTreeIndex.headerRootPageNo
    rw [hH, hread, if_pos rfl]
  · refine ⟨new_rootPage M idx.if_rootleaf r e, ?_, ?_, ?_, ?_, ?_, ?_, ?_, ?_⟩
    · rw [hread, if_neg (Ne.symm hne), if_pos rfl]
    · rw [hk]; simp; omega
    · rw [hp]; simp; omega
    · unfold NonLeafNodeInt.pageNo; rw [hp]; rfl
    · unfold NonLeafNodeInt.pageNo; rw [hp]; rfl
    · unfold NonLeafNodeInt.key; rw [hk]; rfl
    · intro i hi
      obtain ⟨j, rfl⟩ : ∃ j, i = j + 2 := ⟨i - 2, by omega⟩
      unfold NonLeafNodeInt.pageNo; rw [hp]
      exact getD_replicate_self (M - 1) j 0
    · intro i hi
      obtain ⟨j, rfl⟩ : ∃ j, i = j + 1 := ⟨i - 1, by omega⟩
      unfold NonLeafNodeInt.key; rw [hk]
      exact getD_replicate_self (M - 1) j 0
  · intro n h1 h2
    rw [hread, if_neg h1, if_neg h2]

theorem C14_new_root_witness :
    (1 ≤ 3 ∧ ∃ x, sampleTree.readPage sampleTree.headerPageNum = some (Page.header x)) ∧
    (new_root 3 sampleTree sampleTree.rootPageNum ⟨9, 35⟩).rootPageNum
      = sampleTree.pages.length + 1 :=
  ⟨⟨by decide, ⟨_, rfl⟩⟩,
    (C14_new_root 3 sampleTree sampleTree.rootPageNum ⟨9, 35⟩ (by decide) ⟨_, rfl⟩).1⟩

/-! ## Content of a leaf after `insert_Leaf` and `split_Leaf` -/

theorem slotsFrom_length (leaf : LeafNodeInt) (n : Nat) :
    ∀ i, (leaf.slotsFrom i n).length = n := by
  induction n with
  | zero => intro i; rfl
  | succ m ih => intro i; simp [LeafNodeInt.slotsFrom, ih]

theorem slotsFrom_add (leaf : LeafNodeInt) (a b : Nat) :
    ∀ i, leaf.slotsFrom i (a + b) = leaf.slotsFrom i a ++ leaf.slotsFrom (i + a) b := by
  induction a with
  | zero => intro i; simp [LeafNodeInt.slotsFrom]
  | succ m ih =>
    intro i
    have h : m + 1 + b = (m + b) + 1 := by omega
    rw [h]
    simp only [LeafNodeInt.slotsFrom, List.cons_append]
    rw [ih (i + 1)]
    have h2 : i + 1 + m = i + (m + 1) := by omega
    rw [h2]

theorem slotsFrom_congr (leaf leaf2 : LeafNodeInt) (n : Nat) :
    ∀ i i2, (∀ k, k < n → leaf2.slot (i2 + k) = leaf.slot (i + k)) →
      leaf2.slotsFrom i2 n = leaf.slotsFrom i n := by
  induction n with
  | zero => intro i i2 _; rfl
  | succ m ih =>
    intro i i2 h
    simp only [LeafNodeInt.slotsFrom]
    have h0 := h 0 (by omega)
    simp only [Nat.add_zero] at h0
    rw [h0, ih (i + 1) (i2 + 1)]
    intro k hk
    have := h (k + 1) (by omega)
    have e1 : i2 + 1 + k = i2 + (k + 1) := by omega
    have e2 : i + 1 + k = i + (k + 1) := by omega
    rw [e1, e2]; exact this

theorem mem_slotsFrom (leaf : LeafNodeInt) (x : Int × RecordId) (n : Nat) :
    ∀ i, x ∈ leaf.slotsFrom i n → ∃ k, k < n ∧ x = leaf.slot (i + k) := by
  induction n with
  | zero => intro i h; simp [LeafNodeInt.slotsFrom] at h
  | succ m ih =>
    intro i h
    simp only [LeafNodeInt.slotsFrom, List.mem_cons] at h
    rcases h with h | h
    · exact ⟨0, by omega, by simpa using h⟩
    · obtain ⟨k, hk, hx⟩ := ih (i + 1) h
      refine ⟨k + 1, by omega, ?_⟩
      have e : i + (k + 1) = i + 1 + k := by omega
      rw [e]; exact hx

theorem zip_drop_eq_slotsFrom (leaf : LeafNodeInt) (L : Nat) (hk : leaf.keyArray.length = L)
    (hr : leaf.ridArray.length = L) (n : Nat) :
    ∀ i, i + n = L → (leaf.keyArray.drop i).zip (leaf.ridArray.drop i) = leaf.slotsFrom i n := by
  induction n with
  | zero =>
    intro i hi
    have : leaf.keyArray.drop i = [] := List.drop_eq_nil_of_le (by omega)
    rw [this]; rfl
  | succ m ih =>
    intro i hi
    have h1 : i < leaf.keyArray.length := by omega
    have h2 : i < leaf.ridArray.length := by omega
    rw [List.drop_eq_getElem_cons h1, List.drop_eq_getElem_cons h2]
    simp only [List.zip_cons_cons, LeafNodeInt.slotsFrom]
    rw [ih (i + 1) (by omega)]
    congr 1
    unfold LeafNodeInt.slot LeafNodeInt.key LeafNodeInt.rid
    rw [List.getD_eq_getElem?_getD, List.getD_eq_getElem?_getD, List.getElem?_eq_getElem h1,
      List.getElem?_eq_getElem h2]
    rfl

theorem entries_eq_filter_slotsFrom {L : Nat} {leaf : LeafNodeInt}
    (hk : leaf.keyArray.length = L) (hr : leaf.ridArray.length = L) :
    leaf.entries = (leaf.slotsFrom 0 L).filter (fun e => decide (e.2.page_number ≠ 0)) := by
  unfold LeafNodeInt.entries
  have := zip_drop_eq_slotsFrom leaf L hk hr L 0 (by omega)
  simp only [List.drop_zero] at this
  rw [this]

theorem entries_eq_slotsFrom {L c : Nat} {leaf : LeafNodeInt} (hc : c ≤ L)
    (h : leaf.occupied L c) : leaf.entries = leaf.slotsFrom 0 c := by
  obtain ⟨hk, hr, hocc⟩ := h
  rw [entries_eq_filter_slotsFrom hk hr]
  have hL : L = c + (L - c) := by omega
  rw [hL, slotsFrom_add, List.filter_append]
  have h1 : (leaf.slotsFrom 0 c).filter (fun e => decide (e.2.page_number ≠ 0))
      = leaf.slotsFrom 0 c := by
    rw [List.filter_eq_self]
    intro x hx
    obtain ⟨k, hk1, rfl⟩ := mem_slotsFrom leaf x c 0 hx
    have := (hocc (0 + k)).1 (by omega)
    simpa [LeafNodeInt.slot] using this
  have h2 : (leaf.slotsFrom (0 + c) (L - c)).filter (fun e => decide (e.2.page_number ≠ 0))
      = [] := by
    rw [List.filter_eq_nil_iff]
    intro x hx
    obtain ⟨k, hk1, rfl⟩ := mem_slotsFrom leaf x (L - c) (0 + c) hx
    have := (hocc (0 + c + k)).2 (by omega)
    simpa [LeafNodeInt.slot] using this
  rw [h1, h2, List.append_nil]

theorem key_setSlot (leaf : LeafNodeInt) (i j : Nat) (k : Int) (r : RecordId) :
    (leaf.setSlot i k r).key j = if i = j ∧ i < leaf.keyArray.length then k else leaf.key j := by
  unfold LeafNodeInt.key LeafNodeInt.setSlot
  exact getD_set_eq _ _ _ _ _

theorem slot_setSlot (leaf : LeafNodeInt) (i j : Nat) (k : Int) (r : RecordId)
    (h1 : i < leaf.keyArray.length) (h2 : i < leaf.ridArray.length) :
    (leaf.setSlot i k r).slot j = if i = j then (k, r) else leaf.slot j := by
  unfold LeafNodeInt.slot
  rw [key_setSlot, rid_setSlot]
  by_cases h : i = j
  · subst h
    rw [if_pos ⟨rfl, h1⟩, if_pos ⟨rfl, h2⟩, if_pos rfl]
  · rw [if_neg (fun hh => h hh.1), if_neg (fun hh => h hh.1), if_neg h]

theorem insert_Leaf_shift_content (L : Nat) (key : Int) (n : Nat) :
    ∀ leaf : LeafNodeInt, n < L → leaf.keyArray.length = L → leaf.ridArray.length = L →
      (insert_Leaf_shift key n leaf).1 ≤ n ∧
      (insert_Leaf_shift key n leaf).2.keyArray.length = L ∧
      (insert_Leaf_shift key n leaf).2.ridArray.length = L ∧
      (insert_Leaf_shift key n leaf).2.rightSibPageNo = leaf.rightSibPageNo ∧
      (∀ i, i ≤ (insert_Leaf_shift key n leaf).1 →
        (insert_Leaf_shift key n leaf).2.slot i = leaf.slot i) ∧
      (∀ i, (insert_Leaf_shift key n leaf).1 < i → i ≤ n →
        (insert_Leaf_shift key n leaf).2.slot i = leaf.slot (i - 1)) ∧
      (∀ i, n < i → (insert_Leaf_shift key n leaf).2.slot i = leaf.slot i) ∧
      (∀ i, (insert_Leaf_shift key n leaf).1 ≤ i → i < n → key < leaf.key i) ∧
      ((insert_Leaf_shift key n leaf).1 = 0 ∨
        leaf.key ((insert_Leaf_shift key n leaf).1 - 1) ≤ key) := by
  induction n with
  | zero =>
    intro leaf _ hk hr
    exact ⟨Nat.le_refl 0, hk, hr, rfl, fun _ _ => rfl, fun i h1 h2 => absurd h2 (by omega),
      fun _ _ => rfl, fun i _ h2 => absurd h2 (by omega), Or.inl rfl⟩
  | succ m ih =>
    intro leaf hn hk hr
    unfold insert_Leaf_shift
    split
    · rename_i hgt
      obtain ⟨lk, lr⟩ := length_setSlot leaf (m + 1) (leaf.key m) (leaf.rid m)
      have hs : ∀ j, (leaf.setSlot (m + 1) (leaf.key m) (leaf.rid m)).slot j
          = if m + 1 = j then leaf.slot m else leaf.slot j := fun j =>
        slot_setSlot leaf (m + 1) j (leaf.key m) (leaf.rid m) (by omega) (by omega)
      have hkey : ∀ j, j ≤ m → (leaf.setSlot (m + 1) (leaf.key m) (leaf.rid m)).key j
          = leaf.key j := by
        intro j hj
        rw [key_setSlot, if_neg (fun hh => by omega)]
      obtain ⟨a1, a2, a3, a4, a5, a6, a7, a8, a9⟩ :=
        ih (leaf.setSlot (m + 1) (leaf.key m) (leaf.rid m)) (by omega) (by rw [lk]; exact hk)
          (by rw [lr]; exact hr)
      refine ⟨by omega, a2, a3, a4, ?_, ?_, ?_, ?_, ?_⟩
      · intro i hi
        rw [a5 i hi, hs, if_neg (by omega)]
      · intro i h1 h2
        by_cases him : i = m + 1
        · subst him
          rw [a7 (m + 1) (by omega), hs, if_pos rfl]
          rfl
        · rw [a6 i h1 (by omega), hs, if_neg (by omega)]
      · intro i hi
        rw [a7 i (by omega), hs, if_neg (by omega)]
      · intro i h1 h2
        by_cases him : i = m
        · subst him; exact hgt
        · have := a8 i h1 (by omega)
          rw [hkey i (by omega)] at this
          exact this
      · rcases a9 with h | h
        · exact Or.inl h
        · right
          rw [hkey _ (by omega)] at h
          exact h
    · rename_i hle
      refine ⟨Nat.le_refl _, hk, hr, rfl, fun _ _ => rfl, fun i h1 h2 => absurd h2 (by omega),
        fun _ _ => rfl, fun i h1 h2 => absurd h2 (by omega), Or.inr ?_⟩
      simp only [Nat.add_sub_cancel]
      omega

end badgerdb
namespace badgerdb

theorem insert_Leaf_content {L c : Nat} {leaf : LeafNodeInt} (h : leaf.occupied L c)
    (hc : 1 ≤ c) (hcL : c + 1 ≤ L) (entry : RIDKeyPair) (he : entry.rid.page_number ≠ 0) :
    ∃ j, j ≤ c ∧
      (insert_Leaf leaf entry).entries
        = leaf.entries.take j ++ (entry.key, entry.rid) :: leaf.entries.drop j ∧
      (∀ i, j ≤ i → i < c → entry.key < leaf.key i) ∧
      (j = 0 ∨ leaf.key (j - 1) ≤ entry.key) ∧
      (insert_Leaf leaf entry).rightSibPageNo = leaf.rightSibPageNo ∧
      (insert_Leaf leaf entry).key 0 = (if j = 0 then entry.key else leaf.key 0) := by
  have hocc' := insert_Leaf_occupied h hc hcL entry he
  have hent' := entries_eq_slotsFrom hcL hocc'
  have hent := entries_eq_slotsFrom (by omega : c ≤ L) h
  obtain ⟨hk, hr, hocc⟩ := h
  have h0 : ¬ ((leaf.rid 0).page_number = 0 ∧ leaf.key 0 = 0) := by
    intro hh; exact (hocc 0).1 (by omega) hh.1
  have hEnd : insert_Leaf_End leaf leaf.ridArray.length 0 = c - 1 :=
    insert_Leaf_End_of_occupied ⟨hk, hr, hocc⟩ hc _ 0 (by omega) (by omega)
  have hc1 : c - 1 + 1 = c := by omega
  have hres : insert_Leaf leaf entry
      = (insert_Leaf_shift entry.key c leaf).2.setSlot (insert_Leaf_shift entry.key c leaf).1
          entry.key entry.rid := by
    unfold insert_Leaf
    rw [if_neg h0]
    simp only
    rw [hEnd, hc1]
  obtain ⟨a1, a2, a3, a4, a5, a6, a7, a8, a9⟩ :=
    insert_Leaf_shift_content L entry.key c leaf (by omega) hk hr
  generalize (insert_Leaf_shift entry.key c leaf).1 = j at *
  generalize (insert_Leaf_shift entry.key c leaf).2 = leaf1 at *
  have hs : ∀ i, (insert_Leaf leaf entry).slot i
      = if j = i then (entry.key, entry.rid) else leaf1.slot i := by
    intro i
    rw [hres]
    exact slot_setSlot leaf1 j i entry.key entry.rid (by omega) (by omega)
  refine ⟨j, a1, ?_, a8, a9, ?_, ?_⟩
  · rw [hent', hent]
    have e1 : c + 1 = j + (1 + (c - j)) := by omega
    have e2 : c = j + (c - j) := by omega
    have p1 : (insert_Leaf leaf entry).slotsFrom 0 j = leaf.slotsFrom 0 j := by
      apply slotsFrom_congr
      intro k hk1
      rw [hs, if_neg (by omega), a5 _ (by omega)]
    have p2 : (insert_Leaf leaf entry).slotsFrom (0 + j) 1 = [(entry.key, entry.rid)] := by
      simp only [LeafNodeInt.slotsFrom]
      rw [hs, if_pos (by omega)]
    have p3 : (insert_Leaf leaf entry).slotsFrom (0 + j + 1) (c - j)
        = leaf.slotsFrom (0 + j) (c - j) := by
      apply slotsFrom_congr
      intro k hk1
      rw [hs, if_neg (by omega), a6 _ (by omega) (by omega)]
      congr 1
      omega
    have hl : (leaf.slotsFrom 0 j).length = j := slotsFrom_length leaf j 0
    rw [e1, slotsFrom_add, slotsFrom_add, p1, p2, p3]
    nth_rewrite 2 [e2]
    nth_rewrite 3 [e2]
    rw [slotsFrom_add, List.take_left' hl, List.drop_left' hl]
    rfl
  · rw [hres]
    exact a4
  · have := hs 0
    unfold LeafNodeInt.slot at this
    have hk0 := congrArg Prod.fst this
    simp only at hk0
    rw [hk0]
    by_cases hj : j = 0
    · rw [if_pos hj, if_pos hj]
    · rw [if_neg hj, if_neg hj]
      have := a5 0 (by omega)
      unfold LeafNodeInt.slot at this
      exact congrArg Prod.fst this

theorem slot_mem_slotsFrom (leaf : LeafNodeInt) (n : Nat) :
    ∀ i k, k < n → leaf.slot (i + k) ∈ leaf.slotsFrom i n := by
  induction n with
  | zero => intro i k hk; omega
  | succ m ih =>
    intro i k hk
    simp only [LeafNodeInt.slotsFrom, List.mem_cons]
    cases k with
    | zero => left; rfl
    | succ k =>
      right
      have e : i + (k + 1) = i + 1 + k := by omega
      rw [e]
      exact ih (i + 1) k (by omega)

theorem pairwise_slotsFrom_index (R : Int × RecordId → Int × RecordId → Prop)
    (leaf : LeafNodeInt) (n : Nat) :
    ∀ i, List.Pairwise R (leaf.slotsFrom i n) →
      ∀ a b, a < b → b < n → R (leaf.slot (i + a)) (leaf.slot (i + b)) := by
  induction n with
  | zero => intro i _ a b _ hb; omega
  | succ m ih =>
    intro i hp a b hab hb
    simp only [LeafNodeInt.slotsFrom, List.pairwise_cons] at hp
    cases a with
    | zero =>
      obtain ⟨b2, rfl⟩ : ∃ b2, b = b2 + 1 := ⟨b - 1, by omega⟩
      have e : i + (b2 + 1) = i + 1 + b2 := by omega
      rw [e]
      exact hp.1 _ (slot_mem_slotsFrom leaf m (i + 1) b2 (by omega))
    | succ a =>
      obtain ⟨b2, rfl⟩ : ∃ b2, b = b2 + 1 := ⟨b - 1, by omega⟩
      have e1 : i + (a + 1) = i + 1 + a := by omega
      have e2 : i + (b2 + 1) = i + 1 + b2 := by omega
      rw [e1, e2]
      exact ih (i + 1) hp.2 a b2 (by omega) (by omega)

/-- In a leaf whose occupied entries are sorted by key, the keys of the
occupied slots are non-decreasing in the slot index. -/
theorem sorted_entries_index {L c : Nat} {leaf : LeafNodeInt} (hc : c ≤ L)
    (h : leaf.occupied L c) (hs : List.Sorted (fun a b => a ≤ b) (leaf.entries.map Prod.fst)) :
    ∀ i j, i ≤ j → j < c → leaf.key i ≤ leaf.key j := by
  intro i j hij hj
  rw [entries_eq_slotsFrom hc h] at hs
  have hp : List.Pairwise (fun a b : Int × RecordId => a.1 ≤ b.1) (leaf.slotsFrom 0 c) :=
    List.pairwise_map.mp hs
  by_cases he : i = j
  · subst he; exact le_refl _
  · have := pairwise_slotsFrom_index _ leaf c 0 hp i j (by omega) hj
    simpa [LeafNodeInt.slot] using this

theorem pairwise_insert_mid {α : Type} (R : α → α → Prop) (xs : List α) (e : α) (j : Nat)
    (hp : List.Pairwise R xs) (h1 : ∀ x ∈ xs.take j, R x e) (h2 : ∀ x ∈ xs.drop j, R e x) :
    List.Pairwise R (xs.take j ++ e :: xs.drop j) := by
  have hp2 : List.Pairwise R (xs.take j ++ xs.drop j) := by
    rw [List.take_append_drop]; exact hp
  rw [List.pairwise_append]
  refine ⟨hp.sublist (List.take_sublist j xs),
    List.pairwise_cons.mpr ⟨h2, hp.sublist (List.drop_sublist j xs)⟩, ?_⟩
  intro a ha b hb
  rcases List.mem_cons.mp hb with hb | hb
  · rw [hb]; exact h1 a ha
  · exact (List.pairwise_append.mp hp2).2.2 a ha b hb

/-- Content of a leaf after `insert_Leaf`, on a leaf with `c ≥ 1` occupied
slots in front, a free slot, and keys sorted: the new entry stands directly
after the entries with key `≤ entry.key` and before those with a greater key;
the entries that were there keep their order. -/
theorem insert_Leaf_sorted {L c : Nat} {leaf : LeafNodeInt} (h : leaf.occupied L c)
    (hc : 1 ≤ c) (hcL : c + 1 ≤ L) (entry : RIDKeyPair) (he : entry.rid.page_number ≠ 0)
    (hs : ∀ i j, i ≤ j → j < c → leaf.key i ≤ leaf.key j) :
    ∃ j, j ≤ c ∧
      (insert_Leaf leaf entry).entries
        = leaf.entries.take j ++ (entry.key, entry.rid) :: leaf.entries.drop j ∧
      (∀ x ∈ leaf.entries.take j, x.1 ≤ entry.key) ∧
      (∀ x ∈ leaf.entries.drop j, entry.key < x.1) ∧
      (insert_Leaf leaf entry).rightSibPageNo = leaf.rightSibPageNo ∧
      (insert_Leaf leaf entry).key 0 = (if j = 0 then entry.key else leaf.key 0) := by
  obtain ⟨j, hj, h1, h2, h3, h4, h5⟩ := insert_Leaf_content h hc hcL entry he
  have hent := entries_eq_slotsFrom (by omega : c ≤ L) h
  have e2 : c = j + (c - j) := by omega
  have hl : (leaf.slotsFrom 0 j).length = j := slotsFrom_length leaf j 0
  have ht : leaf.entries.take j = leaf.slotsFrom 0 j := by
    rw [hent]; nth_rewrite 1 [e2]; rw [slotsFrom_add, List.take_left' hl]
  have hd : leaf.entries.drop j = leaf.slotsFrom (0 + j) (c - j) := by
    rw [hent]; nth_rewrite 1 [e2]; rw [slotsFrom_add, List.drop_left' hl]
  refine ⟨j, hj, h1, ?_, ?_, h4, h5⟩
  · intro x hx
    rw [ht] at hx
    obtain ⟨k, hk, rfl⟩ := mem_slotsFrom leaf x j 0 hx
    rcases h3 with h3 | h3
    · omega
    · have := hs (0 + k) (j - 1) (by omega) (by omega)
      exact le_trans this h3
  · intro x hx
    rw [hd] at hx
    obtain ⟨k, hk, rfl⟩ := mem_slotsFrom leaf x (c - j) (0 + j) hx
    exact h2 (0 + j + k) (by omega) (by omega)

theorem key_clearSlot (leaf : LeafNodeInt) (i j : Nat) :
    (leaf.clearSlot i).key j = if i = j ∧ i < leaf.keyArray.length then 0 else leaf.key j := by
  unfold LeafNodeInt.key LeafNodeInt.clearSlot
  exact getD_set_eq _ _ _ _ _

theorem slot_clearSlot_ne (leaf : LeafNodeInt) (i j : Nat) (h : i ≠ j) :
    (leaf.clearSlot i).slot j = leaf.slot j := by
  unfold LeafNodeInt.slot
  rw [key_clearSlot, if_neg (fun hh => h hh.1)]
  congr 1
  unfold LeafNodeInt.rid LeafNodeInt.clearSlot
  show (leaf.ridArray.set i _).getD j _ = _
  rw [getD_set_eq, if_neg (fun hh => h hh.1)]

theorem split_Leaf_move_content (L mid : Nat) (fuel : Nat) :
    ∀ (i : Nat) (leaf newLeaf : LeafNodeInt), i + fuel = L → mid ≤ i →
      leaf.keyArray.length = L → leaf.ridArray.length = L →
      newLeaf.keyArray.length = L → newLeaf.ridArray.length = L →
      (split_Leaf_move mid fuel i leaf newLeaf).1.rightSibPageNo = leaf.rightSibPageNo ∧
      (split_Leaf_move mid fuel i leaf newLeaf).2.rightSibPageNo = newLeaf.rightSibPageNo ∧
      (∀ k, k < mid → (split_Leaf_move mid fuel i leaf newLeaf).1.slot k = leaf.slot k) ∧
      (∀ k, k < i - mid → (split_Leaf_move mid fuel i leaf newLeaf).2.slot k = newLeaf.slot k) ∧
      (∀ k, i - mid ≤ k → k < L - mid →
        (split_Leaf_move mid fuel i leaf newLeaf).2.slot k = leaf.slot (mid + k)) := by
  induction fuel with
  | zero =>
    intro i leaf newLeaf hi hmi _ _ _ _
    exact ⟨rfl, rfl, fun _ _ => rfl, fun _ _ => rfl, fun k h1 h2 => absurd h2 (by omega)⟩
  | succ n ih =>
    intro i leaf newLeaf hi hmi hk hr nk nr
    unfold split_Leaf_move
    obtain ⟨ck, cr⟩ := length_clearSlot leaf i
    obtain ⟨sk, sr⟩ := length_setSlot newLeaf (i - mid) (leaf.key i) (leaf.rid i)
    obtain ⟨b1, b2, b3, b4, b5⟩ := ih (i + 1) (leaf.clearSlot i)
      (newLeaf.setSlot (i - mid) (leaf.key i) (leaf.rid i)) (by omega) (by omega)
      (by rw [ck]; exact hk) (by rw [cr]; exact hr) (by rw [sk]; exact nk) (by rw [sr]; exact nr)
    have hs : ∀ j, (newLeaf.setSlot (i - mid) (leaf.key i) (leaf.rid i)).slot j
        = if i - mid = j then (leaf.key i, leaf.rid i) else newLeaf.slot j := fun j =>
      slot_setSlot newLeaf (i - mid) j (leaf.key i) (leaf.rid i) (by omega) (by omega)
    refine ⟨b1, b2, ?_, ?_, ?_⟩
    · intro k hk1
      rw [b3 k hk1, slot_clearSlot_ne leaf i k (by omega)]
    · intro k hk1
      rw [b4 k (by omega), hs, if_neg (by omega)]
    · intro k h1 h2
      by_cases hki : k = i - mid
      · subst hki
        rw [b4 (i - mid) (by omega), hs, if_pos rfl]
        have : mid + (i - mid) = i := by omega
        rw [this]; rfl
      · rw [b5 k (by omega) h2, slot_clearSlot_ne leaf i (mid + k) (by omega)]

theorem split_Leaf_gt (L : Nat) (leaf : LeafNodeInt) (n : Nat) (entry : RIDKeyPair)
    (mid : Nat) (moved : LeafNodeInt × LeafNodeInt) (hmid : split_Leaf_mid L leaf entry.key = mid)
    (hmoved : split_Leaf_move mid (L - mid) mid leaf (LeafNodeInt.zeroed L 0) = moved)
    (h : entry.key > moved.1.key (mid - 1)) :
    split_Leaf L leaf n entry =
      ({ moved.1 with rightSibPageNo := n },
       { insert_Leaf moved.2 entry with rightSibPageNo := moved.1.rightSibPageNo },
       ⟨n, (insert_Leaf moved.2 entry).key 0⟩) := by
  unfold split_Leaf
  simp only [hmid, hmoved]
  rw [if_pos h]

theorem split_Leaf_le (L : Nat) (leaf : LeafNodeInt) (n : Nat) (entry : RIDKeyPair)
    (mid : Nat) (moved : LeafNodeInt × LeafNodeInt) (hmid : split_Leaf_mid L leaf entry.key = mid)
    (hmoved : split_Leaf_move mid (L - mid) mid leaf (LeafNodeInt.zeroed L 0) = moved)
    (h : ¬ entry.key > moved.1.key (mid - 1)) :
    split_Leaf L leaf n entry =
      ({ insert_Leaf moved.1 entry with rightSibPageNo := n },
       { moved.2 with rightSibPageNo := (insert_Leaf moved.1 entry).rightSibPageNo },
       ⟨n, moved.2.key 0⟩) := by
  unfold split_Leaf
  simp only [hmid, hmoved]
  rw [if_neg h]

/-- C13: for every `L ≥ 2`, every full leaf whose entries are sorted by key,
with right sibling id `s`, and every incoming entry with a non-null locator,
after `split_Leaf` with new page id `n`: (1) the entries of the old leaf
followed by those of the new leaf are sorted by key and are a permutation of
the `L` original entries plus the incoming one; (2) the new leaf's
`rightSibPageNo` is `s` and the old leaf's is `n`; (3) the pair handed to the
caller is `(n, keyArray[0] of the new leaf)` and that key is the key of an entry
of the new leaf; (4) every key in the old leaf is at most the promoted key. -/
theorem C13_split_Leaf_postcondition (L : Nat) (leaf : LeafNodeInt) (n : Nat)
    (entry : RIDKeyPair) (hL : 2 ≤ L) (hk : leaf.keyArray.length = L)
    (hr : leaf.ridArray.length = L) (hfull : ∀ i, i < L → (leaf.rid i).page_number ≠ 0)
    (hsorted : List.Sorted (fun a b => a ≤ b) (leaf.entries.map Prod.fst))
    (he : entry.rid.page_number ≠ 0) :
    List.Sorted (fun a b => a ≤ b)
      (((split_Leaf L leaf n entry).1.entries ++ (split_Leaf L leaf n entry).2.1.entries).map
        Prod.fst) ∧
    List.Perm ((split_Leaf L leaf n entry).1.entries ++ (split_Leaf L leaf n entry).2.1.entries)
      ((entry.key, entry.rid) :: leaf.entries) ∧
    (split_Leaf L leaf n entry).2.1.rightSibPageNo = leaf.rightSibPageNo ∧
    (split_Leaf L leaf n entry).1.rightSibPageNo = n ∧
    (split_Leaf L leaf n entry).2.2 = ⟨n, (split_Leaf L leaf n entry).2.1.key 0⟩ ∧
    (∃ r, ((split_Leaf L leaf n entry).2.1.key 0, r) ∈ (split_Leaf L leaf n entry).2.1.entries) ∧
    (∀ x ∈ (split_Leaf L leaf n entry).1.entries, x.1 ≤ (split_Leaf L leaf n entry).2.2.key) := by
  have hmid : 1 ≤ split_Leaf_mid L leaf entry.key ∧ split_Leaf_mid L leaf entry.key + 1 ≤ L := by
    unfold split_Leaf_mid
    split
    · rename_i h; omega
    · omega
  obtain ⟨hm1, hm2⟩ := hmid
  have hbeyond : ∀ j, L ≤ j → (leaf.rid j).page_number = 0 := by
    intro j hj
    unfold LeafNodeInt.rid
    rw [List.getD_eq_getElem?_getD, List.getElem?_eq_none (by omega)]
    rfl
  have hoccL : leaf.occupied L L :=
    ⟨hk, hr, fun i => ⟨fun h => hfull i h, fun h => hbeyond i h⟩⟩
  have hidx := sorted_entries_index (Nat.le_refl L) hoccL hsorted
  have hzk : (LeafNodeInt.zeroed L 0).keyArray.length = L := by simp [LeafNodeInt.zeroed]
  have hzr : (LeafNodeInt.zeroed L 0).ridArray.length = L := by simp [LeafNodeInt.zeroed]
  obtain ⟨ho, hn⟩ := split_Leaf_move_occupied L (split_Leaf_mid L leaf entry.key)
    (L - split_Leaf_mid L leaf entry.key) (split_Leaf_mid L leaf entry.key) leaf
    (LeafNodeInt.zeroed L 0) (by omega) (Nat.le_refl _) hk hr
    (fun j => ⟨fun hj => hfull j (by omega), fun _ hj => hfull j hj,
      fun h1 h2 => absurd h2 (by omega), hbeyond j⟩)
    ⟨hzk, hzr, fun i => ⟨fun h => absurd h (by omega), fun _ => rid_zeroed L 0 i⟩⟩
  obtain ⟨c1, c2, c3, c4, c5⟩ := split_Leaf_move_content L (split_Leaf_mid L leaf entry.key)
    (L - split_Leaf_mid L leaf entry.key) (split_Leaf_mid L leaf entry.key) leaf
    (LeafNodeInt.zeroed L 0) (by omega) (Nat.le_refl _) hk hr hzk hzr
  have hgtE := split_Leaf_gt L leaf n entry (split_Leaf_mid L leaf entry.key)
    (split_Leaf_move (split_Leaf_mid L leaf entry.key) (L - split_Leaf_mid L leaf entry.key)
      (split_Leaf_mid L leaf entry.key) leaf (LeafNodeInt.zeroed L 0)) rfl rfl
  have hleE := split_Leaf_le L leaf n entry (split_Leaf_mid L leaf entry.key)
    (split_Leaf_move (split_Leaf_mid L leaf entry.key) (L - split_Leaf_mid L leaf entry.key)
      (split_Leaf_mid L leaf entry.key) leaf (LeafNodeInt.zeroed L 0)) rfl rfl
  generalize split_Leaf_mid L leaf entry.key = mid at *
  generalize split_Leaf_move mid (L - mid) mid leaf (LeafNodeInt.zeroed L 0) = moved at *
  -- the two halves as lists of slots of the original leaf
  have hA : moved.1.entries = leaf.slotsFrom 0 mid := by
    rw [entries_eq_slotsFrom (by omega) ho]
    apply slotsFrom_congr
    intro k hk1
    exact c3 _ (by omega)
  have hB : moved.2.entries = leaf.slotsFrom (0 + mid) (L - mid) := by
    rw [entries_eq_slotsFrom (by omega) hn]
    apply slotsFrom_congr
    intro k hk1
    rw [c5 _ (by omega) (by omega)]
    congr 1
    omega
  have hAB : leaf.entries = moved.1.entries ++ moved.2.entries := by
    rw [hA, hB, entries_eq_slotsFrom (Nat.le_refl L) hoccL, ← slotsFrom_add]
    congr 1
    omega
  have hp : List.Pairwise (fun a b : Int × RecordId => a.1 ≤ b.1)
      (moved.1.entries ++ moved.2.entries) := by
    rw [← hAB]; exact List.pairwise_map.mp hsorted
  obtain ⟨hpA, hpB, hcross⟩ := List.pairwise_append.mp hp
  have hkeyA : ∀ x ∈ moved.1.entries, x.1 ≤ leaf.key (mid - 1) := by
    intro x hx
    rw [hA] at hx
    obtain ⟨k, hk1, rfl⟩ := mem_slotsFrom leaf x mid 0 hx
    exact hidx (0 + k) (mid - 1) (by omega) (by omega)
  have hkeyB : ∀ x ∈ moved.2.entries, leaf.key (mid - 1) ≤ x.1 := by
    intro x hx
    rw [hB] at hx
    obtain ⟨k, hk1, rfl⟩ := mem_slotsFrom leaf x (L - mid) (0 + mid) hx
    exact hidx (mid - 1) (0 + mid + k) (by omega) (by omega)
  have hkm : moved.1.key (mid - 1) = leaf.key (mid - 1) := by
    have := c3 (mid - 1) (by omega)
    exact congrArg Prod.fst this
  have hidxA : ∀ i j, i ≤ j → j < mid → moved.1.key i ≤ moved.1.key j := by
    intro i j hij hj
    have e1 := congrArg Prod.fst (c3 i (by omega))
    have e2 := congrArg Prod.fst (c3 j hj)
    simp only [LeafNodeInt.slot] at e1 e2
    rw [e1, e2]
    exact hidx i j hij (by omega)
  have hidxB : ∀ i j, i ≤ j → j < L - mid → moved.2.key i ≤ moved.2.key j := by
    intro i j hij hj
    have e1 := congrArg Prod.fst (c5 i (by omega) (by omega))
    have e2 := congrArg Prod.fst (c5 j (by omega) hj)
    simp only [LeafNodeInt.slot] at e1 e2
    rw [e1, e2]
    exact hidx (mid + i) (mid + j) (by omega) (by omega)
  have hfirst : ∀ (lf : LeafNodeInt) (c : Nat), 1 ≤ c → c ≤ L → lf.occupied L c →
      (lf.key 0, lf.rid 0) ∈ lf.entries := by
    intro lf c h1 h2 hocc
    rw [entries_eq_slotsFrom h2 hocc]
    exact slot_mem_slotsFrom lf c 0 0 (by omega)
  by_cases hgt : entry.key > moved.1.key (mid - 1)
  · rw [hgtE hgt]
    obtain ⟨j, hj, q1, q2, q3, q4, q5⟩ :=
      insert_Leaf_sorted hn (by omega) (by omega) entry he hidxB
    have hocc2 := insert_Leaf_occupied hn (by omega) (by omega) entry he
    have hpair : List.Pairwise (fun a b : Int × RecordId => a.1 ≤ b.1)
        (moved.1.entries ++ (insert_Leaf moved.2 entry).entries) := by
      rw [q1, List.pairwise_append]
      refine ⟨hpA, pairwise_insert_mid _ _ _ _ hpB q2 (fun x hx => le_of_lt (q3 x hx)), ?_⟩
      intro a ha b hb
      rcases List.mem_append.mp hb with hb | hb
      · exact hcross a ha b (List.mem_of_mem_take hb)
      · rcases List.mem_cons.mp hb with hb | hb
        · rw [hb]
          have := hkeyA a ha
          rw [hkm] at hgt
          exact le_of_lt (lt_of_le_of_lt this hgt)
        · exact hcross a ha b (List.mem_of_mem_drop hb)
    have hmem := hfirst _ _ (by omega) (by omega) hocc2
    refine ⟨?_, ?_, c1, rfl, rfl, ⟨_, hmem⟩, ?_⟩
    · show List.Sorted _ ((moved.1.entries ++ (insert_Leaf moved.2 entry).entries).map Prod.fst)
      exact List.pairwise_map.mpr hpair
    · show List.Perm (moved.1.entries ++ (insert_Leaf moved.2 entry).entries) _
      rw [hAB, q1]
      have h1 : moved.1.entries ++ (List.take j moved.2.entries ++
          (entry.key, entry.rid) :: List.drop j moved.2.entries)
          = (moved.1.entries ++ List.take j moved.2.entries) ++
            (entry.key, entry.rid) :: List.drop j moved.2.entries := by
        rw [List.append_assoc]
      rw [h1]
      refine List.perm_middle.trans ?_
      rw [List.append_assoc, List.take_append_drop]
    · intro x hx
      exact (List.pairwise_append.mp hpair).2.2 x hx _ hmem
  · rw [hleE hgt]
    obtain ⟨j, hj, q1, q2, q3, q4, q5⟩ :=
      insert_Leaf_sorted ho hm1 hm2 entry he hidxA
    have hpair : List.Pairwise (fun a b : Int × RecordId => a.1 ≤ b.1)
        ((insert_Leaf moved.1 entry).entries ++ moved.2.entries) := by
      rw [q1, List.pairwise_append]
      refine ⟨pairwise_insert_mid _ _ _ _ hpA q2 (fun x hx => le_of_lt (q3 x hx)), hpB, ?_⟩
      intro a ha b hb
      rcases List.mem_append.mp ha with ha | ha
      · exact hcross a (List.mem_of_mem_take ha) b hb
      · rcases List.mem_cons.mp ha with ha | ha
        · rw [ha]
          have := hkeyB b hb
          rw [hkm] at hgt
          exact le_trans (not_lt.mp hgt) this
        · exact hcross a (List.mem_of_mem_drop ha) b hb
    have hmem := hfirst _ _ (by omega) (by omega) hn
    refine ⟨?_, ?_, ?_, rfl, rfl, ⟨_, hmem⟩, ?_⟩
    · show List.Sorted _ (((insert_Leaf moved.1 entry).entries ++ moved.2.entries).map Prod.fst)
      exact List.pairwise_map.mpr hpair
    · show List.Perm ((insert_Leaf moved.1 entry).entries ++ moved.2.entries) _
      rw [hAB, q1]
      rw [List.append_assoc, List.cons_append]
      refine List.perm_middle.trans ?_
      rw [← List.append_assoc, List.take_append_drop]
    · show (insert_Leaf moved.1 entry).rightSibPageNo = leaf.rightSibPageNo
      rw [q4, c1]
    · intro x hx
      exact (List.pairwise_append.mp hpair).2.2 x hx _ hmem

theorem C13_split_Leaf_postcondition_witness :
    (2 ≤ 3 ∧ sampleLeaf.keyArray.length = 3 ∧ sampleLeaf.ridArray.length = 3 ∧
      (∀ i, i < 3 → (sampleLeaf.rid i).page_number ≠ 0) ∧
      List.Sorted (fun a b => a ≤ b) (sampleLeaf.entries.map Prod.fst) ∧
      (⟨⟨1, 4⟩, 25⟩ : RIDKeyPair).rid.page_number ≠ 0) ∧
    List.Perm ((split_Leaf 3 sampleLeaf 9 ⟨⟨1, 4⟩, 25⟩).1.entries ++
        (split_Leaf 3 sampleLeaf 9 ⟨⟨1, 4⟩, 25⟩).2.1.entries)
      ((25, ⟨1, 4⟩) :: sampleLeaf.entries) ∧
    (split_Leaf 3 sampleLeaf 9 ⟨⟨1, 4⟩, 25⟩).2.1.rightSibPageNo = 7 ∧
    (split_Leaf 3 sampleLeaf 9 ⟨⟨1, 4⟩, 25⟩).1.rightSibPageNo = 9 :=
  ⟨⟨by decide, rfl, rfl, by decide, by decide, by decide⟩,
    (C13_split_Leaf_postcondition 3 sampleLeaf 9 ⟨⟨1, 4⟩, 25⟩ (by decide) rfl rfl (by decide)
      (by decide) (by decide)).2.1,
    (C13_split_Leaf_postcondition 3 sampleLeaf 9 ⟨⟨1, 4⟩, 25⟩ (by decide) rfl rfl (by decide)
      (by decide) (by decide)).2.2.1,
    (C13_split_Leaf_postcondition 3 sampleLeaf 9 ⟨⟨1, 4⟩, 25⟩ (by decide) rfl rfl (by decide)
      (by decide) (by decide)).2.2.2.1⟩

/-! ## Content of an internal node after `insert_nonLeaf` -/

theorem nl_slotsFrom_length (node : NonLeafNodeInt) (n : Nat) :
    ∀ i, (node.slotsFrom i n).length = n := by
  induction n with
  | zero => intro i; rfl
  | succ m ih => intro i; simp [NonLeafNodeInt.slotsFrom, ih]

theorem nl_slotsFrom_add (node : NonLeafNodeInt) (a b : Nat) :
    ∀ i, node.slotsFrom i (a + b) = node.slotsFrom i a ++ node.slotsFrom (i + a) b := by
  induction a with
  | zero => intro i; simp [NonLeafNodeInt.slotsFrom]
  | succ m ih =>
    intro i
    have h : m + 1 + b = (m + b) + 1 := by omega
    rw [h]
    simp only [NonLeafNodeInt.slotsFrom, List.cons_append]
    rw [ih (i + 1)]
    have h2 : i + 1 + m = i + (m + 1) := by omega
    rw [h2]

theorem nl_slotsFrom_congr (node node2 : NonLeafNodeInt) (n : Nat) :
    ∀ i i2, (∀ k, k < n → node2.slot (i2 + k) = node.slot (i + k)) →
      node2.slotsFrom i2 n = node.slotsFrom i n := by
  induction n with
  | zero => intro i i2 _; rfl
  | succ m ih =>
    intro i i2 h
    simp only [NonLeafNodeInt.slotsFrom]
    have h0 := h 0 (by omega)
    simp only [Nat.add_zero] at h0
    rw [h0, ih (i + 1) (i2 + 1)]
    intro k hk
    have := h (k + 1) (by omega)
    have e1 : i2 + 1 + k = i2 + (k + 1) := by omega
    have e2 : i + 1 + k = i + (k + 1) := by omega
    rw [e1, e2]; exact this

theorem nl_mem_slotsFrom (node : NonLeafNodeInt) (x : Int × Nat) (n : Nat) :
    ∀ i, x ∈ node.slotsFrom i n → ∃ k, k < n ∧ x = node.slot (i + k) := by
  induction n with
  | zero => intro i h; simp [NonLeafNodeInt.slotsFrom] at h
  | succ m ih =>
    intro i h
    simp only [NonLeafNodeInt.slotsFrom, List.mem_cons] at h
    rcases h with h | h
    · exact ⟨0, by omega, by simpa using h⟩
    · obtain ⟨k, hk, hx⟩ := ih (i + 1) h
      refine ⟨k + 1, by omega, ?_⟩
      have e : i + (k + 1) = i + 1 + k := by omega
      rw [e]; exact hx

theorem nl_slot_mem_slotsFrom (node : NonLeafNodeInt) (n : Nat) :
    ∀ i k, k < n → node.slot (i + k) ∈ node.slotsFrom i n := by
  induction n with
  | zero => intro i k hk; omega
  | succ m ih =>
    intro i k hk
    simp only [NonLeafNodeInt.slotsFrom, List.mem_cons]
    cases k with
    | zero => left; rfl
    | succ k =>
      right
      have e : i + (k + 1) = i + 1 + k := by omega
      rw [e]
      exact ih (i + 1) k (by omega)

theorem nl_pairwise_slotsFrom_index (R : Int × Nat → Int × Nat → Prop)
    (node : NonLeafNodeInt) (n : Nat) :
    ∀ i, List.Pairwise R (node.slotsFrom i n) →
      ∀ a b, a < b → b < n → R (node.slot (i + a)) (node.slot (i + b)) := by
  induction n with
  | zero => intro i _ a b _ hb; omega
  | succ m ih =>
    intro i hp a b hab hb
    simp only [NonLeafNodeInt.slotsFrom, List.pairwise_cons] at hp
    cases a with
    | zero =>
      obtain ⟨b2, rfl⟩ : ∃ b2, b = b2 + 1 := ⟨b - 1, by omega⟩
      have e : i + (b2 + 1) = i + 1 + b2 := by omega
      rw [e]
      exact hp.1 _ (nl_slot_mem_slotsFrom node m (i + 1) b2 (by omega))
    | succ a =>
      obtain ⟨b2, rfl⟩ : ∃ b2, b = b2 + 1 := ⟨b - 1, by omega⟩
      have e1 : i + (a + 1) = i + 1 + a := by omega
      have e2 : i + (b2 + 1) = i + 1 + b2 := by omega
      rw [e1, e2]
      exact ih (i + 1) hp.2 a b2 (by omega) (by omega)

theorem nl_zip_drop_eq_slotsFrom (node : NonLeafNodeInt) (M : Nat)
    (hk : node.keyArray.length = M) (hp : node.pageNoArray.length = M + 1) (n : Nat) :
    ∀ i, i + n = M →
      (node.keyArray.drop i).zip (node.pageNoArray.drop (i + 1)) = node.slotsFrom i n := by
  induction n with
  | zero =>
    intro i hi
    have : node.keyArray.drop i = [] := List.drop_eq_nil_of_le (by omega)
    rw [this]; rfl
  | succ m ih =>
    intro i hi
    have h1 : i < node.keyArray.length := by omega
    have h2 : i + 1 < node.pageNoArray.length := by omega
    rw [List.drop_eq_getElem_cons h1, List.drop_eq_getElem_cons h2]
    simp only [List.zip_cons_cons, NonLeafNodeInt.slotsFrom]
    rw [ih (i + 1) (by omega)]
    congr 1
    unfold NonLeafNodeInt.slot NonLeafNodeInt.key NonLeafNodeInt.pageNo
    rw [List.getD_eq_getElem?_getD, List.getD_eq_getElem?_getD, List.getElem?_eq_getElem h1,
      List.getElem?_eq_getElem h2]
    rfl

theorem nl_entries_eq_slotsFrom {M c : Nat} {node : NonLeafNodeInt} (hc : c ≤ M)
    (h : node.occupied M c) : node.entries = node.slotsFrom 0 c := by
  obtain ⟨hk, hp, hocc⟩ := h
  unfold NonLeafNodeInt.entries
  have hz := nl_zip_drop_eq_slotsFrom node M hk hp M 0 (by omega)
  have ht : node.pageNoArray.tail = node.pageNoArray.drop (0 + 1) := by simp
  rw [ht]
  simp only [List.drop_zero] at hz
  rw [hz]
  have hM : M = c + (M - c) := by omega
  rw [hM, nl_slotsFrom_add, List.filter_append]
  have h1 : (node.slotsFrom 0 c).filter (fun e => decide (e.2 ≠ 0)) = node.slotsFrom 0 c := by
    rw [List.filter_eq_self]
    intro x hx
    obtain ⟨k, hk1, rfl⟩ := nl_mem_slotsFrom node x c 0 hx
    have := (hocc (0 + k)).1 (by omega)
    simpa [NonLeafNodeInt.slot] using this
  have h2 : (node.slotsFrom (0 + c) (M - c)).filter (fun e => decide (e.2 ≠ 0)) = [] := by
    rw [List.filter_eq_nil_iff]
    intro x hx
    obtain ⟨k, hk1, rfl⟩ := nl_mem_slotsFrom node x (M - c) (0 + c) hx
    have := (hocc (0 + c + k)).2 (by omega)
    simpa [NonLeafNodeInt.slot] using this
  rw [h1, h2, List.append_nil]

theorem nl_slot_set (node : NonLeafNodeInt) (i j : Nat) (k : Int) (p : Nat)
    (h1 : i < node.keyArray.length) (h2 : i + 1 < node.pageNoArray.length) :
    ((node.setKey i k).setPageNo (i + 1) p).slot j = if i = j then (k, p) else node.slot j := by
  unfold NonLeafNodeInt.slot NonLeafNodeInt.key NonLeafNodeInt.pageNo NonLeafNodeInt.setKey
    NonLeafNodeInt.setPageNo
  simp only
  rw [getD_set_eq, getD_set_eq]
  by_cases h : i = j
  · subst h
    rw [if_pos ⟨rfl, h1⟩, if_pos ⟨rfl, h2⟩, if_pos rfl]
  · rw [if_neg (fun hh => h hh.1), if_neg (fun hh => h (by omega)), if_neg h]

theorem insert_nonLeaf_End_of_occupied {M c : Nat} {node : NonLeafNodeInt}
    (h : node.occupied M c) (fuel : Nat) :
    ∀ e, e ≤ c → c ≤ e + fuel → insert_nonLeaf_End node fuel e = c := by
  induction fuel with
  | zero => intro e h1 h2; simp only [insert_nonLeaf_End]; omega
  | succ n ih =>
    intro e h1 h2
    unfold insert_nonLeaf_End
    by_cases hlt : e < c
    · rw [if_pos ((h.2.2 e).1 hlt)]
      exact ih (e + 1) (by omega) (by omega)
    · have hz := (h.2.2 e).2 (by omega)
      simp only [hz, ne_eq, not_true_eq_false, if_false]
      omega

theorem insert_nonLeaf_shift_content (M : Nat) (key : Int) (n : Nat) :
    ∀ node : NonLeafNodeInt, n < M → node.keyArray.length = M →
      node.pageNoArray.length = M + 1 → (∃ i0, i0 < n ∧ node.key i0 ≤ key) →
      2 ≤ (insert_nonLeaf_shift key (n + 1) node).1 ∧
      (insert_nonLeaf_shift key (n + 1) node).1 ≤ n + 1 ∧
      (insert_nonLeaf_shift key (n + 1) node).2.keyArray.length = M ∧
      (insert_nonLeaf_shift key (n + 1) node).2.pageNoArray.length = M + 1 ∧
      (insert_nonLeaf_shift key (n + 1) node).2.pageNo 0 = node.pageNo 0 ∧
      (∀ i, i + 1 ≤ (insert_nonLeaf_shift key (n + 1) node).1 →
        (insert_nonLeaf_shift key (n + 1) node).2.slot i = node.slot i) ∧
      (∀ i, (insert_nonLeaf_shift key (n + 1) node).1 ≤ i → i ≤ n →
        (insert_nonLeaf_shift key (n + 1) node).2.slot i = node.slot (i - 1)) ∧
      (∀ i, n < i → (insert_nonLeaf_shift key (n + 1) node).2.slot i = node.slot i) ∧
      (∀ i, (insert_nonLeaf_shift key (n + 1) node).1 ≤ i + 1 → i < n → key < node.key i) ∧
      node.key ((insert_nonLeaf_shift key (n + 1) node).1 - 2) ≤ key := by
  induction n with
  | zero =>
    intro node _ _ _ h
    obtain ⟨i0, h0, _⟩ := h
    omega
  | succ m ih =>
    intro node hn hk hp hex
    rw [insert_nonLeaf_shift]
    split
    · rename_i hgt
      have hs : ∀ j, ((node.setKey (m + 1) (node.key m)).setPageNo (m + 2)
          (node.pageNo (m + 1))).slot j = if m + 1 = j then node.slot m else node.slot j :=
        fun j => nl_slot_set node (m + 1) j (node.key m) (node.pageNo (m + 1)) (by omega)
          (by omega)
      have hkey : ∀ j, ((node.setKey (m + 1) (node.key m)).setPageNo (m + 2)
          (node.pageNo (m + 1))).key j = if m + 1 = j then node.key m else node.key j := by
        intro j
        have := congrArg Prod.fst (hs j)
        rw [apply_ite Prod.fst] at this
        exact this
      have hp0 : ((node.setKey (m + 1) (node.key m)).setPageNo (m + 2)
          (node.pageNo (m + 1))).pageNo 0 = node.pageNo 0 := by
        unfold NonLeafNodeInt.pageNo NonLeafNodeInt.setKey NonLeafNodeInt.setPageNo
        simp only
        rw [getD_set_eq, if_neg (fun hh => by omega)]
      obtain ⟨i0, hi0, hki0⟩ := hex
      have hi0m : i0 < m := by
        by_contra hc
        have : i0 = m := by omega
        rw [this] at hki0
        omega
      obtain ⟨a1, a2, a3, a4, a5, a6, a7, a8, a9, a10⟩ :=
        ih ((node.setKey (m + 1) (node.key m)).setPageNo (m + 2) (node.pageNo (m + 1)))
          (by omega) (by simp [NonLeafNodeInt.setKey, NonLeafNodeInt.setPageNo, hk])
          (by simp [NonLeafNodeInt.setKey, NonLeafNodeInt.setPageNo, hp])
          ⟨i0, hi0m, by rw [hkey, if_neg (by omega)]; exact hki0⟩
      refine ⟨a1, by omega, a3, a4, by rw [a5, hp0], ?_, ?_, ?_, ?_, ?_⟩
      · intro i hi
        rw [a6 i hi, hs, if_neg (by omega)]
      · intro i h1 h2
        by_cases him : i = m + 1
        · subst him
          rw [a8 (m + 1) (by omega), hs, if_pos rfl]
          rfl
        · rw [a7 i h1 (by omega), hs, if_neg (by omega)]
      · intro i hi
        rw [a8 i (by omega), hs, if_neg (by omega)]
      · intro i h1 h2
        by_cases him : i = m
        · subst him; exact hgt
        · have := a9 i h1 (by omega)
          rw [hkey, if_neg (by omega)] at this
          exact this
      · rw [hkey, if_neg (by omega)] at a10
        exact a10
    · rename_i hle
      refine ⟨by omega, Nat.le_refl _, hk, hp, rfl, fun _ _ => rfl,
        fun i h1 h2 => absurd h2 (by omega), fun _ _ => rfl,
        fun i h1 h2 => absurd h2 (by omega), ?_⟩
      show node.key (m + 2 - 2) ≤ key
      simp only [Nat.add_sub_cancel]
      omega

/-- Content of an internal node after `insert_nonLeaf`, on a node with `c ≥ 1`
occupied entries in front, a free entry slot, and at least one key `≤` the
incoming key among them: the loop stops at an index `≥ 1`, the incoming pair is
stored as entry `p`, the entries from `p` on move one place to the right, and
`pageNoArray[0]` is left as it is. -/
theorem insert_nonLeaf_content {M c : Nat} {node : NonLeafNodeInt} (h : node.occupied M c)
    (hcM : c + 1 ≤ M) (entry : PageKeyPair) (he : entry.pageNo ≠ 0)
    (hex : ∃ i0, i0 < c ∧ node.key i0 ≤ entry.key) :
    ∃ p, 1 ≤ p ∧ p ≤ c ∧
      (insert_nonLeaf node entry).entries
        = node.entries.take p ++ (entry.key, entry.pageNo) :: node.entries.drop p ∧
      (∀ i, p ≤ i → i < c → entry.key < node.key i) ∧
      node.key (p - 1) ≤ entry.key ∧
      (insert_nonLeaf node entry).pageNo 0 = node.pageNo 0 := by
  have hent := nl_entries_eq_slotsFrom (by omega : c ≤ M) h
  obtain ⟨hk, hp, hocc⟩ := h
  have hEnd : insert_nonLeaf_End node node.pageNoArray.length 0 = c :=
    insert_nonLeaf_End_of_occupied ⟨hk, hp, hocc⟩ _ 0 (by omega) (by omega)
  obtain ⟨a1, a2, a3, a4, a5, a6, a7, a8, a9, a10⟩ :=
    insert_nonLeaf_shift_content M entry.key c node (by omega) hk hp hex
  have hres : ∀ j node1, insert_nonLeaf_shift entry.key (c + 1) node = (j + 1, node1) →
      insert_nonLeaf node entry = (node1.setKey j entry.key).setPageNo (j + 1) entry.pageNo := by
    intro j node1 hjn
    unfold insert_nonLeaf
    simp only
    rw [hEnd, hjn]
  obtain ⟨p, hp1⟩ : ∃ p, (insert_nonLeaf_shift entry.key (c + 1) node).1 = p + 1 :=
    ⟨(insert_nonLeaf_shift entry.key (c + 1) node).1 - 1, by omega⟩
  have hres2 := hres p (insert_nonLeaf_shift entry.key (c + 1) node).2
    (by rw [← hp1])
  rw [hp1] at a1 a2 a6 a7 a9 a10
  generalize (insert_nonLeaf_shift entry.key (c + 1) node).2 = node1 at *
  have hs : ∀ i, (insert_nonLeaf node entry).slot i
      = if p = i then (entry.key, entry.pageNo) else node1.slot i := by
    intro i
    rw [hres2]
    exact nl_slot_set node1 p i entry.key entry.pageNo (by omega) (by omega)
  have hocc2 : (insert_nonLeaf node entry).occupied M (c + 1) := by
    refine ⟨by rw [hres2]; simpa [NonLeafNodeInt.setKey, NonLeafNodeInt.setPageNo] using a3,
      by rw [hres2]; simpa [NonLeafNodeInt.setKey, NonLeafNodeInt.setPageNo] using a4, ?_⟩
    intro i
    have hsi := congrArg Prod.snd (hs i)
    rw [apply_ite Prod.snd] at hsi
    simp only [NonLeafNodeInt.slot] at hsi
    rw [hsi]
    constructor
    · intro hi
      by_cases hpi : p = i
      · rw [if_pos hpi]; exact he
      · rw [if_neg hpi]
        by_cases hlt : i < p
        · have := congrArg Prod.snd (a6 i (by omega))
          simp only [NonLeafNodeInt.slot] at this
          rw [this]
          exact (hocc i).1 (by omega)
        · have := congrArg Prod.snd (a7 i (by omega) (by omega))
          simp only [NonLeafNodeInt.slot] at this
          rw [this]
          have e : i - 1 + 1 = i := by omega
          have := (hocc (i - 1)).1 (by omega)
          exact this
    · intro hi
      rw [if_neg (by omega)]
      have := congrArg Prod.snd (a8 i (by omega))
      simp only [NonLeafNodeInt.slot] at this
      rw [this]
      exact (hocc i).2 (by omega)
  have hent2 := nl_entries_eq_slotsFrom hcM hocc2
  refine ⟨p, by omega, by omega, ?_, fun i h1 h2 => a9 i (by omega) h2, ?_, ?_⟩
  · rw [hent2, hent]
    have e1 : c + 1 = p + (1 + (c - p)) := by omega
    have e2 : c = p + (c - p) := by omega
    have p1 : (insert_nonLeaf node entry).slotsFrom 0 p = node.slotsFrom 0 p := by
      apply nl_slotsFrom_congr
      intro k hk1
      rw [hs, if_neg (by omega), a6 _ (by omega)]
    have p2 : (insert_nonLeaf node entry).slotsFrom (0 + p) 1 = [(entry.key, entry.pageNo)] := by
      simp only [NonLeafNodeInt.slotsFrom]
      rw [hs, if_pos (by omega)]
    have p3 : (insert_nonLeaf node entry).slotsFrom (0 + p + 1) (c - p)
        = node.slotsFrom (0 + p) (c - p) := by
      apply nl_slotsFrom_congr
      intro k hk1
      rw [hs, if_neg (by omega), a7 _ (by omega) (by omega)]
      congr 1
      omega
    have hl : (node.slotsFrom 0 p).length = p := nl_slotsFrom_length node p 0
    rw [e1, nl_slotsFrom_add, nl_slotsFrom_add, p1, p2, p3]
    nth_rewrite 2 [e2]
    nth_rewrite 3 [e2]
    rw [nl_slotsFrom_add, List.take_left' hl, List.drop_left' hl]
    rfl
  · have : p + 1 - 2 = p - 1 := by omega
    rw [this] at a10
    exact a10
  · rw [hres2]
    have : ((node1.setKey p entry.key).setPageNo (p + 1) entry.pageNo).pageNo 0
        = node1.pageNo 0 := by
      unfold NonLeafNodeInt.pageNo NonLeafNodeInt.setKey NonLeafNodeInt.setPageNo
      simp only
      rw [getD_set_eq, if_neg (fun hh => by omega)]
    rw [this, a5]

theorem occupied_of_bounded {L c : Nat} {leaf : LeafNodeInt} (hk : leaf.keyArray.length = L)
    (hr : leaf.ridArray.length = L) (h1 : ∀ i, i < c → (leaf.rid i).page_number ≠ 0)
    (h2 : ∀ i, c ≤ i → i < L → (leaf.rid i).page_number = 0) : leaf.occupied L c := by
  refine ⟨hk, hr, fun i => ⟨h1 i, fun hi => ?_⟩⟩
  by_cases hiL : i < L
  · exact h2 i hi hiL
  · unfold LeafNodeInt.rid
    rw [List.getD_eq_getElem?_getD, List.getElem?_eq_none (by omega)]
    rfl

theorem nl_occupied_of_bounded {M c : Nat} {node : NonLeafNodeInt}
    (hk : node.keyArray.length = M) (hp : node.pageNoArray.length = M + 1)
    (h1 : ∀ i, i < c → node.pageNo (i + 1) ≠ 0)
    (h2 : ∀ i, c ≤ i → i < M → node.pageNo (i + 1) = 0) : node.occupied M c := by
  refine ⟨hk, hp, fun i => ⟨h1 i, fun hi => ?_⟩⟩
  by_cases hiM : i < M
  · exact h2 i hi hiM
  · unfold NonLeafNodeInt.pageNo
    rw [List.getD_eq_getElem?_getD, List.getElem?_eq_none (by omega)]
    rfl

theorem nl_sorted_entries_index {M c : Nat} {node : NonLeafNodeInt} (hc : c ≤ M)
    (h : node.occupied M c) (hs : List.Sorted (fun a b => a ≤ b) (node.entries.map Prod.fst)) :
    ∀ i j, i ≤ j → j < c → node.key i ≤ node.key j := by
  intro i j hij hj
  rw [nl_entries_eq_slotsFrom hc h] at hs
  have hp : List.Pairwise (fun a b : Int × Nat => a.1 ≤ b.1) (node.slotsFrom 0 c) :=
    List.pairwise_map.mp hs
  by_cases he : i = j
  · subst he; exact le_refl _
  · have := nl_pairwise_slotsFrom_index _ node c 0 hp i j (by omega) hj
    simpa [NonLeafNodeInt.slot] using this

/-- C15, evaluated on the code: `insert_Leaf` of key 7 with locator (1, 4) into
the sorted leaf with entries (5, (1,1)), (7, (1,2)), (9, (1,3)) and one free
slot stores the new entry in slot 2, after the existing entry with key 7 (slot
1), not before it; `insert_nonLeaf` of the pair (20, page 5) into the node with
keys 10, 20 and children 2, 3, 4 stores the new pair as entry 2, after the
existing key 20 (entry 1). -/
theorem C15_equal_key_is_stored_after_existing :
    insert_Leaf ⟨[5, 7, 9, 0], [⟨1, 1⟩, ⟨1, 2⟩, ⟨1, 3⟩, ⟨0, 0⟩], 0⟩ ⟨⟨1, 4⟩, 7⟩
      = ⟨[5, 7, 7, 9], [⟨1, 1⟩, ⟨1, 2⟩, ⟨1, 4⟩, ⟨1, 3⟩], 0⟩ ∧
    (insert_Leaf ⟨[5, 7, 9, 0], [⟨1, 1⟩, ⟨1, 2⟩, ⟨1, 3⟩, ⟨0, 0⟩], 0⟩ ⟨⟨1, 4⟩, 7⟩).entries
      ≠ [(5, ⟨1, 1⟩), (7, ⟨1, 4⟩), (7, ⟨1, 2⟩), (9, ⟨1, 3⟩)] ∧
    insert_nonLeaf ⟨1, [10, 20, 0], [2, 3, 4, 0]⟩ ⟨5, 20⟩ = ⟨1, [10, 20, 20], [2, 3, 4, 5]⟩ ∧
    (insert_nonLeaf ⟨1, [10, 20, 0], [2, 3, 4, 0]⟩ ⟨5, 20⟩).entries
      ≠ [(10, 3), (20, 5), (20, 4)] := by
  refine ⟨by decide, by decide, by decide, by decide⟩

/-- C15, amended: for every leaf whose occupied slots are the first `c` ones,
with a free slot and entries sorted by key, that already holds an entry with
key `k`, `insert_Leaf` of a new entry with key `k` and a non-null locator
stores it after every existing entry with key `≤ k` (so after all existing
entries with key `k`) and before every entry with a greater key, and the
existing entries keep their relative order.  The same holds for
`insert_nonLeaf` on an internal node with an existing equal key, counting entry
`i` as `(keyArray[i], pageNoArray[i+1])`; `pageNoArray[0]` is left as it is. -/
theorem C15_insert_equal_key_after_existing :
    (∀ (L c : Nat) (leaf : LeafNodeInt) (entry : RIDKeyPair),
      leaf.keyArray.length = L → leaf.ridArray.length = L →
      (∀ i, i < c → (leaf.rid i).page_number ≠ 0) →
      (∀ i, c ≤ i → i < L → (leaf.rid i).page_number = 0) →
      c + 1 ≤ L →
      List.Sorted (fun a b => a ≤ b) (leaf.entries.map Prod.fst) →
      entry.rid.page_number ≠ 0 →
      (∃ x ∈ leaf.entries, x.1 = entry.key) →
      ∃ j, (insert_Leaf leaf entry).entries
          = leaf.entries.take j ++ (entry.key, entry.rid) :: leaf.entries.drop j ∧
        (∀ x ∈ leaf.entries.take j, x.1 ≤ entry.key) ∧
        (∀ x ∈ leaf.entries.drop j, entry.key < x.1)) ∧
    (∀ (M c : Nat) (node : NonLeafNodeInt) (entry : PageKeyPair),
      node.keyArray.length = M → node.pageNoArray.length = M + 1 →
      (∀ i, i < c → node.pageNo (i + 1) ≠ 0) →
      (∀ i, c ≤ i → i < M → node.pageNo (i + 1) = 0) →
      c + 1 ≤ M →
      List.Sorted (fun a b => a ≤ b) (node.entries.map Prod.fst) →
      entry.pageNo ≠ 0 →
      (∃ x ∈ node.entries, x.1 = entry.key) →
      ∃ p, (insert_nonLeaf node entry).entries
          = node.entries.take p ++ (entry.key, entry.pageNo) :: node.entries.drop p ∧
        (∀ x ∈ node.entries.take p, x.1 ≤ entry.key) ∧
        (∀ x ∈ node.entries.drop p, entry.key < x.1) ∧
        (insert_nonLeaf node entry).pageNo 0 = node.pageNo 0) := by
  constructor
  · intro L c leaf entry hk hr h1 h2 hcL hs he hex
    have hocc := occupied_of_bounded hk hr h1 h2
    have hidx := sorted_entries_index (by omega) hocc hs
    have hc : 1 ≤ c := by
      obtain ⟨x, hx, _⟩ := hex
      rw [entries_eq_slotsFrom (by omega) hocc] at hx
      obtain ⟨k, hk1, _⟩ := mem_slotsFrom leaf x c 0 hx
      omega
    obtain ⟨j, _, q1, q2, q3, _, _⟩ := insert_Leaf_sorted hocc hc hcL entry he hidx
    exact ⟨j, q1, q2, q3⟩
  · intro M c node entry hk hp h1 h2 hcM hs he hex
    have hocc := nl_occupied_of_bounded hk hp h1 h2
    have hidx := nl_sorted_entries_index (by omega) hocc hs
    have hent := nl_entries_eq_slotsFrom (by omega : c ≤ M) hocc
    have hex2 : ∃ i0, i0 < c ∧ node.key i0 ≤ entry.key := by
      obtain ⟨x, hx, hxk⟩ := hex
      rw [hent] at hx
      obtain ⟨k, hk1, rfl⟩ := nl_mem_slotsFrom node x c 0 hx
      refine ⟨0 + k, by omega, ?_⟩
      simp only [NonLeafNodeInt.slot] at hxk
      omega
    obtain ⟨p, hp1, hp2, q1, q2, q3, q4⟩ := insert_nonLeaf_content hocc hcM entry he hex2
    have e2 : c = p + (c - p) := by omega
    have hl : (node.slotsFrom 0 p).length = p := nl_slotsFrom_length node p 0
    have ht : node.entries.take p = node.slotsFrom 0 p := by
      rw [hent]; nth_rewrite 1 [e2]; rw [nl_slotsFrom_add, List.take_left' hl]
    have hd : node.entries.drop p = node.slotsFrom (0 + p) (c - p) := by
      rw [hent]; nth_rewrite 1 [e2]; rw [nl_slotsFrom_add, List.drop_left' hl]
    refine ⟨p, q1, ?_, ?_, q4⟩
    · intro x hx
      rw [ht] at hx
      obtain ⟨k, hk1, rfl⟩ := nl_mem_slotsFrom node x p 0 hx
      have := hidx (0 + k) (p - 1) (by omega) (by omega)
      exact le_trans this q3
    · intro x hx
      rw [hd] at hx
      obtain ⟨k, hk1, rfl⟩ := nl_mem_slotsFrom node x (c - p) (0 + p) hx
      exact q2 (0 + p + k) (by omega) (by omega)

theorem C15_insert_equal_key_after_existing_witness :
    (∃ j, (insert_Leaf ⟨[5, 7, 9, 0], [⟨1, 1⟩, ⟨1, 2⟩, ⟨1, 3⟩, ⟨0, 0⟩], 0⟩ ⟨⟨1, 4⟩, 7⟩).entries
        = (LeafNodeInt.entries ⟨[5, 7, 9, 0], [⟨1, 1⟩, ⟨1, 2⟩, ⟨1, 3⟩, ⟨0, 0⟩], 0⟩).take j ++
          (7, ⟨1, 4⟩) ::
          (LeafNodeInt.entries ⟨[5, 7, 9, 0], [⟨1, 1⟩, ⟨1, 2⟩, ⟨1, 3⟩, ⟨0, 0⟩], 0⟩).drop j ∧
      (∀ x ∈ (LeafNodeInt.entries ⟨[5, 7, 9, 0], [⟨1, 1⟩, ⟨1, 2⟩, ⟨1, 3⟩, ⟨0, 0⟩], 0⟩).take j,
        x.1 ≤ 7) ∧
      (∀ x ∈ (LeafNodeInt.entries ⟨[5, 7, 9, 0], [⟨1, 1⟩, ⟨1, 2⟩, ⟨1, 3⟩, ⟨0, 0⟩], 0⟩).drop j,
        7 < x.1)) ∧
    (∃ p, (insert_nonLeaf ⟨1, [10, 20, 0], [2, 3, 4, 0]⟩ ⟨5, 20⟩).entries
        = (NonLeafNodeInt.entries ⟨1, [10, 20, 0], [2, 3, 4, 0]⟩).take p ++
          (20, 5) :: (NonLeafNodeInt.entries ⟨1, [10, 20, 0], [2, 3, 4, 0]⟩).drop p ∧
      (∀ x ∈ (NonLeafNodeInt.entries ⟨1, [10, 20, 0], [2, 3, 4, 0]⟩).take p, x.1 ≤ 20) ∧
      (∀ x ∈ (NonLeafNodeInt.entries ⟨1, [10, 20, 0], [2, 3, 4, 0]⟩).drop p, 20 < x.1) ∧
      (insert_nonLeaf ⟨1, [10, 20, 0], [2, 3, 4, 0]⟩ ⟨5, 20⟩).pageNo 0
        = (⟨1, [10, 20, 0], [2, 3, 4, 0]⟩ : NonLeafNodeInt).pageNo 0) :=
  ⟨C15_insert_equal_key_after_existing.1 4 3
      ⟨[5, 7, 9, 0], [⟨1, 1⟩, ⟨1, 2⟩, ⟨1, 3⟩, ⟨0, 0⟩], 0⟩ ⟨⟨1, 4⟩, 7⟩ rfl rfl (by decide)
      (by decide) (by decide) (by decide) (by decide) ⟨(7, ⟨1, 2⟩), by decide, rfl⟩,
    C15_insert_equal_key_after_existing.2 3 2 ⟨1, [10, 20, 0], [2, 3, 4, 0]⟩ ⟨5, 20⟩ rfl rfl
      (by decide) (by decide) (by decide) (by decide) (by decide) ⟨(20, 4), by decide, rfl⟩⟩

/-! ## Conservation of the entries of a leaf, whatever the leaf holds -/

theorem occupiedPart_append (a b : List (Int × RecordId)) :
    occupiedPart (a ++ b) = occupiedPart a + occupiedPart b := by
  unfold occupiedPart
  rw [List.filter_append]
  rfl

theorem occupiedPart_free (x : Int × RecordId) (h : x.2.page_number = 0) :
    occupiedPart [x] = 0 := by
  unfold occupiedPart
  simp [List.filter, h]

theorem occupiedPart_occupied (x : Int × RecordId) (h : x.2.page_number ≠ 0) :
    occupiedPart [x] = {x} := by
  unfold occupiedPart
  simp [List.filter, h]

theorem entries_eq_occupiedPart {L : Nat} {leaf : LeafNodeInt} (hk : leaf.keyArray.length = L)
    (hr : leaf.ridArray.length = L) :
    (leaf.entries : Multiset (Int × RecordId)) = occupiedPart (leaf.slotsFrom 0 L) := by
  rw [entries_eq_filter_slotsFrom hk hr]
  rfl

/-- Overwriting slot `i` of a leaf removes the pair that was in slot `i` (when
occupied) and adds the pair written (when occupied). -/
theorem bag_setSlot {L : Nat} {leaf : LeafNodeInt} (hk : leaf.keyArray.length = L)
    (hr : leaf.ridArray.length = L) (i : Nat) (hi : i < L) (k : Int) (r : RecordId) :
    occupiedPart [leaf.slot i] + ((leaf.setSlot i k r).entries : Multiset (Int × RecordId))
      = occupiedPart [(k, r)] + (leaf.entries : Multiset (Int × RecordId)) := by
  obtain ⟨lk, lr⟩ := length_setSlot leaf i k r
  rw [entries_eq_occupiedPart hk hr,
    entries_eq_occupiedPart (lk.trans hk) (lr.trans hr)]
  have hs : ∀ j, (leaf.setSlot i k r).slot j = if i = j then (k, r) else leaf.slot j :=
    fun j => slot_setSlot leaf i j k r (by omega) (by omega)
  have e : L = i + (1 + (L - i - 1)) := by omega
  have p1 : (leaf.setSlot i k r).slotsFrom 0 i = leaf.slotsFrom 0 i := by
    apply slotsFrom_congr
    intro j hj
    rw [hs, if_neg (by omega)]
  have p2 : (leaf.setSlot i k r).slotsFrom (0 + i) 1 = [(k, r)] := by
    simp only [LeafNodeInt.slotsFrom]
    rw [hs, if_pos (by omega)]
  have p3 : (leaf.setSlot i k r).slotsFrom (0 + i + 1) (L - i - 1)
      = leaf.slotsFrom (0 + i + 1) (L - i - 1) := by
    apply slotsFrom_congr
    intro j hj
    rw [hs, if_neg (by omega)]
  have p4 : leaf.slotsFrom (0 + i) 1 = [leaf.slot i] := by
    simp only [LeafNodeInt.slotsFrom, Nat.zero_add]
  have hdec : ∀ lf : LeafNodeInt, lf.slotsFrom 0 L
      = lf.slotsFrom 0 i ++ (lf.slotsFrom (0 + i) 1 ++ lf.slotsFrom (0 + i + 1) (L - i - 1)) := by
    intro lf
    have h := slotsFrom_add lf i (1 + (L - i - 1)) 0
    rw [← e] at h
    rw [h, slotsFrom_add]
  rw [hdec leaf, hdec (leaf.setSlot i k r), p1, p2, p3, p4]
  simp only [occupiedPart_append]
  abel

theorem bag_clearSlot {L : Nat} {leaf : LeafNodeInt} (hk : leaf.keyArray.length = L)
    (hr : leaf.ridArray.length = L) (i : Nat) (hi : i < L) :
    occupiedPart [leaf.slot i] + ((leaf.clearSlot i).entries : Multiset (Int × RecordId))
      = (leaf.entries : Multiset (Int × RecordId)) := by
  have h := bag_setSlot hk hr i hi 0 ⟨0, (leaf.rid i).slot_number⟩
  rw [occupiedPart_free (0, ⟨0, (leaf.rid i).slot_number⟩) rfl, zero_add] at h
  exact h

theorem insert_Leaf_shift_bag (L : Nat) (k : Int) (r : RecordId) (n : Nat) :
    ∀ leaf : LeafNodeInt, n < L → leaf.keyArray.length = L → leaf.ridArray.length = L →
      ((((insert_Leaf_shift k n leaf).2.setSlot (insert_Leaf_shift k n leaf).1 k r).entries :
          List (Int × RecordId)) : Multiset (Int × RecordId))
        = ((leaf.setSlot n k r).entries : Multiset (Int × RecordId)) := by
  induction n with
  | zero => intro leaf _ _ _; rfl
  | succ m ih =>
    intro leaf hn hk hr
    unfold insert_Leaf_shift
    split
    · obtain ⟨lk, lr⟩ := length_setSlot leaf (m + 1) (leaf.key m) (leaf.rid m)
      rw [ih (leaf.setSlot (m + 1) (leaf.key m) (leaf.rid m)) (by omega) (lk.trans hk)
        (lr.trans hr)]
      have h1 := bag_setSlot (lk.trans hk) (lr.trans hr) m (by omega) k r
      have hsl : (leaf.setSlot (m + 1) (leaf.key m) (leaf.rid m)).slot m = leaf.slot m := by
        rw [slot_setSlot leaf (m + 1) m _ _ (by omega) (by omega), if_neg (by omega)]
      rw [hsl] at h1
      have h2 := bag_setSlot hk hr (m + 1) hn (leaf.key m) (leaf.rid m)
      have h3 := bag_setSlot hk hr (m + 1) hn k r
      have hslot : ((leaf.key m, leaf.rid m) : Int × RecordId) = leaf.slot m := rfl
      rw [hslot] at h2
      generalize occupiedPart [leaf.slot m] = a at h1 h2
      generalize occupiedPart [leaf.slot (m + 1)] = b at h2 h3
      generalize occupiedPart [(k, r)] = e at h1 h3
      generalize (((leaf.setSlot (m + 1) (leaf.key m) (leaf.rid m)).setSlot m k r).entries :
        Multiset (Int × RecordId)) = X at h1 ⊢
      generalize ((leaf.setSlot (m + 1) k r).entries : Multiset (Int × RecordId)) = Y at h3 ⊢
      generalize ((leaf.setSlot (m + 1) (leaf.key m) (leaf.rid m)).entries :
        Multiset (Int × RecordId)) = B1 at h1 h2
      generalize (leaf.entries : Multiset (Int × RecordId)) = B at h2 h3
      have hsum : a + b + X = a + b + Y := by
        have e1 : a + b + X = b + (a + X) := by abel
        have e2 : b + (e + B1) = e + (b + B1) := by abel
        have e3 : e + (a + B) = a + (e + B) := by abel
        have e4 : a + (b + Y) = a + b + Y := by abel
        rw [e1, h1, e2, h2, e3, ← h3, e4]
      exact add_left_cancel hsum
    · rfl

theorem insert_Leaf_End_free (leaf : LeafNodeInt) (fuel : Nat) :
    ∀ e f, e + 1 ≤ f → f ≤ e + fuel → (leaf.rid f).page_number = 0 →
      insert_Leaf_End leaf fuel e + 1 ≤ f ∧
      (leaf.rid (insert_Leaf_End leaf fuel e + 1)).page_number = 0 := by
  induction fuel with
  | zero => intro e f h1 h2 _; omega
  | succ n ih =>
    intro e f h1 h2 hf
    unfold insert_Leaf_End
    by_cases h : (leaf.rid (e + 1)).page_number ≠ 0
    · rw [if_pos h]
      have hne : e + 1 ≠ f := by
        intro hh; rw [hh] at h; exact h hf
      exact ih (e + 1) f (by omega) (by omega) hf
    · rw [if_neg h]
      exact ⟨h1, not_not.mp h⟩

/-- The function `insert_Leaf` adds the incoming pair (when its locator is not
null) to the entries of the leaf and leaves every other entry as it is, on
every leaf that has a free slot at an index `≥ 1`, whatever its slots hold. -/
theorem insert_Leaf_bag {L : Nat} {leaf : LeafNodeInt} (hk : leaf.keyArray.length = L)
    (hr : leaf.ridArray.length = L) (f : Nat) (hf1 : 1 ≤ f) (hfL : f < L)
    (hf : (leaf.rid f).page_number = 0) (entry : RIDKeyPair) :
    (entry.rid.page_number ≠ 0 →
      List.Perm (insert_Leaf leaf entry).entries ((entry.key, entry.rid) :: leaf.entries)) ∧
    (insert_Leaf leaf entry).keyArray.length = L ∧
    (insert_Leaf leaf entry).ridArray.length = L ∧
    (insert_Leaf leaf entry).rightSibPageNo = leaf.rightSibPageNo := by
  unfold insert_Leaf
  split
  · rename_i h0
    obtain ⟨lk, lr⟩ := length_setSlot leaf 0 entry.key entry.rid
    refine ⟨?_, lk.trans hk, lr.trans hr, rfl⟩
    intro he
    have h := bag_setSlot hk hr 0 (by omega) entry.key entry.rid
    rw [occupiedPart_free (leaf.slot 0) h0.1, zero_add,
      occupiedPart_occupied (entry.key, entry.rid) he] at h
    exact Multiset.coe_eq_coe.mp h
  · simp only
    obtain ⟨hE1, hE2⟩ := insert_Leaf_End_free leaf leaf.ridArray.length 0 f (by omega)
      (by omega) hf
    generalize insert_Leaf_End leaf leaf.ridArray.length 0 = E at hE1 hE2
    obtain ⟨a1, a2, a3, a4, _⟩ :=
      insert_Leaf_shift_content L entry.key (E + 1) leaf (by omega) hk hr
    obtain ⟨lk, lr⟩ := length_setSlot (insert_Leaf_shift entry.key (E + 1) leaf).2
      (insert_Leaf_shift entry.key (E + 1) leaf).1 entry.key entry.rid
    refine ⟨?_, lk.trans a2, lr.trans a3, a4⟩
    intro he
    have h1 := insert_Leaf_shift_bag L entry.key entry.rid (E + 1) leaf (by omega) hk hr
    have h2 := bag_setSlot hk hr (E + 1) (by omega) entry.key entry.rid
    rw [occupiedPart_free (leaf.slot (E + 1)) hE2, zero_add,
      occupiedPart_occupied (entry.key, entry.rid) he, ← h1] at h2
    exact Multiset.coe_eq_coe.mp h2

theorem split_Leaf_move_bag (L mid : Nat) (fuel : Nat) :
    ∀ (i : Nat) (leaf newLeaf : LeafNodeInt), i + fuel = L → mid ≤ i →
      leaf.keyArray.length = L → leaf.ridArray.length = L →
      newLeaf.keyArray.length = L → newLeaf.ridArray.length = L →
      (∀ j, mid ≤ j → j < i → (leaf.rid j).page_number = 0) →
      (∀ j, i - mid ≤ j → (newLeaf.rid j).page_number = 0) →
      (((split_Leaf_move mid fuel i leaf newLeaf).1.entries : Multiset (Int × RecordId))
          + ((split_Leaf_move mid fuel i leaf newLeaf).2.entries : Multiset (Int × RecordId))
        = (leaf.entries : Multiset (Int × RecordId))
          + (newLeaf.entries : Multiset (Int × RecordId))) ∧
      (split_Leaf_move mid fuel i leaf newLeaf).1.keyArray.length = L ∧
      (split_Leaf_move mid fuel i leaf newLeaf).1.ridArray.length = L ∧
      (split_Leaf_move mid fuel i leaf newLeaf).2.keyArray.length = L ∧
      (split_Leaf_move mid fuel i leaf newLeaf).2.ridArray.length = L ∧
      (∀ j, mid ≤ j → j < L →
        ((split_Leaf_move mid fuel i leaf newLeaf).1.rid j).page_number = 0) ∧
      (∀ j, L - mid ≤ j →
        ((split_Leaf_move mid fuel i leaf newLeaf).2.rid j).page_number = 0) := by
  induction fuel with
  | zero =>
    intro i leaf newLeaf hi hmi hk hr nk nr hl hn
    have hiL : i = L := by omega
    subst hiL
    exact ⟨rfl, hk, hr, nk, nr, hl, hn⟩
  | succ n ih =>
    intro i leaf newLeaf hi hmi hk hr nk nr hl hn
    unfold split_Leaf_move
    obtain ⟨ck, cr⟩ := length_clearSlot leaf i
    obtain ⟨sk, sr⟩ := length_setSlot newLeaf (i - mid) (leaf.key i) (leaf.rid i)
    obtain ⟨b1, b2, b3, b4, b5, b6, b7⟩ := ih (i + 1) (leaf.clearSlot i)
      (newLeaf.setSlot (i - mid) (leaf.key i) (leaf.rid i)) (by omega) (by omega)
      (ck.trans hk) (cr.trans hr) (sk.trans nk) (sr.trans nr)
      (by
        intro j h1 h2
        rw [rid_clearSlot]
        by_cases hij : i = j
        · rw [if_pos ⟨hij, by omega⟩]
        · rw [if_neg (fun hh => hij hh.1)]
          exact hl j h1 (by omega))
      (by
        intro j h1
        rw [rid_setSlot, if_neg (fun hh => by omega)]
        exact hn j (by omega))
    refine ⟨?_, b2, b3, b4, b5, b6, b7⟩
    rw [b1]
    have h1 := bag_clearSlot hk hr i (by omega)
    have h2 := bag_setSlot nk nr (i - mid) (by omega) (leaf.key i) (leaf.rid i)
    rw [occupiedPart_free (newLeaf.slot (i - mid)) (hn (i - mid) (Nat.le_refl _)), zero_add] at h2
    have hslot : ((leaf.key i, leaf.rid i) : Int × RecordId) = leaf.slot i := rfl
    rw [hslot] at h2
    rw [h2, ← h1]
    abel

theorem entries_zeroed (L sib : Nat) : (LeafNodeInt.zeroed L sib).entries = [] := by
  have hocc : (LeafNodeInt.zeroed L sib).occupied L 0 :=
    ⟨by simp [LeafNodeInt.zeroed], by simp [LeafNodeInt.zeroed],
      fun i => ⟨fun h => absurd h (by omega), fun _ => rid_zeroed L sib i⟩⟩
  rw [entries_eq_slotsFrom (Nat.zero_le L) hocc]
  rfl

/-- The function `split_Leaf` conserves the entries: on every leaf of capacity
`L ≥ 2`, whatever its slots hold, the entries of the old leaf and the new leaf
after the split are those of the leaf before plus the incoming pair (when its
locator is not null); the new leaf takes over the right sibling and the old
leaf points to the new one. -/
theorem split_Leaf_bag (L : Nat) (leaf : LeafNodeInt) (n : Nat) (entry : RIDKeyPair)
    (hL : 2 ≤ L) (hk : leaf.keyArray.length = L) (hr : leaf.ridArray.length = L) :
    (entry.rid.page_number ≠ 0 →
      List.Perm ((split_Leaf L leaf n entry).1.entries ++ (split_Leaf L leaf n entry).2.1.entries)
        ((entry.key, entry.rid) :: leaf.entries)) ∧
    (split_Leaf L leaf n entry).1.keyArray.length = L ∧
    (split_Leaf L leaf n entry).1.ridArray.length = L ∧
    (split_Leaf L leaf n entry).2.1.keyArray.length = L ∧
    (split_Leaf L leaf n entry).2.1.ridArray.length = L ∧
    (split_Leaf L leaf n entry).1.rightSibPageNo = n ∧
    (split_Leaf L leaf n entry).2.1.rightSibPageNo = leaf.rightSibPageNo := by
  have hmid : 1 ≤ split_Leaf_mid L leaf entry.key ∧ split_Leaf_mid L leaf entry.key + 1 ≤ L := by
    unfold split_Leaf_mid
    split
    · rename_i h; omega
    · omega
  obtain ⟨hm1, hm2⟩ := hmid
  have hzk : (LeafNodeInt.zeroed L 0).keyArray.length = L := by simp [LeafNodeInt.zeroed]
  have hzr : (LeafNodeInt.zeroed L 0).ridArray.length = L := by simp [LeafNodeInt.zeroed]
  obtain ⟨b1, b2, b3, b4, b5, b6, b7⟩ := split_Leaf_move_bag L (split_Leaf_mid L leaf entry.key)
    (L - split_Leaf_mid L leaf entry.key) (split_Leaf_mid L leaf entry.key) leaf
    (LeafNodeInt.zeroed L 0) (by omega) (Nat.le_refl _) hk hr hzk hzr
    (fun j h1 h2 => absurd h2 (by omega)) (fun j _ => rid_zeroed L 0 j)
  obtain ⟨c1, _, _, _, _⟩ := split_Leaf_move_content L (split_Leaf_mid L leaf entry.key)
    (L - split_Leaf_mid L leaf entry.key) (split_Leaf_mid L leaf entry.key) leaf
    (LeafNodeInt.zeroed L 0) (by omega) (Nat.le_refl _) hk hr hzk hzr
  rw [entries_zeroed, Multiset.coe_nil, add_zero] at b1
  have hgtE := split_Leaf_gt L leaf n entry (split_Leaf_mid L leaf entry.key)
    (split_Leaf_move (split_Leaf_mid L leaf entry.key) (L - split_Leaf_mid L leaf entry.key)
      (split_Leaf_mid L leaf entry.key) leaf (LeafNodeInt.zeroed L 0)) rfl rfl
  have hleE := split_Leaf_le L leaf n entry (split_Leaf_mid L leaf entry.key)
    (split_Leaf_move (split_Leaf_mid L leaf entry.key) (L - split_Leaf_mid L leaf entry.key)
      (split_Leaf_mid L leaf entry.key) leaf (LeafNodeInt.zeroed L 0)) rfl rfl
  generalize split_Leaf_mid L leaf entry.key = mid at *
  generalize split_Leaf_move mid (L - mid) mid leaf (LeafNodeInt.zeroed L 0) = moved at *
  have hbase : List.Perm (moved.1.entries ++ moved.2.entries) leaf.entries :=
    Multiset.coe_eq_coe.mp b1
  by_cases hgt : entry.key > moved.1.key (mid - 1)
  · rw [hgtE hgt]
    obtain ⟨q1, q2, q3, q4⟩ := insert_Leaf_bag b4 b5 (L - mid) (by omega) (by omega)
      (b7 (L - mid) (Nat.le_refl _)) entry
    refine ⟨?_, b2, b3, q2, q3, rfl, c1⟩
    intro he
    show List.Perm (moved.1.entries ++ (insert_Leaf moved.2 entry).entries) _
    refine (List.Perm.append_left moved.1.entries (q1 he)).trans ?_
    refine List.perm_middle.trans ?_
    exact List.Perm.cons _ hbase
  · rw [hleE hgt]
    obtain ⟨q1, q2, q3, q4⟩ := insert_Leaf_bag b2 b3 mid hm1 (by omega)
      (b6 mid (Nat.le_refl _) (by omega)) entry
    refine ⟨?_, q2, q3, b4, b5, rfl, ?_⟩
    · intro he
      show List.Perm ((insert_Leaf moved.1 entry).entries ++ moved.2.entries) _
      refine (List.Perm.append_right moved.2.entries (q1 he)).trans ?_
      exact List.Perm.cons _ hbase
    · show (insert_Leaf moved.1 entry).rightSibPageNo = leaf.rightSibPageNo
      rw [q4, c1]

/-! ## `insert` rewrites one leaf page -/

theorem readLeaf_eq_asLeaf (idx : BTreeIndex) (x : Nat) :
    idx.readLeaf x = (idx.readPage x).bind Page.asLeaf := by
  unfold BTreeIndex.readLeaf
  cases idx.readPage x with
  | none => rfl
  | some pg => cases pg <;> rfl

theorem write_frame {idx : BTreeIndex} {p : Nat} {old : Page} (pg : Page)
    (hp : idx.readPage p = some old) (hH : HeaderPage idx) (hne : p ≠ idx.headerPageNum) :
    HeaderPage (idx.writePage p pg) ∧
    (idx.writePage p pg).headerPageNum = idx.headerPageNum ∧
    (idx.writePage p pg).pages.length = idx.pages.length ∧
    ∀ x, (idx.writePage p pg).readLeaf x = if x = p then pg.asLeaf else idx.readLeaf x := by
  obtain ⟨r, hr⟩ := hH
  refine ⟨⟨r, ?_⟩, rfl, by simp [BTreeIndex.writePage], ?_⟩
  · show (idx.writePage p pg).readPage idx.headerPageNum = _
    rw [readPage_writePage hp, if_neg (fun e => hne e.symm), hr]
  · intro x
    rw [readLeaf_eq_asLeaf, readLeaf_eq_asLeaf, readPage_writePage hp]
    by_cases hx : x = p
    · rw [if_pos hx, if_pos hx]; rfl
    · rw [if_neg hx, if_neg hx]

theorem alloc_frame (idx : BTreeIndex) (pg : Page) (hH : HeaderPage idx) :
    HeaderPage (idx.allocPage pg) ∧
    (idx.allocPage pg).headerPageNum = idx.headerPageNum ∧
    (idx.allocPage pg).pages.length = idx.pages.length + 1 ∧
    ∀ x, (idx.allocPage pg).readLeaf x =
      if x = idx.pages.length + 1 then pg.asLeaf else idx.readLeaf x := by
  obtain ⟨r, hr⟩ := hH
  obtain ⟨hb1, hb2⟩ := readPage_some_bounds hr
  refine ⟨⟨r, ?_⟩, rfl, by simp [BTreeIndex.allocPage], ?_⟩
  · show (idx.allocPage pg).readPage idx.headerPageNum = _
    rw [readPage_allocPage, if_neg (by omega), hr]
  · intro x
    rw [readLeaf_eq_asLeaf, readLeaf_eq_asLeaf, readPage_allocPage]
    by_cases hx : x = idx.pages.length + 1
    · rw [if_pos hx, if_pos hx]; rfl
    · rw [if_neg hx, if_neg hx]

theorem new_root_frame (M : Nat) (idx : BTreeIndex) (r : Nat) (e : PageKeyPair)
    (hH : HeaderPage idx) :
    HeaderPage (new_root M idx r e) ∧
    (new_root M idx r e).headerPageNum = idx.headerPageNum ∧
    (new_root M idx r e).pages.length = idx.pages.length + 1 ∧
    ∀ x, (new_root M idx r e).readLeaf x = idx.readLeaf x := by
  obtain ⟨a1, a2, a3, a4⟩ :=
    alloc_frame idx (Page.nonleaf (new_rootPage M idx.if_rootleaf r e)) hH
  obtain ⟨x0, hx0⟩ := a1
  obtain ⟨hb1, hb2⟩ := readPage_some_bounds hx0
  obtain ⟨hy0, hy1⟩ := readPage_some_bounds hH.choose_spec
  have hne : idx.headerPageNum ≠ idx.pages.length + 1 := by omega
  have hrd : ∀ q, (new_root M idx r e).readPage q =
      if q = idx.headerPageNum then some (Page.header idx.nextPageNum)
      else (idx.allocPage (Page.nonleaf (new_rootPage M idx.if_rootleaf r e))).readPage q := by
    intro q
    exact readPage_writePage hx0 (Page.header idx.nextPageNum) q
  refine ⟨⟨idx.nextPageNum, ?_⟩, rfl, ?_, ?_⟩
  · show (new_root M idx r e).readPage idx.headerPageNum = _
    rw [hrd, if_pos rfl]
  · show ((idx.pages ++ [_]).set _ _).length = _
    simp
  · intro x
    rw [readLeaf_eq_asLeaf, hrd]
    by_cases hx : x = idx.headerPageNum
    · rw [if_pos hx, readLeaf_eq_asLeaf, hx, hH.choose_spec]
      rfl
    · rw [if_neg hx, ← readLeaf_eq_asLeaf, a4]
      by_cases hx2 : x = idx.pages.length + 1
      · rw [if_pos hx2, readLeaf_eq_asLeaf, hx2, readPage_none_of_gt (by omega)]
        rfl
      · rw [if_neg hx2]

theorem split_tail_frame (M : Nat) {idx1 : BTreeIndex} {p : Nat} {old : Page}
    (pgOld pgNew : Page) (e : PageKeyPair) (hp : idx1.readPage p = some old)
    (hH : HeaderPage idx1) (hne : p ≠ idx1.headerPageNum) (R : BTreeIndex)
    (hR : R = new_root M ((idx1.writePage p pgOld).allocPage pgNew) p e ∨
      R = (idx1.writePage p pgOld).allocPage pgNew) :
    HeaderPage R ∧ R.headerPageNum = idx1.headerPageNum ∧
    idx1.pages.length ≤ R.pages.length ∧
    ∀ x, R.readLeaf x =
      if x = p then pgOld.asLeaf
      else if x = idx1.pages.length + 1 then pgNew.asLeaf else idx1.readLeaf x := by
  obtain ⟨hp1, hp2⟩ := readPage_some_bounds hp
  obtain ⟨w1, w2, w3, w4⟩ := write_frame pgOld hp hH hne
  obtain ⟨a1, a2, a3, a4⟩ := alloc_frame (idx1.writePage p pgOld) pgNew w1
  have hrd : ∀ x, ((idx1.writePage p pgOld).allocPage pgNew).readLeaf x =
      if x = p then pgOld.asLeaf
      else if x = idx1.pages.length + 1 then pgNew.asLeaf else idx1.readLeaf x := by
    intro x
    rw [a4, w3, w4]
    by_cases hx : x = p
    · rw [if_neg (by omega), if_pos hx, if_pos hx]
    · rw [if_neg hx, if_neg hx]
  rcases hR with hR | hR
  · obtain ⟨n1, n2, n3, n4⟩ := new_root_frame M ((idx1.writePage p pgOld).allocPage pgNew) p e a1
    rw [hR]
    refine ⟨n1, by rw [n2, a2, w2], by omega, ?_⟩
    intro x
    rw [n4, hrd]
  · rw [hR]
    exact ⟨a1, by rw [a2, w2], by omega, hrd⟩

theorem LeafEffect_of_same {L : Nat} {idx idx1 after : BTreeIndex} {entry : RIDKeyPair}
    (h : LeafEffect L idx idx1 entry) (hs : ∀ x, after.readLeaf x = idx1.readLeaf x) :
    LeafEffect L idx after entry := by
  obtain ⟨q, leaf, hq, h⟩ := h
  refine ⟨q, leaf, hq, ?_⟩
  rcases h with ⟨hf, h⟩ | h
  · left
    exact ⟨hf, fun x => by rw [hs, h]⟩
  · right
    exact fun x => by rw [hs, h]

/-- A call of `insert` that returns has rewritten exactly one leaf page, by
`insert_Leaf` or by `split_Leaf`; the pages it writes besides (internal nodes,
the header) do not read as leaves before or after. -/
theorem insert_leafEffect (L M : Nat) (fuel : Nat) :
    ∀ (idx : BTreeIndex) (p : Nat) (isLeaf : Bool) (entry : RIDKeyPair) (after : BTreeIndex)
      (nc : Option PageKeyPair),
      HeaderPage idx → insert L M fuel idx p isLeaf entry = some (after, nc) →
      HeaderPage after ∧ after.headerPageNum = idx.headerPageNum ∧
      idx.pages.length ≤ after.pages.length ∧ LeafEffect L idx after entry := by
  induction fuel with
  | zero => intro idx p isLeaf entry after nc _ h; simp [insert] at h
  | succ n ih =>
    intro idx p isLeaf entry after nc hH h
    unfold insert at h
    cases isLeaf with
    | true =>
      simp only [Bool.not_true, Bool.false_eq_true, if_false] at h
      cases hrd : idx.readLeaf p with
      | none => rw [hrd] at h; exact absurd h (by simp)
      | some leaf =>
        rw [hrd] at h
        simp only at h
        have hpg := readLeaf_some hrd
        have hne : p ≠ idx.headerPageNum := by
          intro e
          obtain ⟨r, hr⟩ := hH
          rw [← e, hpg] at hr
          exact absurd hr (by simp)
        split at h
        · rename_i hfree
          simp only [Option.some.injEq, Prod.mk.injEq] at h
          obtain ⟨h1, h2⟩ := h
          subst h1
          obtain ⟨w1, w2, w3, w4⟩ :=
            write_frame (Page.leaf (insert_Leaf leaf entry)) hpg hH hne
          exact ⟨w1, w2, by omega, p, leaf, hrd, Or.inl ⟨hfree.1, w4⟩⟩
        · have hfr := split_tail_frame M (Page.leaf (split_Leaf L leaf idx.nextPageNum entry).1)
            (Page.leaf (split_Leaf L leaf idx.nextPageNum entry).2.1)
            (split_Leaf L leaf idx.nextPageNum entry).2.2 hpg hH hne
          split at h
          · simp only [Option.some.injEq, Prod.mk.injEq] at h
            obtain ⟨h1, h2⟩ := h
            subst h1
            obtain ⟨f1, f2, f3, f4⟩ := hfr _ (Or.inl rfl)
            exact ⟨f1, f2, f3, p, leaf, hrd, Or.inr f4⟩
          · simp only [Option.some.injEq, Prod.mk.injEq] at h
            obtain ⟨h1, h2⟩ := h
            subst h1
            obtain ⟨f1, f2, f3, f4⟩ := hfr _ (Or.inr rfl)
            exact ⟨f1, f2, f3, p, leaf, hrd, Or.inr f4⟩
    | false =>
      simp only [Bool.not_false, if_true] at h
      cases hrd : idx.readNonLeaf p with
      | none => rw [hrd] at h; exact absurd h (by simp)
      | some cn =>
        rw [hrd] at h
        simp only at h
        cases hrec : insert L M n idx (ChooseSubtree M cn entry.key) (decide (cn.level = 1)) entry
          with
        | none => rw [hrec] at h; exact absurd h (by simp)
        | some r =>
          obtain ⟨idx1, ncc⟩ := r
          rw [hrec] at h
          obtain ⟨hH1, hhdr1, hlen1, heff1⟩ := ih idx _ _ entry idx1 ncc hH hrec
          cases ncc with
          | none =>
            simp only [Option.some.injEq, Prod.mk.injEq] at h
            obtain ⟨h1, h2⟩ := h
            subst h1
            exact ⟨hH1, hhdr1, hlen1, heff1⟩
          | some e =>
            simp only at h
            cases hrd1 : idx1.readNonLeaf p with
            | none => rw [hrd1] at h; exact absurd h (by simp)
            | some cur =>
              rw [hrd1] at h
              simp only at h
              have hpg1 := readNonLeaf_some hrd1
              have hne1 : p ≠ idx1.headerPageNum := by
                intro e'
                obtain ⟨r, hr⟩ := hH1
                rw [← e', hpg1] at hr
                exact absurd hr (by simp)
              have hnl : idx1.readLeaf p = none := by
                rw [readLeaf_eq_asLeaf, hpg1]; rfl
              have hnew : idx1.readLeaf (idx1.pages.length + 1) = none := by
                rw [readLeaf_eq_asLeaf, readPage_none_of_gt (by omega)]; rfl
              split at h
              · simp only [Option.some.injEq, Prod.mk.injEq] at h
                obtain ⟨h1, h2⟩ := h
                subst h1
                obtain ⟨w1, w2, w3, w4⟩ :=
                  write_frame (Page.nonleaf (insert_nonLeaf cur e)) hpg1 hH1 hne1
                refine ⟨w1, by rw [w2, hhdr1], by omega, LeafEffect_of_same heff1 ?_⟩
                intro x
                rw [w4]
                by_cases hx : x = p
                · rw [if_pos hx, hx, hnl]; rfl
                · rw [if_neg hx]
              · have hfr := split_tail_frame M
                  (Page.nonleaf (split_nonLeaf M cur idx1.nextPageNum e).1)
                  (Page.nonleaf (split_nonLeaf M cur idx1.nextPageNum e).2.1)
                  (split_nonLeaf M cur idx1.nextPageNum e).2.2 hpg1 hH1 hne1
                have hsame : ∀ R : BTreeIndex,
                    (∀ x, R.readLeaf x =
                      if x = p then
                        (Page.nonleaf (split_nonLeaf M cur idx1.nextPageNum e).1).asLeaf
                      else if x = idx1.pages.length + 1 then
                        (Page.nonleaf (split_nonLeaf M cur idx1.nextPageNum e).2.1).asLeaf
                      else idx1.readLeaf x) →
                    ∀ x, R.readLeaf x = idx1.readLeaf x := by
                  intro R hR x
                  rw [hR]
                  by_cases hx : x = p
                  · rw [if_pos hx, hx, hnl]; rfl
                  · rw [if_neg hx]
                    by_cases hx2 : x = idx1.pages.length + 1
                    · rw [if_pos hx2, hx2, hnew]; rfl
                    · rw [if_neg hx2]
                split at h
                · simp only [Option.some.injEq, Prod.mk.injEq] at h
                  obtain ⟨h1, h2⟩ := h
                  subst h1
                  obtain ⟨f1, f2, f3, f4⟩ := hfr _ (Or.inl rfl)
                  exact ⟨f1, by rw [f2, hhdr1], by omega,
                    LeafEffect_of_same heff1 (hsame _ f4)⟩
                · simp only [Option.some.injEq, Prod.mk.injEq] at h
                  obtain ⟨h1, h2⟩ := h
                  subst h1
                  obtain ⟨f1, f2, f3, f4⟩ := hfr _ (Or.inr rfl)
                  exact ⟨f1, by rw [f2, hhdr1], by omega,
                    LeafEffect_of_same heff1 (hsame _ f4)⟩

/-! ## The sibling chain conserves the entries -/

theorem readLeaf_zero (idx : BTreeIndex) : idx.readLeaf 0 = none := by
  rw [readLeaf_eq_asLeaf]
  simp [BTreeIndex.readPage]

theorem linked_append (idx : BTreeIndex) (A B : List Nat) :
    ∀ s t, linked idx (A ++ B) s t ↔ ∃ m, linked idx A s m ∧ linked idx B m t := by
  induction A with
  | nil =>
    intro s t
    simp only [List.nil_append, linked]
    constructor
    · intro h; exact ⟨s, rfl, h⟩
    · rintro ⟨m, rfl, h⟩; exact h
  | cons a A ih =>
    intro s t
    simp only [List.cons_append, linked]
    constructor
    · rintro ⟨hs, leaf, hl, h⟩
      obtain ⟨m, h1, h2⟩ := (ih _ _).mp h
      exact ⟨m, ⟨hs, leaf, hl, h1⟩, h2⟩
    · rintro ⟨m, ⟨hs, leaf, hl, h1⟩, h2⟩
      exact ⟨hs, leaf, hl, (ih _ _).mpr ⟨m, h1, h2⟩⟩

theorem linked_congr {idx after : BTreeIndex} (ps : List Nat) :
    ∀ s t, (∀ p ∈ ps, after.readLeaf p = idx.readLeaf p) → linked idx ps s t →
      linked after ps s t := by
  induction ps with
  | nil => intro s t _ h; exact h
  | cons a ps ih =>
    intro s t hc h
    obtain ⟨hs, leaf, hl, h⟩ := h
    refine ⟨hs, leaf, ?_, ih _ _ (fun p hp => hc p (List.mem_cons_of_mem _ hp)) h⟩
    rw [hc a (List.mem_cons_self _ _)]
    exact hl

theorem linked_mem_read {idx : BTreeIndex} (ps : List Nat) :
    ∀ s t, linked idx ps s t → ∀ p ∈ ps, ∃ leaf, idx.readLeaf p = some leaf := by
  induction ps with
  | nil => intro s t _ p hp; simp at hp
  | cons a ps ih =>
    intro s t h p hp
    obtain ⟨_, leaf, hl, h⟩ := h
    rcases List.mem_cons.mp hp with hp | hp
    · rw [hp]; exact ⟨leaf, hl⟩
    · exact ih _ _ h p hp

theorem chainList_append (idx : BTreeIndex) (A B : List Nat) :
    chainList idx (A ++ B) = chainList idx A ++ chainList idx B := by
  induction A with
  | nil => rfl
  | cons a A ih =>
    show _ ++ chainList idx (A ++ B) = (_ ++ chainList idx A) ++ chainList idx B
    rw [ih, List.append_assoc]

theorem chainList_congr {idx after : BTreeIndex} (ps : List Nat)
    (hc : ∀ p ∈ ps, after.readLeaf p = idx.readLeaf p) :
    chainList after ps = chainList idx ps := by
  induction ps with
  | nil => rfl
  | cons a ps ih =>
    simp only [chainList]
    rw [hc a (List.mem_cons_self _ _), ih (fun p hp => hc p (List.mem_cons_of_mem _ hp))]

/-- With enough fuel, `leafChain` reads the leaves of a chain that ends with a
null sibling. -/
theorem leafChain_eq_chainList (idx : BTreeIndex) (ps : List Nat) :
    ∀ fuel s, linked idx ps s 0 → ps.length ≤ fuel → leafChain idx fuel s = chainList idx ps := by
  induction ps with
  | nil =>
    intro fuel s h _
    have hs : s = 0 := h
    subst hs
    cases fuel with
    | zero => rfl
    | succ f => simp [leafChain, readLeaf_zero, chainList]
  | cons a ps ih =>
    intro fuel s h hlen
    obtain ⟨hs, leaf, hl, h⟩ := h
    subst hs
    cases fuel with
    | zero => simp at hlen
    | succ f =>
      simp only [leafChain, chainList, hl]
      congr 1
      by_cases hz : leaf.rightSibPageNo = 0
      · rw [if_pos hz]
        rw [hz] at h
        cases ps with
        | nil => rfl
        | cons b ps =>
          obtain ⟨hb, leaf2, hl2, _⟩ := h
          rw [← hb, readLeaf_zero] at hl2
          exact absurd hl2 (by simp)
      · rw [if_neg hz]
        exact ih f _ h (by simp at hlen; omega)

/-- One `insert` on a store with the leaf-level invariant: the invariant holds
again, and the entries read along the sibling chain are those before plus the
incoming pair (when its locator is not null). -/
theorem chain_step (L : Nat) {idx after : BTreeIndex} {entry : RIDKeyPair} (hL : 2 ≤ L)
    (hI : ChainInv L idx) (hH2 : HeaderPage after) (hlen : idx.pages.length ≤ after.pages.length)
    (heff : LeafEffect L idx after entry) :
    ChainInv L after ∧
    (entry.rid.page_number ≠ 0 →
      List.Perm after.chainEntries ((entry.key, entry.rid) :: idx.chainEntries)) := by
  obtain ⟨hH, ps, hlk, hnd, hpl, hall⟩ := hI
  obtain ⟨q, leaf, hq, heff⟩ := heff
  obtain ⟨hqps, hk, hr⟩ := hall q leaf hq
  obtain ⟨A, B, rfl⟩ := List.append_of_mem hqps
  have hnd2 : (q :: (A ++ B)).Nodup := List.nodup_middle.mp hnd
  obtain ⟨hqAB, hndAB⟩ := List.nodup_cons.mp hnd2
  have hqA : ∀ p ∈ A, p ≠ q := fun p hp e => hqAB (List.mem_append_left B (e ▸ hp))
  have hqB : ∀ p ∈ B, p ≠ q := fun p hp e => hqAB (List.mem_append_right A (e ▸ hp))
  obtain ⟨m, hA, hqBl⟩ := (linked_append idx A (q :: B) _ _).mp hlk
  obtain ⟨hm, leaf2, hl2, hB⟩ := hqBl
  have hleaf2 : leaf2 = leaf := by
    rw [hq] at hl2; exact (Option.some.inj hl2).symm
  subst hleaf2
  subst hm
  have hbefore : idx.chainEntries
      = chainList idx A ++ (leaf2.entries ++ chainList idx B) := by
    unfold BTreeIndex.chainEntries
    rw [leafChain_eq_chainList idx _ _ _ hlk hpl, chainList_append]
    simp only [chainList, hq]
  rcases heff with ⟨hf, hrd⟩ | hrd
  · obtain ⟨perm, lk, lr, rs⟩ := insert_Leaf_bag hk hr (L - 1) (by omega) (by omega) hf entry
    have hcA : ∀ p ∈ A, after.readLeaf p = idx.readLeaf p := fun p hp => by
      rw [hrd, if_neg (hqA p hp)]
    have hcB : ∀ p ∈ B, after.readLeaf p = idx.readLeaf p := fun p hp => by
      rw [hrd, if_neg (hqB p hp)]
    have hqa : after.readLeaf m = some (insert_Leaf leaf2 entry) := by rw [hrd, if_pos rfl]
    have hlk2 : linked after (A ++ m :: B) originalRootLeaf 0 :=
      (linked_append after A (m :: B) _ _).mpr
        ⟨m, linked_congr A _ _ hcA hA,
          ⟨rfl, _, hqa, by rw [rs]; exact linked_congr B _ _ hcB hB⟩⟩
    refine ⟨⟨hH2, A ++ m :: B, hlk2, hnd, by omega, ?_⟩, ?_⟩
    · intro p l hp
      rw [hrd] at hp
      by_cases hpq : p = m
      · rw [if_pos hpq] at hp
        have : l = insert_Leaf leaf2 entry := (Option.some.inj hp).symm
        rw [this, hpq]
        exact ⟨hqps, lk, lr⟩
      · rw [if_neg hpq] at hp
        exact hall p l hp
    · intro he
      have hafter : after.chainEntries
          = chainList idx A ++ ((insert_Leaf leaf2 entry).entries ++ chainList idx B) := by
        unfold BTreeIndex.chainEntries
        rw [leafChain_eq_chainList after _ _ _ hlk2 (by omega), chainList_append]
        simp only [chainList, hqa]
        rw [chainList_congr A hcA, chainList_congr B hcB]
      rw [hafter, hbefore]
      refine (List.Perm.append_left _ (List.Perm.append_right _ (perm he))).trans ?_
      rw [List.cons_append]
      exact List.perm_middle
  · obtain ⟨perm, k1, r1, k2, r2, rs1, rs2⟩ :=
      split_Leaf_bag L leaf2 (idx.pages.length + 1) entry hL hk hr
    have hbound : ∀ p ∈ A ++ m :: B, p ≤ idx.pages.length := by
      intro p hp
      obtain ⟨l, hl⟩ := linked_mem_read _ _ _ hlk p hp
      exact (readPage_some_bounds (readLeaf_some hl)).2
    have hqn : m ≠ idx.pages.length + 1 := by
      have := hbound m hqps; omega
    have hnA : ∀ p ∈ A, p ≠ idx.pages.length + 1 := fun p hp => by
      have := hbound p (List.mem_append_left _ hp); omega
    have hnB : ∀ p ∈ B, p ≠ idx.pages.length + 1 := fun p hp => by
      have := hbound p (List.mem_append_right _ (List.mem_cons_of_mem _ hp)); omega
    have hcA : ∀ p ∈ A, after.readLeaf p = idx.readLeaf p := fun p hp => by
      rw [hrd, if_neg (hqA p hp), if_neg (hnA p hp)]
    have hcB : ∀ p ∈ B, after.readLeaf p = idx.readLeaf p := fun p hp => by
      rw [hrd, if_neg (hqB p hp), if_neg (hnB p hp)]
    have hqa : after.readLeaf m
        = some (split_Leaf L leaf2 (idx.pages.length + 1) entry).1 := by
      rw [hrd, if_pos rfl]
    have hna : after.readLeaf (idx.pages.length + 1)
        = some (split_Leaf L leaf2 (idx.pages.length + 1) entry).2.1 := by
      rw [hrd, if_neg (fun e => hqn e.symm), if_pos rfl]
    have hlk2 : linked after (A ++ m :: (idx.pages.length + 1) :: B) originalRootLeaf 0 :=
      (linked_append after A (m :: (idx.pages.length + 1) :: B) _ _).mpr
        ⟨m, linked_congr A _ _ hcA hA,
          ⟨rfl, _, hqa, ⟨rs1, _, hna, by rw [rs2]; exact linked_congr B _ _ hcB hB⟩⟩⟩
    have hlen2 : idx.pages.length + 1 ≤ after.pages.length :=
      (readPage_some_bounds (readLeaf_some hna)).2
    have hnd3 : (A ++ m :: (idx.pages.length + 1) :: B).Nodup := by
      have hperm : List.Perm (A ++ m :: (idx.pages.length + 1) :: B)
          ((idx.pages.length + 1) :: (A ++ m :: B)) := by
        have h1 : A ++ m :: (idx.pages.length + 1) :: B
            = (A ++ [m]) ++ (idx.pages.length + 1) :: B := by simp
        have h2 : A ++ m :: B = (A ++ [m]) ++ B := by simp
        rw [h1, h2]
        exact List.perm_middle
      rw [hperm.nodup_iff, List.nodup_cons]
      refine ⟨?_, hnd⟩
      intro hmem
      have := hbound _ hmem
      omega
    refine ⟨⟨hH2, A ++ m :: (idx.pages.length + 1) :: B, hlk2, hnd3, ?_, ?_⟩, ?_⟩
    · simp only [List.length_append, List.length_cons] at hpl ⊢
      omega
    · intro p l hp
      rw [hrd] at hp
      by_cases hpq : p = m
      · rw [if_pos hpq] at hp
        have : l = (split_Leaf L leaf2 (idx.pages.length + 1) entry).1 :=
          (Option.some.inj hp).symm
        rw [this, hpq]
        exact ⟨by simp, k1, r1⟩
      · rw [if_neg hpq] at hp
        by_cases hpn : p = idx.pages.length + 1
        · rw [if_pos hpn] at hp
          have : l = (split_Leaf L leaf2 (idx.pages.length + 1) entry).2.1 :=
            (Option.some.inj hp).symm
          rw [this, hpn]
          exact ⟨by simp, k2, r2⟩
        · rw [if_neg hpn] at hp
          obtain ⟨h1, h2, h3⟩ := hall p l hp
          refine ⟨?_, h2, h3⟩
          rcases List.mem_append.mp h1 with h | h
          · exact List.mem_append_left _ h
          · rcases List.mem_cons.mp h with h | h
            · exact absurd h hpq
            · exact List.mem_append_right _
                (List.mem_cons_of_mem _ (List.mem_cons_of_mem _ h))
    · intro he
      have hafter : after.chainEntries
          = chainList idx A ++ ((split_Leaf L leaf2 (idx.pages.length + 1) entry).1.entries ++
            ((split_Leaf L leaf2 (idx.pages.length + 1) entry).2.1.entries ++
              chainList idx B)) := by
        unfold BTreeIndex.chainEntries
        rw [leafChain_eq_chainList after _ _ _ hlk2
          (by simp only [List.length_append, List.length_cons] at hpl ⊢; omega),
          chainList_append]
        simp only [chainList, hqa, hna]
        rw [chainList_congr A hcA, chainList_congr B hcB]
      rw [hafter, hbefore, ← List.append_assoc _ _ (chainList idx B)]
      refine (List.Perm.append_left _ (List.Perm.append_right _ (perm he))).trans ?_
      rw [List.cons_append]
      exact List.perm_middle

theorem ChainInv_create (L : Nat) : ChainInv L (BTreeIndex.create L) := by
  refine ⟨⟨2, rfl⟩, [2], ⟨rfl, LeafNodeInt.zeroed L 0, rfl, rfl⟩, by simp, by
    simp [BTreeIndex.create], ?_⟩
  intro p leaf hp
  match p with
  | 0 => rw [readLeaf_zero] at hp; exact absurd hp (by simp)
  | 1 =>
    have : (BTreeIndex.create L).readLeaf 1 = none := rfl
    rw [this] at hp; exact absurd hp (by simp)
  | 2 =>
    have : (BTreeIndex.create L).readLeaf 2 = some (LeafNodeInt.zeroed L 0) := rfl
    rw [this] at hp
    have hl : leaf = LeafNodeInt.zeroed L 0 := (Option.some.inj hp).symm
    rw [hl]
    exact ⟨by simp, by simp [LeafNodeInt.zeroed], by simp [LeafNodeInt.zeroed]⟩
  | n + 3 =>
    have : (BTreeIndex.create L).readLeaf (n + 3) = none := by
      rw [readLeaf_eq_asLeaf, readPage_none_of_gt (by simp [BTreeIndex.create])]
      rfl
    rw [this] at hp; exact absurd hp (by simp)

/-- A call `insertEntry(k, rid)` that returns keeps the leaf-level invariant,
and the entries on the sibling chain afterwards are those before plus
`(k, rid)` when the locator is not null. -/
theorem chain_insertEntry (L M : Nat) {idx after : BTreeIndex} (k : Int) (rid : RecordId)
    (hL : 2 ≤ L) (hI : ChainInv L idx)
    (h : insertEntry L M idx (some k) rid = some after) :
    ChainInv L after ∧
    (rid.page_number ≠ 0 → List.Perm after.chainEntries ((k, rid) :: idx.chainEntries)) := by
  unfold insertEntry at h
  simp only at h
  cases hrec : insert L M (idx.pages.length + 1) idx idx.rootPageNum idx.if_rootleaf ⟨rid, k⟩ with
  | none => rw [hrec] at h; exact absurd h (by simp)
  | some r =>
    rw [hrec] at h
    simp only [Option.some.injEq] at h
    obtain ⟨i1, nc⟩ := r
    simp only at h
    subst h
    obtain ⟨e1, _, e3, e4⟩ := insert_leafEffect L M _ idx _ _ _ i1 nc hI.1 hrec
    exact chain_step L hL hI e1 e3 e4

theorem ChainInv_insertEntries (L M : Nat) (hL : 2 ≤ L) (es : List (Int × RecordId)) :
    ∀ (idx after : BTreeIndex), ChainInv L idx → insertEntries L M idx es = some after →
      ChainInv L after := by
  induction es with
  | nil =>
    intro idx after hI h
    simp only [insertEntries, Option.some.injEq] at h
    rw [← h]; exact hI
  | cons e es ih =>
    intro idx after hI h
    unfold insertEntries at h
    cases h1 : insertEntry L M idx (some e.1) e.2 with
    | none => rw [h1] at h; exact absurd h (by simp)
    | some i1 =>
      rw [h1] at h
      exact ih i1 after (chain_insertEntry L M e.1 e.2 hL hI h1).1 h

/-- Entry conservation for the calls that return: for every tree built by
`insertEntry` calls from a freshly created index (leaf capacity `L ≥ 2`) and
every call `insertEntry(k, rid)` with `rid.page_number != 0` that returns, the
(key, locator) pairs in the occupied slots of the leaves on the sibling chain
from the original root leaf are, after the call, a permutation of those before
the call plus the one pair `(k, rid)`. -/
theorem entry_conservation_of_returning_call (L M : Nat) (es : List (Int × RecordId))
    (idx after : BTreeIndex) (k : Int) (rid : RecordId) (hL : 2 ≤ L)
    (hb : build L M es = some idx) (hr : rid.page_number ≠ 0)
    (hi : insertEntry L M idx (some k) rid = some after) :
    List.Perm after.chainEntries ((k, rid) :: idx.chainEntries) :=
  (chain_insertEntry L M k rid hL
    (ChainInv_insertEntries L M hL es _ _ (ChainInv_create L) hb) hi).2 hr

theorem entry_conservation_of_returning_call_witness :
    (2 ≤ 2 ∧ build 2 3 [(10, ⟨1, 1⟩), (20, ⟨1, 2⟩)] = some sampleTree ∧
      (⟨1, 3⟩ : RecordId).page_number ≠ 0 ∧
      insertEntry 2 3 sampleTree (some 30) ⟨1, 3⟩ = some sampleTreeAfter) ∧
    List.Perm sampleTreeAfter.chainEntries ((30, ⟨1, 3⟩) :: sampleTree.chainEntries) :=
  ⟨⟨by decide, by rfl, by decide, by rfl⟩,
    entry_conservation_of_returning_call 2 3 [(10, ⟨1, 1⟩), (20, ⟨1, 2⟩)] sampleTree
      sampleTreeAfter 30 ⟨1, 3⟩ (by decide) (by rfl) (by decide) (by rfl)⟩

/-- C18 (entry conservation), evaluated on the code at two trees built from a
freshly created index.  (a) `L = 2`, `M = 2`, keys 20, 19, 18, 17, 16: the
tree holds the five entries on its sibling chain; its root (page 8) sends key
15 to the internal node of page 4, whose `pageNoArray[0]` is 0 because
`split_nonLeaf` zeroed it, so `ChooseSubtree` hands page id 0 to `readPage` and
`insertEntry(15, (1, 6))` does not complete: the pair is not stored.
(b) `L = 2`, `M = 3`, keys 10, 20, 30, -20, -10: the root (page 4) has
`level = -10` over leaves, `insertEntry(40, (1, 6))` descends to the leaf of
page 3 as if it were an internal node and does not complete either.  In both
cases the call as its caller sees it (`insertEntry_outcome`) ends with the five
entries on the chain, not with six. -/
theorem C18_insertEntry_does_not_store_the_pair :
    (build 2 2 [(20, ⟨1, 1⟩), (19, ⟨1, 2⟩), (18, ⟨1, 3⟩), (17, ⟨1, 4⟩), (16, ⟨1, 5⟩)]).map
        (fun t => (t.chainEntries, t.rootPageNum, t.readPage 8, t.readPage 4))
      = some ([(16, ⟨1, 5⟩), (17, ⟨1, 4⟩), (18, ⟨1, 3⟩), (19, ⟨1, 2⟩), (20, ⟨1, 1⟩)], 8,
          some (Page.nonleaf ⟨0, [19, 0], [4, 7, 0]⟩),
          some (Page.nonleaf ⟨1, [18, 0], [0, 6, 0]⟩)) ∧
    ChooseSubtree 2 ⟨0, [19, 0], [4, 7, 0]⟩ 15 = 4 ∧
    ChooseSubtree 2 ⟨1, [18, 0], [0, 6, 0]⟩ 15 = 0 ∧
    (build 2 2 [(20, ⟨1, 1⟩), (19, ⟨1, 2⟩), (18, ⟨1, 3⟩), (17, ⟨1, 4⟩), (16, ⟨1, 5⟩)]).bind
        (fun t => insertEntry 2 2 t (some 15) ⟨1, 6⟩) = none ∧
    (build 2 3 [(10, ⟨1, 1⟩), (20, ⟨1, 2⟩), (30, ⟨1, 3⟩), (-20, ⟨1, 4⟩), (-10, ⟨1, 5⟩)]).map
        (fun t => (t.chainEntries, t.rootPageNum, t.readPage 4, (t.readLeaf 3).isSome))
      = some ([(-20, ⟨1, 4⟩), (-10, ⟨1, 5⟩), (10, ⟨1, 1⟩), (20, ⟨1, 2⟩), (30, ⟨1, 3⟩)], 4,
          some (Page.nonleaf ⟨-10, [1, 20, 0], [5, 2, 3, 0]⟩), true) ∧
    ChooseSubtree 3 ⟨-10, [1, 20, 0], [5, 2, 3, 0]⟩ 40 = 3 ∧
    (build 2 3 [(10, ⟨1, 1⟩), (20, ⟨1, 2⟩), (30, ⟨1, 3⟩), (-20, ⟨1, 4⟩), (-10, ⟨1, 5⟩)]).bind
        (fun t => insertEntry 2 3 t (some 40) ⟨1, 6⟩) = none ∧
    (build 2 2 [(20, ⟨1, 1⟩), (19, ⟨1, 2⟩), (18, ⟨1, 3⟩), (17, ⟨1, 4⟩), (16, ⟨1, 5⟩)]).map
        (fun t => ((insertEntry_outcome 2 2 t (some 15) ⟨1, 6⟩).result,
          (insertEntry_outcome 2 2 t (some 15) ⟨1, 6⟩).state.chainEntries))
      = some (Except.error Exn.InvalidPage,
          [(16, ⟨1, 5⟩), (17, ⟨1, 4⟩), (18, ⟨1, 3⟩), (19, ⟨1, 2⟩), (20, ⟨1, 1⟩)]) ∧
    (build 2 3 [(10, ⟨1, 1⟩), (20, ⟨1, 2⟩), (30, ⟨1, 3⟩), (-20, ⟨1, 4⟩), (-10, ⟨1, 5⟩)]).map
        (fun t => ((insertEntry_outcome 2 3 t (some 40) ⟨1, 6⟩).result,
          (insertEntry_outcome 2 3 t (some 40) ⟨1, 6⟩).state.chainEntries))
      = some (Except.error Exn.InvalidPage,
          [(-20, ⟨1, 4⟩), (-10, ⟨1, 5⟩), (10, ⟨1, 1⟩), (20, ⟨1, 2⟩), (30, ⟨1, 3⟩)]) := by
  refine ⟨by rfl, by decide, by decide, by rfl, by rfl, by decide, by rfl, by rfl, by rfl⟩

/-! ## Shape of the internal nodes after `insert_nonLeaf` and `split_nonLeaf` -/

end badgerdb
